import Mathlib

/-!
Verification of the `substring_structures` repository: a shallow embedding of
`src/substring_structures/aho_corasick.py`, the legacy `src/aho_corasick.py`,
and `src/substring_structures/knuth_morris_pratt.py`, together with theorems
settling the behavioural claims about them.

Strings are modelled as `List Char`.  Python `None`-able fields become
`Option`, the mutable node graph becomes an arena (`List ACNode`) addressed by
natural-number indices (the root is index `0`), and Python dicts become
association lists.  Unbounded `while` loops are given explicit fuel; fuel
exhaustion (or an out-of-range index, which in Python would raise) surfaces as
`none`, so a function that "never raises" in the spec is one we prove returns
`some`.
-/

namespace SubstringStructures

/-- One node of the Aho-Corasick trie (`_ACNode` in the source): an optional
terminal `value`, a dict from character to child node (association list of
arena indices), and an optional suffix (failure) link. -/
structure ACNode where
  value : Option (List Char)
  children : List (Char × Nat)
  suffix_link : Option Nat
deriving DecidableEq

/-- Lookup of `char` in a node's `children` dict. -/
def childLookup (l : List (Char × Nat)) (c : Char) : Option Nat :=
  (l.find? (fun p => p.1 == c)).map (·.2)

/-- `node.value = v` on the arena. -/
def setValue (nodes : List ACNode) (i : Nat) (v : Option (List Char)) : List ACNode :=
  match nodes.get? i with
  | none => nodes
  | some nd => nodes.set i { nd with value := v }

/-- `node.suffix_link = s` on the arena. -/
def setSuffix (nodes : List ACNode) (i : Nat) (s : Option Nat) : List ACNode :=
  match nodes.get? i with
  | none => nodes
  | some nd => nodes.set i { nd with suffix_link := s }

/-- `AhoCorasick._move_forward_from_node`: walk from `node` along suffix links
until a child labelled `c` is found (return it) or the `None` link past the
root is reached (return the root, index `0`).  The values of all nodes walked
through are collected into the accumulator.  `none` = fuel exhausted or a
dangling index (impossible for built automata, proved later). -/
def mfAcc (nd : ACNode) (acc : Finset (List Char)) : Finset (List Char) :=
  match nd.value with
  | some v => insert v acc
  | none => acc

def mfAux (nodes : List ACNode) :
    Nat → Option Nat → Char → Finset (List Char) → Option (Nat × Finset (List Char))
  | _, none, _, acc => some (0, acc)
  | 0, some _, _, _ => none
  | fuel + 1, some i, c, acc =>
    match nodes.get? i with
    | none => none
    | some nd =>
      match childLookup nd.children c with
      | some j => some (j, mfAcc nd acc)
      | none => mfAux nodes fuel nd.suffix_link c (mfAcc nd acc)

/-- Allocation of a fresh child: the parent's dict gains an edge to the fresh
index `nodes.length` and a blank node is appended to the arena. -/
def snocChild (nodes : List ACNode) (cur : Nat) (curNode : ACNode) (c : Char) : List ACNode :=
  nodes.set cur { curNode with children := curNode.children ++ [(c, nodes.length)] }
    ++ [⟨none, [], none⟩]

/-- The body of the constructor's per-string step at character column `i`:
if the string is exhausted the entry is dropped (`none` in the second
component); otherwise descend to (or create) the child for `string[i]`,
setting its suffix link on creation and its value when at the string's last
character.  Mirrors the inner `for` body of `AhoCorasick.__init__`. -/
def processString (i : Nat) (nodes : List ACNode) (s : List Char) (cur : Nat) :
    Option (List ACNode × Option Nat) :=
  if i ≥ s.length then some (nodes, none)
  else
    match nodes.get? cur with
    | none => none
    | some curNode =>
      let c := s.getD i default
      match childLookup curNode.children c with
      | none =>
        let childIdx := nodes.length
        let nodes1 := snocChild nodes cur curNode c
        match mfAux nodes1 (nodes1.length + 1) curNode.suffix_link c ∅ with
        | none => none
        | some (sfx, _) =>
          let nodes2 := setSuffix nodes1 childIdx (some sfx)
          let nodes3 := if i = s.length - 1 then setValue nodes2 childIdx (some s) else nodes2
          some (nodes3, some childIdx)
      | some childIdx =>
        let nodes3 := if i = s.length - 1 then setValue nodes childIdx (some s) else nodes
        some (nodes3, some childIdx)

/-- One full column of the constructor's `while` loop: every live
`(string, current_node)` entry is processed at character index `i`; exhausted
strings are popped, the others keep their dict position with the node advanced. -/
def processColumn (i : Nat) (nodes : List ACNode) :
    List (List Char × Nat) → Option (List ACNode × List (List Char × Nat))
  | [] => some (nodes, [])
  | (s, cur) :: rest =>
    match processString i nodes s cur with
    | none => none
    | some (nodes1, res) =>
      match processColumn i nodes1 rest with
      | none => none
      | some (nodes2, rest1) =>
        some (nodes2, match res with
          | none => rest1
          | some child => (s, child) :: rest1)

/-- The constructor's `while any(current_nodes_by_string)` loop.  Python's
`any` over a dict is true when some key is truthy, i.e. some live string is
nonempty. -/
def buildLoop : Nat → Nat → List ACNode → List (List Char × Nat) → Option (List ACNode)
  | 0, _, nodes, work => if work.any (fun sc => !sc.1.isEmpty) then none else some nodes
  | fuel + 1, i, nodes, work =>
    if work.any (fun sc => !sc.1.isEmpty) then
      match processColumn i nodes work with
      | none => none
      | some (nodes1, work1) => buildLoop fuel (i + 1) nodes1 work1
    else some nodes

/-- Key order of `{string: self._root for string in strings}`: duplicates
collapse to their first occurrence, insertion order otherwise kept. -/
def pyDedup (l : List (List Char)) : List (List Char) :=
  l.foldl (fun acc s => if s ∈ acc then acc else acc ++ [s]) []

/-- The packaged automaton: the original `strings` argument plus the node
arena (root at index `0`). -/
structure AhoCorasick where
  strings : List (List Char)
  nodes : List ACNode
deriving DecidableEq

/-- `AhoCorasick.__init__` for a collection argument: root created first (made
terminal with value `""` when `""` is among the patterns), then the
column-synchronous trie/suffix-link construction. -/
def buildAC (strings : List (List Char)) : Option AhoCorasick :=
  let rootValue : Option (List Char) := if [] ∈ strings then some [] else none
  let nodes0 : List ACNode := [⟨rootValue, [], none⟩]
  let work0 := (pyDedup strings).map (fun s => (s, 0))
  let maxLen := (strings.map (·.length)).foldl max 0
  match buildLoop (maxLen + 2) 0 nodes0 work0 with
  | none => none
  | some nodes => some ⟨strings, nodes⟩

/-- The maple-leaf sentinel character appended to the superstring. -/
def sentinelChar : Char := '🍁'

/-- The `for char in superstring` loop of `find_substrings_in_superstring`. -/
def findLoop (nodes : List ACNode) :
    Nat → List Char → Finset (List Char) → Option (Finset (List Char))
  | _, [], found => some found
  | cur, c :: rest, found =>
    match mfAux nodes (nodes.length + 1) (some cur) c ∅ with
    | none => none
    | some (nxt, traversed) => findLoop nodes nxt rest (found ∪ traversed)

/-- `AhoCorasick.find_substrings_in_superstring`: append the sentinel, seed the
result with `""` when the root is terminal, then run the single-state walk. -/
def find_substrings_in_superstring (a : AhoCorasick) (s : List Char) :
    Option (Finset (List Char)) :=
  let ss := s ++ [sentinelChar]
  match a.nodes.get? 0 with
  | none => none
  | some root =>
    let found0 : Finset (List Char) := if root.value.isSome then {[]} else ∅
    findLoop a.nodes 0 ss found0

/-- Build-then-query composition used by the claims. -/
def acMatches (strings : List (List Char)) (s : List Char) : Option (Finset (List Char)) :=
  (buildAC strings).bind (fun a => find_substrings_in_superstring a s)

namespace Legacy

/-!  Embedding of the legacy `src/aho_corasick.py`.  Its constructor is the
same column-synchronous loop (`ACNode` has the same three fields), but
`_move_forward_from_node` returns only the arrival node, and
`find_substrings_in_superstring` tracks a *set* of current nodes, re-seeded
with the root at every character, harvesting only each arrival node's value. -/

/-- Legacy `_move_forward_from_node`. -/
def mfLegacy (nodes : List ACNode) : Nat → Option Nat → Char → Option Nat
  | _, none, _ => some 0
  | 0, some _, _ => none
  | fuel + 1, some i, c =>
    match nodes.get? i with
    | none => none
    | some nd =>
      match childLookup nd.children c with
      | some j => some j
      | none => mfLegacy nodes fuel nd.suffix_link c

/-- Legacy per-string constructor step (identical to the packaged one except
that `_move_forward_from_node` returns a bare node). -/
def processString (i : Nat) (nodes : List ACNode) (s : List Char) (cur : Nat) :
    Option (List ACNode × Option Nat) :=
  if i ≥ s.length then some (nodes, none)
  else
    match nodes.get? cur with
    | none => none
    | some curNode =>
      let c := s.getD i default
      match childLookup curNode.children c with
      | none =>
        let childIdx := nodes.length
        let nodes1 :=
          nodes.set cur { curNode with children := curNode.children ++ [(c, childIdx)] }
            ++ [⟨none, [], none⟩]
        match mfLegacy nodes1 (nodes1.length + 1) curNode.suffix_link c with
        | none => none
        | some sfx =>
          let nodes2 := setSuffix nodes1 childIdx (some sfx)
          let nodes3 := if i = s.length - 1 then setValue nodes2 childIdx (some s) else nodes2
          some (nodes3, some childIdx)
      | some childIdx =>
        let nodes3 := if i = s.length - 1 then setValue nodes childIdx (some s) else nodes
        some (nodes3, some childIdx)

/-- Legacy constructor column. -/
def processColumn (i : Nat) (nodes : List ACNode) :
    List (List Char × Nat) → Option (List ACNode × List (List Char × Nat))
  | [] => some (nodes, [])
  | (s, cur) :: rest =>
    match Legacy.processString i nodes s cur with
    | none => none
    | some (nodes1, res) =>
      match Legacy.processColumn i nodes1 rest with
      | none => none
      | some (nodes2, rest1) =>
        some (nodes2, match res with
          | none => rest1
          | some child => (s, child) :: rest1)

/-- Legacy constructor `while` loop. -/
def buildLoop : Nat → Nat → List ACNode → List (List Char × Nat) → Option (List ACNode)
  | 0, _, nodes, work => if work.any (fun sc => !sc.1.isEmpty) then none else some nodes
  | fuel + 1, i, nodes, work =>
    if work.any (fun sc => !sc.1.isEmpty) then
      match Legacy.processColumn i nodes work with
      | none => none
      | some (nodes1, work1) => Legacy.buildLoop fuel (i + 1) nodes1 work1
    else some nodes

/-- Legacy `AhoCorasick.__init__` (the legacy object stores only `self.root`,
so the build result is just the arena). -/
def buildAC (strings : List (List Char)) : Option (List ACNode) :=
  let rootValue : Option (List Char) := if [] ∈ strings then some [] else none
  let nodes0 : List ACNode := [⟨rootValue, [], none⟩]
  let work0 := (pyDedup strings).map (fun s => (s, 0))
  let maxLen := (strings.map (·.length)).foldl max 0
  Legacy.buildLoop (maxLen + 2) 0 nodes0 work0

/-- Inner `for node in current_nodes` of the legacy matcher: move every live
node forward with `c`, harvest each arrival node's value, and accumulate the
next node set (seeded with the root, duplicates collapsed). -/
def findStep (nodes : List ACNode) (c : Char) :
    List Nat → List Nat → Finset (List Char) → Option (List Nat × Finset (List Char))
  | [], nextAcc, found => some (nextAcc, found)
  | n :: rest, nextAcc, found =>
    match mfLegacy nodes (nodes.length + 1) (some n) c with
    | none => none
    | some nxt =>
      match nodes.get? nxt with
      | none => none
      | some nd =>
        let found2 := match nd.value with
          | some v => insert v found
          | none => found
        let nextAcc2 := if nxt ∈ nextAcc then nextAcc else nextAcc ++ [nxt]
        Legacy.findStep nodes c rest nextAcc2 found2

/-- Legacy `for char in superstring` loop. -/
def findLoop (nodes : List ACNode) :
    List Nat → List Char → Finset (List Char) → Option (Finset (List Char))
  | _, [], found => some found
  | cur, c :: rest, found =>
    match Legacy.findStep nodes c cur [0] found with
    | none => none
    | some (nxt, found2) => Legacy.findLoop nodes nxt rest found2

/-- Legacy `find_substrings_in_superstring`: no sentinel, node-set semantics. -/
def find_substrings_in_superstring (nodes : List ACNode) (s : List Char) :
    Option (Finset (List Char)) :=
  match nodes.get? 0 with
  | none => none
  | some root =>
    let found0 : Finset (List Char) := if root.value.isSome then {[]} else ∅
    Legacy.findLoop nodes [0] s found0

/-- Legacy build-then-query composition. -/
def acMatches (strings : List (List Char)) (s : List Char) : Option (Finset (List Char)) :=
  (Legacy.buildAC strings).bind
    (fun nodes => Legacy.find_substrings_in_superstring nodes s)

end Legacy

/-- `w` occurs (contiguously) inside `s`. -/
def Substr (w s : List Char) : Prop := ∃ t₁ t₂, s = t₁ ++ w ++ t₂

/-- Brute-force scan: try every start position. -/
def isSubstringBrute (w s : List Char) : Bool :=
  (List.range (s.length + 1)).any (fun i => decide ((s.drop i).take w.length = w))

/-- Brute-force reference answer `{p in P : p substring of S}`. -/
def bruteMatches (strings : List (List Char)) (s : List Char) : Finset (List Char) :=
  (strings.filter (fun p => isSubstringBrute p s)).toFinset

/-! ### Structural notions on the node arena -/

/-- `nodes` has a trie edge labelled `c` from index `i` to index `j`. -/
def isEdge (nodes : List ACNode) (i : Nat) (c : Char) (j : Nat) : Prop :=
  ∃ nd, nodes.get? i = some nd ∧ (c, j) ∈ nd.children

/-- The first arena index holding an edge into `j` (the trie parent). -/
def parentOf (nodes : List ACNode) (j : Nat) : Option Nat :=
  (List.range nodes.length).find? (fun i =>
    match nodes.get? i with
    | some nd => nd.children.any (fun p => p.2 == j)
    | none => false)

/-- Trie depth of an arena index: distance from the root along parent edges
(well-defined because construction only ever adds edges from an existing node
to a strictly larger fresh index). -/
def depthIdx (nodes : List ACNode) (j : Nat) : Nat :=
  match parentOf nodes j with
  | none => 0
  | some i => if h : i < j then depthIdx nodes i + 1 else 0
termination_by j
decreasing_by exact h

/-- Reachability along suffix links. -/
inductive SuffixReach (nodes : List ACNode) : Nat → Nat → Prop
  | refl (i : Nat) : SuffixReach nodes i i
  | step {i j k : Nat} (nd : ACNode) (h1 : nodes.get? i = some nd)
      (h2 : nd.suffix_link = some j) (h3 : SuffixReach nodes j k) : SuffixReach nodes i k

/-- Suffix links always point to strictly earlier-created (smaller) indices. -/
def SuffixLt (nodes : List ACNode) : Prop :=
  ∀ i nd j, nodes.get? i = some nd → nd.suffix_link = some j → j < i

/-- Every stored child index is a valid non-root index. -/
def ChildrenBound (nodes : List ACNode) : Prop :=
  ∀ k nd, nodes.get? k = some nd → ∀ p ∈ nd.children, 1 ≤ p.2 ∧ p.2 < nodes.length

/-- Edges go from smaller to strictly larger indices. -/
def EdgeLt (nodes : List ACNode) : Prop :=
  ∀ i c j, isEdge nodes i c j → i < j

/-- Each index has at most one incoming edge (tree shape), and that edge has
a single label. -/
def EdgeUniq (nodes : List ACNode) : Prop :=
  ∀ i c j i2 c2, isEdge nodes i c j → isEdge nodes i2 c2 j → i = i2 ∧ c = c2

/-- Every non-root node carries a suffix link. -/
def SuffixTotal (nodes : List ACNode) : Prop :=
  ∀ j nd, nodes.get? j = some nd → 1 ≤ j → nd.suffix_link.isSome = true

/-- Suffix links strictly decrease trie depth. -/
def SuffixDepth (nodes : List ACNode) : Prop :=
  ∀ j nd k, nodes.get? j = some nd → nd.suffix_link = some k →
    depthIdx nodes k < depthIdx nodes j

/-- Direct children of the root have the root as suffix link. -/
def RootChildSuffix (nodes : List ACNode) : Prop :=
  ∀ c j, isEdge nodes 0 c j → ∃ nd, nodes.get? j = some nd ∧ nd.suffix_link = some 0

/-- Children dicts never hold two entries with the same character key. -/
def ChildKeysUniq (nodes : List ACNode) : Prop :=
  ∀ i nd, nodes.get? i = some nd →
    ∀ p q, p ∈ nd.children → q ∈ nd.children → p.1 = q.1 → p = q

/-- The construction invariant of the arena. -/
def Inv (nodes : List ACNode) : Prop :=
  1 ≤ nodes.length ∧ SuffixLt nodes ∧ ChildrenBound nodes ∧ EdgeLt nodes ∧
    EdgeUniq nodes ∧ SuffixTotal nodes ∧ SuffixDepth nodes ∧ RootChildSuffix nodes

/-- The summary of C7: failure links of non-root nodes exist and strictly
decrease trie depth, edges increase depth by one from a depth-0 root, direct
children of the root link back to the root, and the root's own link is the
absorbing `None` sentinel on which `_move_forward_from_node` immediately
returns the root. -/
def DepthInvariant (a : AhoCorasick) : Prop :=
  depthIdx a.nodes 0 = 0 ∧
  (∀ i c j, isEdge a.nodes i c j → depthIdx a.nodes j = depthIdx a.nodes i + 1) ∧
  (∀ j nd, a.nodes.get? j = some nd → 1 ≤ j →
    ∃ k, nd.suffix_link = some k ∧ depthIdx a.nodes k < depthIdx a.nodes j) ∧
  (∀ c j, isEdge a.nodes 0 c j →
    ∃ nd, a.nodes.get? j = some nd ∧ nd.suffix_link = some 0) ∧
  (∃ root, a.nodes.get? 0 = some root ∧ root.suffix_link = none) ∧
  (∀ fuel c acc, mfAux a.nodes fuel none c acc = some (0, acc))

/-- The two shapes the Python constructor argument can take under the
precondition "a string, or a collection of strings". -/
inductive StringsArg where
  | single : List Char → StringsArg
  | collection : List (List Char) → StringsArg

/-- The `ValueError` message of the constructor's bare-string check. -/
def invalidInputMessage (s : List Char) : String :=
  "'`strings` should be a collection of strings but was passed a single string '"
    ++ String.mk s ++ "'."

/-- The constructor boundary: a bare string raises (`Except.error`), a
collection builds.  The inner `Option` is the fuel discipline of the
embedding; `buildAC_total` below shows it is always `some`. -/
def AhoCorasickInit : StringsArg → Except String (Option AhoCorasick)
  | StringsArg.single s => Except.error (invalidInputMessage s)
  | StringsArg.collection l => Except.ok (buildAC l)

/-- A sample automaton used to witness the universally quantified claims. -/
def sampleXYZ : AhoCorasick := (buildAC [['x','y','z']]).getD ⟨[], []⟩

/-- A sample automaton whose pattern collection contains the empty string. -/
def sampleEmptyPat : AhoCorasick := (buildAC [[]]).getD ⟨[], []⟩

/-! ### Knuth-Morris-Pratt (`knuth_morris_pratt.py`) -/

/-- The `_NO_FALLBACK_FOUND` sentinel. -/
def NO_FALLBACK_FOUND : Int := -1

/-- `KnuthMorrisPratt._move_forward_from_prefix`: starting from a matched
prefix length, repeatedly fall back through the prefix table until the
fallback prefix is followed by `char` (return that length + 1) or the
sentinel is reached (return 0).  Fueled; `none` is fuel exhaustion or an
out-of-range index (a Python `IndexError`). -/
def mfpAux (w : List Char) (tbl : List Int) : Nat → Int → Char → Option Int
  | 0, _, _ => none
  | fuel + 1, p, c =>
    if p = NO_FALLBACK_FOUND then some 0
    else
      match w.get? p.toNat with
      | none => none
      | some ch =>
        if ch = c then some (p + 1)
        else
          match tbl.get? p.toNat with
          | none => none
          | some p2 => mfpAux w tbl fuel p2 c

/-- The table-filling `for` loop of `KnuthMorrisPratt.__init__`: `k` entries
remain; the table grows from `[-1]` towards length `len(w)`, each new entry
computed by `_move_forward_from_prefix` from the previous entry and the
previous character. -/
def buildFallbackAux (w : List Char) : Nat → List Int → Option (List Int)
  | 0, tbl => some tbl
  | k + 1, tbl =>
    match tbl.get? (tbl.length - 1), w.get? (tbl.length - 1) with
    | some prev, some c =>
      match mfpAux w tbl (w.length + 2) prev c with
      | none => none
      | some v => buildFallbackAux w k (tbl ++ [v])
    | _, _ => none

/-- The `KnuthMorrisPratt` structure: the preprocessed string and its prefix
fallback table. -/
structure KnuthMorrisPratt where
  string : List Char
  fallback_length_by_prefix_length : List Int
deriving DecidableEq

/-- `KnuthMorrisPratt.__init__`: the empty string gets an empty table,
otherwise entry 0 is the sentinel and the loop fills entries `1..len-1`. -/
def kmpInit (w : List Char) : Option KnuthMorrisPratt :=
  if w = [] then some ⟨w, []⟩
  else
    match buildFallbackAux w (w.length - 1) [NO_FALLBACK_FOUND] with
    | none => none
    | some tbl => some ⟨w, tbl⟩

/-- The `for superstring_char in s` loop of `contained_by`, returning `True`
as soon as the whole string is matched. -/
def containedLoop (w : List Char) (tbl : List Int) : Int → List Char → Option Bool
  | _, [] => some false
  | p, c :: rest =>
    match mfpAux w tbl (w.length + 2) p c with
    | none => none
    | some p2 =>
      if p2 = (w.length : Int) then some true
      else containedLoop w tbl p2 rest

/-- `KnuthMorrisPratt.contained_by`. -/
def contained_by (k : KnuthMorrisPratt) (s : List Char) : Option Bool :=
  if k.string = [] then some true
  else containedLoop k.string k.fallback_length_by_prefix_length 0 s

/-- Build-then-query composition used by the claims. -/
def kmpContains (w s : List Char) : Option Bool :=
  (kmpInit w).bind (fun k => contained_by k s)

/-- Length of the longest suffix of `t` that is a prefix of `w`. -/
def lspLen (w t : List Char) : Nat :=
  Nat.findGreatest (fun k => w.take k <:+ t) w.length

/-- Length of the longest proper border of `w.take i`: the greatest `k ≤ i-1`
with `w.take k` a suffix of `w.take i`. -/
def pborder (w : List Char) (i : Nat) : Nat :=
  Nat.findGreatest (fun k => w.take k <:+ w.take i) (i - 1)

/-- The state reached by `_move_forward_from_prefix` from state `p` on `c`:
the greatest `k ≤ p+1` with `w.take k` a suffix of `w.take p ++ [c]`. -/
def extLen (w : List Char) (p : Nat) (c : Char) : Nat :=
  Nat.findGreatest (fun k => w.take k <:+ w.take p ++ [c]) (p + 1)

/-- Correctness statement of the fallback table: entry 0 is the sentinel and
entry `i` is the longest proper border length of `w.take i`. -/
def TblOK (w : List Char) (tbl : List Int) : Prop :=
  1 ≤ tbl.length ∧ tbl.length ≤ w.length ∧
  tbl.get? 0 = some NO_FALLBACK_FOUND ∧
  ∀ i, 1 ≤ i → i < tbl.length → tbl.get? i = some ((pborder w i : Nat) : Int)

/-! ### Helpers for evaluating `Option`-wrapped results -/

theorem someEq_of_mapDecide {α : Type} [DecidableEq α] {o : Option α} {d : α}
    (h : o.map (fun r => decide (r = d)) = some true) : o = some d := by
  cases o with
  | none => exact absurd h (by simp)
  | some r =>
    have hb : decide (r = d) = true := by injection h
    exact congrArg some (of_decide_eq_true hb)

/-! ### List helper lemmas -/

theorem find?_append_eq {α : Type} (p : α → Bool) (l1 l2 : List α) :
    (l1 ++ l2).find? p =
      match l1.find? p with
      | some a => some a
      | none => l2.find? p := by
  induction l1 with
  | nil => rfl
  | cons x xs ih =>
    by_cases hx : p x
    · rw [List.cons_append, List.find?_cons_of_pos _ hx, List.find?_cons_of_pos _ hx]
    · rw [List.cons_append, List.find?_cons_of_neg _ hx, List.find?_cons_of_neg _ hx, ih]

theorem findQ_congr_on {α : Type} {f g : α → Bool} (l : List α)
    (hfg : ∀ x ∈ l, f x = g x) : l.find? f = l.find? g := by
  induction l with
  | nil => rfl
  | cons y ys ih =>
    have hy : f y = g y := hfg y (by simp)
    by_cases hfy : f y
    · rw [List.find?_cons_of_pos _ hfy, List.find?_cons_of_pos _ (hy ▸ hfy)]
    · rw [List.find?_cons_of_neg _ hfy, List.find?_cons_of_neg _ (hy ▸ hfy)]
      exact ih (fun z hz => hfg z (by simp [hz]))

theorem find?_eq_some_unique {α : Type} {p : α → Bool} {a : α} : ∀ {l : List α},
    a ∈ l → p a = true → (∀ b ∈ l, p b = true → b = a) → l.find? p = some a
  | [], ha, _, _ => absurd ha (by simp)
  | x :: xs, ha, hpa, hu => by
    by_cases hp : p x
    · rw [List.find?_cons_of_pos _ hp, hu x (by simp) hp]
    · rw [List.find?_cons_of_neg _ hp]
      have hax : a ≠ x := fun he => hp (he ▸ hpa)
      have ha2 : a ∈ xs := by
        rcases List.mem_cons.mp ha with h | h
        · exact absurd h hax
        · exact h
      exact find?_eq_some_unique ha2 hpa (fun b hb hpb => hu b (by simp [hb]) hpb)

theorem get?_isSome_of_lt {α : Type} {l : List α} {j : Nat} (h : j < l.length) :
    ∃ a, l.get? j = some a :=
  ⟨l.get ⟨j, h⟩, List.get?_eq_get h⟩

theorem lt_of_get?_eq_some {α : Type} {l : List α} {j : Nat} {a : α}
    (h : l.get? j = some a) : j < l.length := by
  by_contra hc
  rw [List.get?_eq_none.mpr (Nat.le_of_not_lt hc)] at h
  exact Option.noConfusion h

/-! ### Arena accessor lemmas -/

theorem setValue_length (nodes : List ACNode) (i : Nat) (v : Option (List Char)) :
    (setValue nodes i v).length = nodes.length := by
  unfold setValue
  cases nodes.get? i <;> simp

theorem setSuffix_length (nodes : List ACNode) (i : Nat) (s : Option Nat) :
    (setSuffix nodes i s).length = nodes.length := by
  unfold setSuffix
  cases nodes.get? i <;> simp

theorem setValue_of_get?_none {nodes : List ACNode} {i : Nat} (v : Option (List Char))
    (h : nodes.get? i = none) : setValue nodes i v = nodes := by
  unfold setValue
  rw [h]

theorem setSuffix_of_get?_none {nodes : List ACNode} {i : Nat} (s : Option Nat)
    (h : nodes.get? i = none) : setSuffix nodes i s = nodes := by
  unfold setSuffix
  rw [h]

theorem get?_setValue_ne (nodes : List ACNode) (i : Nat) (v : Option (List Char))
    {k : Nat} (h : i ≠ k) : (setValue nodes i v).get? k = nodes.get? k := by
  unfold setValue
  cases nodes.get? i with
  | none => rfl
  | some nd => exact List.get?_set_ne _ _ h

theorem get?_setValue_self {nodes : List ACNode} {i : Nat} {nd : ACNode}
    (v : Option (List Char)) (h : nodes.get? i = some nd) :
    (setValue nodes i v).get? i = some { nd with value := v } := by
  unfold setValue
  rw [h]
  exact List.get?_set_eq_of_lt _ (lt_of_get?_eq_some h)

theorem get?_setSuffix_ne (nodes : List ACNode) (i : Nat) (s : Option Nat)
    {k : Nat} (h : i ≠ k) : (setSuffix nodes i s).get? k = nodes.get? k := by
  unfold setSuffix
  cases nodes.get? i with
  | none => rfl
  | some nd => exact List.get?_set_ne _ _ h

theorem get?_setSuffix_self {nodes : List ACNode} {i : Nat} {nd : ACNode}
    (s : Option Nat) (h : nodes.get? i = some nd) :
    (setSuffix nodes i s).get? i = some { nd with suffix_link := s } := by
  unfold setSuffix
  rw [h]
  exact List.get?_set_eq_of_lt _ (lt_of_get?_eq_some h)

/-! ### Structure-preserving rewrites and depth stability -/

/-- Two arenas with identical length and children structure (values and
suffix links may differ). -/
def SameChildren (A B : List ACNode) : Prop :=
  A.length = B.length ∧
  ∀ k, (A.get? k).map (·.children) = (B.get? k).map (·.children)

theorem sameChildren_refl (A : List ACNode) : SameChildren A A := ⟨rfl, fun _ => rfl⟩

theorem sameChildren_trans {A B C : List ACNode}
    (h1 : SameChildren A B) (h2 : SameChildren B C) : SameChildren A C :=
  ⟨h1.1.trans h2.1, fun k => (h1.2 k).trans (h2.2 k)⟩

theorem sameChildren_setValue (nodes : List ACNode) (i : Nat) (v : Option (List Char)) :
    SameChildren nodes (setValue nodes i v) := by
  refine ⟨(setValue_length nodes i v).symm, fun k => ?_⟩
  by_cases hk : i = k
  · subst hk
    cases h : nodes.get? i with
    | none => rw [setValue_of_get?_none v h, h]
    | some nd =>
      rw [get?_setValue_self v h]
      rfl
  · rw [get?_setValue_ne nodes i v hk]

theorem sameChildren_setSuffix (nodes : List ACNode) (i : Nat) (s : Option Nat) :
    SameChildren nodes (setSuffix nodes i s) := by
  refine ⟨(setSuffix_length nodes i s).symm, fun k => ?_⟩
  by_cases hk : i = k
  · subst hk
    cases h : nodes.get? i with
    | none => rw [setSuffix_of_get?_none s h, h]
    | some nd =>
      rw [get?_setSuffix_self s h]
      rfl
  · rw [get?_setSuffix_ne nodes i s hk]

theorem parentOf_congr {A B : List ACNode} (h : SameChildren A B) (j : Nat) :
    parentOf A j = parentOf B j := by
  unfold parentOf
  rw [h.1]
  refine findQ_congr_on _ (fun i _ => ?_)
  have hk := h.2 i
  cases hA : A.get? i with
  | none =>
    rw [hA] at hk
    cases hB : B.get? i with
    | none => rfl
    | some nd => rw [hB] at hk; exact absurd hk (by simp)
  | some nd =>
    rw [hA] at hk
    cases hB : B.get? i with
    | none => rw [hB] at hk; exact absurd hk (by simp)
    | some nd2 =>
      rw [hB] at hk
      simp only [Option.map_some'] at hk
      have : nd.children = nd2.children := by injection hk
      simp [this]

theorem depthIdx_congr {A B : List ACNode} (h : SameChildren A B) :
    ∀ j, depthIdx A j = depthIdx B j := by
  intro j
  induction j using Nat.strong_induction_on with
  | _ j ih =>
    rw [depthIdx, depthIdx, parentOf_congr h j]
    cases parentOf B j with
    | none => rfl
    | some i =>
      by_cases hij : i < j
      · simp only [hij, dif_pos]
        rw [ih i hij]
      · simp [hij]

theorem isEdge_congr {A B : List ACNode} (h : SameChildren A B) (i : Nat) (c : Char) (j : Nat) :
    isEdge A i c j ↔ isEdge B i c j := by
  unfold isEdge
  have hk := h.2 i
  cases hA : A.get? i with
  | none =>
    rw [hA] at hk
    cases hB : B.get? i with
    | none => simp
    | some nd => rw [hB] at hk; exact absurd hk (by simp)
  | some nd =>
    rw [hA] at hk
    cases hB : B.get? i with
    | none => rw [hB] at hk; exact absurd hk (by simp)
    | some nd2 =>
      rw [hB] at hk
      simp only [Option.map_some'] at hk
      have hc : nd.children = nd2.children := by injection hk
      simp [hc]

theorem sameChildren_get?_transfer {A B : List ACNode} (h : SameChildren A B)
    {k : Nat} {ndB : ACNode} (hB : B.get? k = some ndB) :
    ∃ ndA, A.get? k = some ndA ∧ ndA.children = ndB.children := by
  have h1 := h.2 k
  rw [hB] at h1
  cases hA : A.get? k with
  | none => rw [hA] at h1; exact absurd h1 (by simp)
  | some ndA =>
    rw [hA] at h1
    refine ⟨ndA, rfl, ?_⟩
    injection h1

theorem childKeysUniq_congr {A B : List ACNode} (h : SameChildren A B)
    (hA : ChildKeysUniq A) : ChildKeysUniq B := by
  intro k ndB hB p q hp hq hpq
  obtain ⟨ndA, hndA, hch⟩ := sameChildren_get?_transfer h hB
  rw [← hch] at hp hq
  exact hA k ndA hndA p q hp hq hpq

theorem childLookup_none_not_mem {l : List (Char × Nat)} {c : Char}
    (h : childLookup l c = none) : ∀ j, (c, j) ∉ l := by
  intro j hj
  unfold childLookup at h
  cases hf : l.find? (fun p => p.1 == c) with
  | some p => rw [hf] at h; exact Option.noConfusion h
  | none =>
    have := List.find?_eq_none.mp hf (c, j) hj
    simp at this

/-! ### Fresh-child allocation lemmas -/

theorem snocChild_length (nodes : List ACNode) (cur : Nat) (curNode : ACNode) (c : Char) :
    (snocChild nodes cur curNode c).length = nodes.length + 1 := by
  unfold snocChild
  rw [List.length_append, List.length_set]
  rfl

theorem snocChild_get?_ne {nodes : List ACNode} {cur : Nat} (curNode : ACNode) (c : Char)
    {k : Nat} (hk : k < nodes.length) (hne : k ≠ cur) :
    (snocChild nodes cur curNode c).get? k = nodes.get? k := by
  unfold snocChild
  rw [List.get?_append (by rw [List.length_set]; exact hk)]
  exact List.get?_set_ne _ _ (fun he => hne he.symm)

theorem snocChild_get?_cur {nodes : List ACNode} {cur : Nat} (curNode : ACNode) (c : Char)
    (hlt : cur < nodes.length) :
    (snocChild nodes cur curNode c).get? cur =
      some { curNode with children := curNode.children ++ [(c, nodes.length)] } := by
  unfold snocChild
  rw [List.get?_append (by rw [List.length_set]; exact hlt)]
  exact List.get?_set_eq_of_lt _ hlt

theorem snocChild_get?_new (nodes : List ACNode) (cur : Nat) (curNode : ACNode) (c : Char) :
    (snocChild nodes cur curNode c).get? nodes.length = some ⟨none, [], none⟩ := by
  unfold snocChild
  have h := List.get?_concat_length
    (nodes.set cur { curNode with children := curNode.children ++ [(c, nodes.length)] })
    (⟨none, [], none⟩ : ACNode)
  rwa [List.length_set] at h

theorem snocChild_get?_ge {nodes : List ACNode} {cur : Nat} (curNode : ACNode) (c : Char)
    {k : Nat} (hk : nodes.length < k) :
    (snocChild nodes cur curNode c).get? k = none := by
  apply List.get?_eq_none.mpr
  rw [snocChild_length]
  omega

theorem snocChild_isEdge_iff {nodes : List ACNode} {cur : Nat} {curNode : ACNode} {c : Char}
    (hcur : nodes.get? cur = some curNode) (i : Nat) (c2 : Char) (j : Nat) :
    isEdge (snocChild nodes cur curNode c) i c2 j ↔
      (isEdge nodes i c2 j ∨ (i = cur ∧ c2 = c ∧ j = nodes.length)) := by
  have hlt : cur < nodes.length := lt_of_get?_eq_some hcur
  by_cases hic : i = cur
  · subst hic
    rw [show isEdge (snocChild nodes i curNode c) i c2 j ↔
        (c2, j) ∈ curNode.children ++ [(c, nodes.length)] from by
      unfold isEdge
      rw [snocChild_get?_cur curNode c hlt]
      constructor
      · rintro ⟨nd, hnd, hm⟩
        injection hnd with hnd
        rw [← hnd] at hm
        exact hm
      · intro hm
        exact ⟨_, rfl, hm⟩]
    rw [List.mem_append]
    unfold isEdge
    rw [hcur]
    constructor
    · rintro (hm | hm)
      · exact Or.inl ⟨curNode, rfl, hm⟩
      · rcases List.mem_singleton.mp hm with he
        refine Or.inr ⟨rfl, ?_, ?_⟩ <;> injection he with h1 h2 <;> simp_all
    · rintro (⟨nd, hnd, hm⟩ | ⟨_, hc2, hj⟩)
      · injection hnd with hnd
        exact Or.inl (hnd ▸ hm)
      · subst hc2; subst hj
        exact Or.inr (List.mem_singleton.mpr rfl)
  · by_cases hik : i < nodes.length
    · unfold isEdge
      rw [snocChild_get?_ne curNode c hik hic]
      constructor
      · exact fun h => Or.inl h
      · rintro (h | ⟨he, _⟩)
        · exact h
        · exact absurd he hic
    · by_cases hieq : i = nodes.length
      · subst hieq
        unfold isEdge
        rw [snocChild_get?_new, List.get?_eq_none.mpr (Nat.le_refl _)]
        constructor
        · rintro ⟨nd, hnd, hm⟩
          injection hnd with hnd
          rw [← hnd] at hm
          exact absurd hm (by simp)
        · rintro (⟨nd, hnd, _⟩ | ⟨he, _⟩)
          · exact Option.noConfusion hnd
          · omega
      · unfold isEdge
        rw [snocChild_get?_ge curNode c (by omega),
          List.get?_eq_none.mpr (by omega)]
        constructor
        · rintro ⟨nd, hnd, _⟩
          exact Option.noConfusion hnd
        · rintro (⟨nd, hnd, _⟩ | ⟨he, _⟩)
          · exact Option.noConfusion hnd
          · exact absurd he hic

theorem snocChild_parentOf_old {nodes : List ACNode} {cur : Nat} {curNode : ACNode} {c : Char}
    (hcur : nodes.get? cur = some curNode) {j : Nat} (hj : j < nodes.length) :
    parentOf (snocChild nodes cur curNode c) j = parentOf nodes j := by
  have hlt : cur < nodes.length := lt_of_get?_eq_some hcur
  unfold parentOf
  rw [snocChild_length, List.range_succ, find?_append_eq]
  have hcongr :
      (List.range nodes.length).find? (fun i =>
        match (snocChild nodes cur curNode c).get? i with
        | some nd => nd.children.any (fun p => p.2 == j)
        | none => false) =
      (List.range nodes.length).find? (fun i =>
        match nodes.get? i with
        | some nd => nd.children.any (fun p => p.2 == j)
        | none => false) := by
    refine findQ_congr_on _ (fun i hi => ?_)
    have hilt : i < nodes.length := List.mem_range.mp hi
    by_cases hic : i = cur
    · subst hic
      rw [snocChild_get?_cur curNode c hlt, hcur]
      simp only [List.any_append]
      have : ([(c, nodes.length)].any (fun p => p.2 == j)) = false := by
        simp only [List.any_cons, List.any_nil, Bool.or_false]
        exact beq_eq_false_iff_ne.mpr (by omega)
      rw [this, Bool.or_false]
    · rw [snocChild_get?_ne curNode c hilt hic]
  rw [hcongr]
  cases hfind : (List.range nodes.length).find? (fun i =>
      match nodes.get? i with
      | some nd => nd.children.any (fun p => p.2 == j)
      | none => false) with
  | some a => rfl
  | none =>
    have : ([nodes.length].find? (fun i =>
        match (snocChild nodes cur curNode c).get? i with
        | some nd => nd.children.any (fun p => p.2 == j)
        | none => false)) = none := by
      rw [List.find?_singleton]
      rw [snocChild_get?_new]
      simp
    rw [this]

theorem snocChild_parentOf_new {nodes : List ACNode} {cur : Nat} {curNode : ACNode} {c : Char}
    (hcur : nodes.get? cur = some curNode) (hcb : ChildrenBound nodes) :
    parentOf (snocChild nodes cur curNode c) nodes.length = some cur := by
  have hlt : cur < nodes.length := lt_of_get?_eq_some hcur
  unfold parentOf
  rw [snocChild_length]
  refine find?_eq_some_unique (List.mem_range.mpr (by omega)) ?_ ?_
  · rw [snocChild_get?_cur curNode c hlt]
    simp only [List.any_append, List.any_cons, List.any_nil]
    have hself : (nodes.length == nodes.length) = true := beq_self_eq_true _
    rw [hself]
    simp
  · intro b hb hpb
    by_cases hbc : b = cur
    · exact hbc
    · exfalso
      have hblt : b < nodes.length + 1 := List.mem_range.mp hb
      by_cases hbl : b < nodes.length
      · rw [snocChild_get?_ne curNode c hbl hbc] at hpb
        cases hget : nodes.get? b with
        | none => rw [hget] at hpb; exact Bool.noConfusion hpb
        | some nd =>
          rw [hget] at hpb
          simp only [List.any_eq_true] at hpb
          obtain ⟨p, hp, hpj⟩ := hpb
          have := (hcb b nd hget p hp).2
          have : p.2 = nodes.length := eq_of_beq hpj
          omega
      · have hbeq : b = nodes.length := by omega
        subst hbeq
        rw [snocChild_get?_new] at hpb
        exact Bool.noConfusion hpb

theorem snocChild_depthIdx_old {nodes : List ACNode} {cur : Nat} {curNode : ACNode} {c : Char}
    (hcur : nodes.get? cur = some curNode) :
    ∀ j, j < nodes.length →
      depthIdx (snocChild nodes cur curNode c) j = depthIdx nodes j := by
  intro j
  induction j using Nat.strong_induction_on with
  | _ j ih =>
    intro hj
    rw [depthIdx, depthIdx, snocChild_parentOf_old hcur hj]
    cases parentOf nodes j with
    | none => rfl
    | some i =>
      by_cases hij : i < j
      · simp only [hij, dif_pos]
        rw [ih i hij (by omega)]
      · simp [hij]

theorem snocChild_depthIdx_new {nodes : List ACNode} {cur : Nat} {curNode : ACNode} {c : Char}
    (hcur : nodes.get? cur = some curNode) (hcb : ChildrenBound nodes) :
    depthIdx (snocChild nodes cur curNode c) nodes.length = depthIdx nodes cur + 1 := by
  have hlt : cur < nodes.length := lt_of_get?_eq_some hcur
  rw [depthIdx, snocChild_parentOf_new hcur hcb]
  simp only [hlt, dif_pos]
  rw [snocChild_depthIdx_old hcur cur hlt]

/-! ### Suffix-link walk lemmas -/

theorem suffixReach_le {nodes : List ACNode} (hsfx : SuffixLt nodes) {i q : Nat}
    (h : SuffixReach nodes i q) : q ≤ i := by
  induction h with
  | refl => exact Nat.le_refl _
  | step nd h1 h2 _ ih =>
    have := hsfx _ _ _ h1 h2
    omega

theorem suffixReach_depth_le {nodes : List ACNode} (hsd : SuffixDepth nodes) {i q : Nat}
    (h : SuffixReach nodes i q) : depthIdx nodes q ≤ depthIdx nodes i := by
  induction h with
  | refl => exact Nat.le_refl _
  | step nd h1 h2 _ ih =>
    have := hsd _ _ _ h1 h2
    omega

theorem mfAux_none (nodes : List ACNode) (fuel : Nat) (c : Char) (acc : Finset (List Char)) :
    mfAux nodes fuel none c acc = some (0, acc) := by
  cases fuel <;> rfl

theorem childLookup_mem {l : List (Char × Nat)} {c : Char} {j : Nat}
    (h : childLookup l c = some j) : (c, j) ∈ l := by
  unfold childLookup at h
  cases hf : l.find? (fun p => p.1 == c) with
  | none => rw [hf] at h; exact Option.noConfusion h
  | some p =>
    rw [hf] at h
    have hm := List.mem_of_find?_eq_some hf
    have hc : p.1 = c := by
      have := List.find?_some hf
      exact eq_of_beq this
    have hj : p.2 = j := by injection h
    have : p = (c, j) := Prod.ext hc hj
    exact this ▸ hm

theorem mfAux_run {nodes : List ACNode} (hsfx : SuffixLt nodes) :
    ∀ i, i < nodes.length → ∀ fuel, i + 1 ≤ fuel → ∀ c acc,
      ∃ j vals, mfAux nodes fuel (some i) c acc = some (j, vals) ∧
        (j = 0 ∨ ∃ q, SuffixReach nodes i q ∧ isEdge nodes q c j) := by
  intro i
  induction i using Nat.strong_induction_on with
  | _ i ih =>
    intro hi fuel hfuel c acc
    obtain ⟨fuel2, rfl⟩ : ∃ f2, fuel = f2 + 1 := ⟨fuel - 1, by omega⟩
    obtain ⟨nd, hnd⟩ := get?_isSome_of_lt hi
    have hstep : mfAux nodes (fuel2 + 1) (some i) c acc =
        (match childLookup nd.children c with
        | some j => some (j, mfAcc nd acc)
        | none => mfAux nodes fuel2 nd.suffix_link c (mfAcc nd acc)) := by
      rw [show mfAux nodes (fuel2 + 1) (some i) c acc =
          (match nodes.get? i with
          | none => none
          | some nd =>
            match childLookup nd.children c with
            | some j => some (j, mfAcc nd acc)
            | none => mfAux nodes fuel2 nd.suffix_link c (mfAcc nd acc)) from rfl]
      rw [hnd]
    rw [hstep]
    cases hcl : childLookup nd.children c with
    | some j =>
      refine ⟨j, _, rfl, Or.inr ⟨i, SuffixReach.refl i, nd, hnd, childLookup_mem hcl⟩⟩
    | none =>
      cases hsl : nd.suffix_link with
      | none => exact ⟨0, mfAcc nd acc, mfAux_none nodes fuel2 c (mfAcc nd acc), Or.inl rfl⟩
      | some k =>
        have hk : k < i := hsfx _ _ _ hnd hsl
        obtain ⟨j, vals, hrun, hspec⟩ :=
          ih k hk (by omega) fuel2 (by omega) c (mfAcc nd acc)
        refine ⟨j, vals, hrun, ?_⟩
        rcases hspec with h0 | ⟨q, hreach, hedge⟩
        · exact Or.inl h0
        · exact Or.inr ⟨q, SuffixReach.step nd hnd hsl hreach, hedge⟩

theorem mfAux_run_lt {nodes : List ACNode} (hsfx : SuffixLt nodes)
    (hcb : ChildrenBound nodes) (hlen : 1 ≤ nodes.length) :
    ∀ i, i < nodes.length → ∀ fuel, i + 1 ≤ fuel → ∀ c acc,
      ∃ j vals, mfAux nodes fuel (some i) c acc = some (j, vals) ∧ j < nodes.length := by
  intro i hi fuel hfuel c acc
  obtain ⟨j, vals, hrun, hspec⟩ := mfAux_run hsfx i hi fuel hfuel c acc
  refine ⟨j, vals, hrun, ?_⟩
  rcases hspec with h0 | ⟨q, _, nd, hnd, hm⟩
  · omega
  · exact (hcb q nd hnd _ hm).2

/-! ### Skeleton preservation: value-only updates keep every invariant -/

/-- Two arenas agreeing on length, children and suffix links (only terminal
values may differ). -/
def SameSkeleton (A B : List ACNode) : Prop :=
  SameChildren A B ∧
  ∀ k, (A.get? k).map (·.suffix_link) = (B.get? k).map (·.suffix_link)

theorem sameSkeleton_setValue (nodes : List ACNode) (i : Nat) (v : Option (List Char)) :
    SameSkeleton nodes (setValue nodes i v) := by
  refine ⟨sameChildren_setValue nodes i v, fun k => ?_⟩
  by_cases hk : i = k
  · subst hk
    cases h : nodes.get? i with
    | none => rw [setValue_of_get?_none v h, h]
    | some nd =>
      rw [get?_setValue_self v h]
      rfl
  · rw [get?_setValue_ne nodes i v hk]

theorem sameSkeleton_get?_transfer {A B : List ACNode} (h : SameSkeleton A B)
    {k : Nat} {ndB : ACNode} (hB : B.get? k = some ndB) :
    ∃ ndA, A.get? k = some ndA ∧ ndA.children = ndB.children ∧
      ndA.suffix_link = ndB.suffix_link := by
  have h1 := (h.1).2 k
  have h2 := h.2 k
  rw [hB] at h1 h2
  cases hA : A.get? k with
  | none => rw [hA] at h1; exact absurd h1 (by simp)
  | some ndA =>
    rw [hA] at h1 h2
    refine ⟨ndA, rfl, ?_, ?_⟩
    · injection h1
    · injection h2

theorem Inv_of_sameSkeleton {A B : List ACNode} (h : SameSkeleton A B) (hInv : Inv A) :
    Inv B := by
  obtain ⟨hlen, hsfx, hcb, hel, heu, hst, hsd, hrc⟩ := hInv
  have hlenEq : A.length = B.length := h.1.1
  refine ⟨hlenEq ▸ hlen, ?_, ?_, ?_, ?_, ?_, ?_, ?_⟩
  · intro i nd j hnd hsl
    obtain ⟨ndA, hA, _, hs⟩ := sameSkeleton_get?_transfer h hnd
    exact hsfx i ndA j hA (hs.trans hsl)
  · intro k nd hnd p hp
    obtain ⟨ndA, hA, hc, _⟩ := sameSkeleton_get?_transfer h hnd
    rw [← hc] at hp
    exact hlenEq ▸ hcb k ndA hA p hp
  · intro i c j he
    exact hel i c j ((isEdge_congr h.1 i c j).mpr he)
  · intro i c j i2 c2 he he2
    exact heu i c j i2 c2 ((isEdge_congr h.1 i c j).mpr he)
      ((isEdge_congr h.1 i2 c2 j).mpr he2)
  · intro j nd hnd hj
    obtain ⟨ndA, hA, _, hs⟩ := sameSkeleton_get?_transfer h hnd
    rw [← hs]
    exact hst j ndA hA hj
  · intro j nd k hnd hsl
    obtain ⟨ndA, hA, _, hs⟩ := sameSkeleton_get?_transfer h hnd
    have := hsd j ndA k hA (hs.trans hsl)
    rwa [depthIdx_congr h.1 j, depthIdx_congr h.1 k] at this
  · intro c j he
    obtain ⟨ndA, hA, hs⟩ := hrc c j ((isEdge_congr h.1 0 c j).mpr he)
    have h2 := h.2 j
    rw [hA] at h2
    cases hB : B.get? j with
    | none => rw [hB] at h2; exact absurd h2 (by simp)
    | some ndB =>
      rw [hB] at h2
      refine ⟨ndB, rfl, ?_⟩
      have : ndA.suffix_link = ndB.suffix_link := by injection h2
      rw [← this]
      exact hs

/-! ### Derived structural facts -/

theorem root_suffix_none {nodes : List ACNode} (hsfx : SuffixLt nodes) {root : ACNode}
    (h0 : nodes.get? 0 = some root) : root.suffix_link = none := by
  cases hs : root.suffix_link with
  | none => rfl
  | some j =>
    have := hsfx 0 root j h0 hs
    omega

theorem depthIdx_zero {nodes : List ACNode} (hcb : ChildrenBound nodes) :
    depthIdx nodes 0 = 0 := by
  rw [depthIdx]
  have : parentOf nodes 0 = none := by
    unfold parentOf
    rw [List.find?_eq_none]
    intro i hi
    cases hget : nodes.get? i with
    | none => simp
    | some nd =>
      simp only [List.any_eq_true, Bool.not_eq_true]
      rintro ⟨p, hp, hpj⟩
      have := (hcb i nd hget p hp).1
      have : p.2 = 0 := eq_of_beq hpj
      omega
  rw [this]

theorem depthIdx_of_edge {nodes : List ACNode} (heu : EdgeUniq nodes) (hel : EdgeLt nodes)
    (hcb : ChildrenBound nodes) {i : Nat} {c : Char} {j : Nat} (hedge : isEdge nodes i c j) :
    depthIdx nodes j = depthIdx nodes i + 1 := by
  obtain ⟨nd, hnd, hm⟩ := hedge
  have hij : i < j := hel i c j ⟨nd, hnd, hm⟩
  have hjlen : j < nodes.length := (hcb i nd hnd _ hm).2
  have hparent : parentOf nodes j = some i := by
    unfold parentOf
    refine find?_eq_some_unique (List.mem_range.mpr (by omega)) ?_ ?_
    · rw [hnd]
      simp only [List.any_eq_true]
      exact ⟨(c, j), hm, beq_self_eq_true _⟩
    · intro b hb hpb
      cases hget : nodes.get? b with
      | none => rw [hget] at hpb; exact Bool.noConfusion hpb
      | some ndb =>
        rw [hget] at hpb
        simp only [List.any_eq_true] at hpb
        obtain ⟨p, hp, hpj⟩ := hpb
        have hpj2 : p.2 = j := eq_of_beq hpj
        exact (heu b p.1 j i c ⟨ndb, hget, by rw [← hpj2]; exact hp⟩ ⟨nd, hnd, hm⟩).1
  rw [depthIdx, hparent]
  simp [hij]

/-! ### Invariant preservation through one constructor step -/

theorem snocChild_get?_cases {nodes : List ACNode} {cur : Nat} {curNode : ACNode} {c : Char}
    (hcur : nodes.get? cur = some curNode) {k : Nat} {nd : ACNode}
    (h : (snocChild nodes cur curNode c).get? k = some nd) :
    (k < nodes.length ∧ k ≠ cur ∧ nodes.get? k = some nd) ∨
    (k = cur ∧ nd = { curNode with children := curNode.children ++ [(c, nodes.length)] }) ∨
    (k = nodes.length ∧ nd = ⟨none, [], none⟩) := by
  have hlt : cur < nodes.length := lt_of_get?_eq_some hcur
  by_cases hkc : k = cur
  · subst hkc
    rw [snocChild_get?_cur curNode c hlt] at h
    refine Or.inr (Or.inl ⟨rfl, ?_⟩)
    injection h with h
    exact h.symm
  · by_cases hkl : k < nodes.length
    · rw [snocChild_get?_ne curNode c hkl hkc] at h
      exact Or.inl ⟨hkl, hkc, h⟩
    · by_cases hke : k = nodes.length
      · subst hke
        rw [snocChild_get?_new] at h
        refine Or.inr (Or.inr ⟨rfl, ?_⟩)
        injection h with h
        exact h.symm
      · rw [snocChild_get?_ge curNode c (by omega)] at h
        exact Option.noConfusion h

theorem snocChild_childKeysUniq {nodes : List ACNode} {cur : Nat} {curNode : ACNode}
    {c : Char} (hcur : nodes.get? cur = some curNode)
    (hcl : childLookup curNode.children c = none) (hcku : ChildKeysUniq nodes) :
    ChildKeysUniq (snocChild nodes cur curNode c) := by
  intro k nd hnd p q hp hq hpq
  rcases snocChild_get?_cases hcur hnd with ⟨_, _, hold⟩ | ⟨hk, hnd2⟩ | ⟨hk, hnd2⟩
  · exact hcku k nd hold p q hp hq hpq
  · rw [hnd2] at hp hq
    have hnotc := childLookup_none_not_mem hcl
    rcases List.mem_append.mp hp with hp2 | hp2 <;>
      rcases List.mem_append.mp hq with hq2 | hq2
    · exact hcku cur curNode hcur p q hp2 hq2 hpq
    · exfalso
      rcases List.mem_singleton.mp hq2 with rfl
      have : p = (c, p.2) := Prod.ext hpq rfl
      exact hnotc p.2 (this ▸ hp2)
    · exfalso
      rcases List.mem_singleton.mp hp2 with rfl
      have : q = (c, q.2) := Prod.ext hpq.symm rfl
      exact hnotc q.2 (this ▸ hq2)
    · rw [List.mem_singleton.mp hp2, List.mem_singleton.mp hq2]
  · rw [hnd2] at hp
    exact absurd hp (by simp)

theorem snocChild_partialInv {nodes : List ACNode} {cur : Nat} {curNode : ACNode} {c : Char}
    (hInv : Inv nodes) (hcur : nodes.get? cur = some curNode) :
    SuffixLt (snocChild nodes cur curNode c) ∧
    ChildrenBound (snocChild nodes cur curNode c) ∧
    EdgeLt (snocChild nodes cur curNode c) ∧
    EdgeUniq (snocChild nodes cur curNode c) ∧
    SuffixDepth (snocChild nodes cur curNode c) := by
  obtain ⟨hlen, hsfx, hcb, hel, heu, hst, hsd, hrc⟩ := hInv
  have hlt : cur < nodes.length := lt_of_get?_eq_some hcur
  have hlen1 : (snocChild nodes cur curNode c).length = nodes.length + 1 :=
    snocChild_length nodes cur curNode c
  refine ⟨?_, ?_, ?_, ?_, ?_⟩
  · intro k nd j hnd hsl
    rcases snocChild_get?_cases hcur hnd with ⟨_, _, hold⟩ | ⟨hk, hnd2⟩ | ⟨hk, hnd2⟩
    · exact hsfx k nd j hold hsl
    · rw [hnd2] at hsl
      rw [hk]
      exact hsfx cur curNode j hcur hsl
    · rw [hnd2] at hsl
      exact Option.noConfusion hsl
  · intro k nd hnd p hp
    rw [hlen1]
    rcases snocChild_get?_cases hcur hnd with ⟨_, _, hold⟩ | ⟨hk, hnd2⟩ | ⟨hk, hnd2⟩
    · have := hcb k nd hold p hp
      omega
    · rw [hnd2] at hp
      rcases List.mem_append.mp hp with hp2 | hp2
      · have := hcb cur curNode hcur p hp2
        omega
      · rcases List.mem_singleton.mp hp2 with rfl
        omega
    · rw [hnd2] at hp
      exact absurd hp (by simp)
  · intro a c2 j he
    rcases (snocChild_isEdge_iff hcur a c2 j).mp he with hold | ⟨ha, _, hj⟩
    · exact hel a c2 j hold
    · subst ha; subst hj
      exact hlt
  · intro a c2 j a2 c3 he he2
    rcases (snocChild_isEdge_iff hcur a c2 j).mp he with hold | ⟨ha, hcc2, hj⟩ <;>
      rcases (snocChild_isEdge_iff hcur a2 c3 j).mp he2 with hold2 | ⟨ha2, hcc3, hj2⟩
    · exact heu a c2 j a2 c3 hold hold2
    · subst hj2
      obtain ⟨nd, hnd, hm⟩ := hold
      have := (hcb a nd hnd _ hm).2
      omega
    · subst hj
      obtain ⟨nd, hnd, hm⟩ := hold2
      have := (hcb a2 nd hnd _ hm).2
      omega
    · exact ⟨by rw [ha, ha2], by rw [hcc2, hcc3]⟩
  · intro k nd j hnd hsl
    rcases snocChild_get?_cases hcur hnd with ⟨hkl, hkc, hold⟩ | ⟨hk, hnd2⟩ | ⟨hk, hnd2⟩
    · have hjk : j < k := hsfx k nd j hold hsl
      rw [snocChild_depthIdx_old hcur k hkl, snocChild_depthIdx_old hcur j (by omega)]
      exact hsd k nd j hold hsl
    · rw [hnd2] at hsl
      have hjc : j < cur := hsfx cur curNode j hcur hsl
      rw [hk, snocChild_depthIdx_old hcur cur hlt, snocChild_depthIdx_old hcur j (by omega)]
      exact hsd cur curNode j hcur hsl
    · rw [hnd2] at hsl
      exact Option.noConfusion hsl

/-- The per-string constructor step succeeds and preserves the arena
invariant; the arena only grows, the returned child index is in range, the
entry is dropped exactly when the string is exhausted, and the root's terminal
value is untouched. -/
theorem processString_run {nodes : List ACNode} (hInv : Inv nodes)
    (i : Nat) (s : List Char) {cur : Nat} (hcur : cur < nodes.length) :
    ∃ nodes3 res, processString i nodes s cur = some (nodes3, res) ∧
      Inv nodes3 ∧ nodes.length ≤ nodes3.length ∧
      ((s.length ≤ i ∧ nodes3 = nodes ∧ res = none) ∨
       (i < s.length ∧ ∃ ch, res = some ch ∧ ch < nodes3.length)) ∧
      (nodes3.get? 0).map (·.value) = (nodes.get? 0).map (·.value) ∧
      (ChildKeysUniq nodes → ChildKeysUniq nodes3) ∧
      (∀ k, k < nodes.length → depthIdx nodes3 k = depthIdx nodes k) ∧
      (∀ a c2 b, isEdge nodes a c2 b → isEdge nodes3 a c2 b) ∧
      (∀ ch, res = some ch → isEdge nodes3 cur (s.getD i default) ch ∧
        depthIdx nodes3 ch = depthIdx nodes cur + 1) := by
  by_cases hge : i ≥ s.length
  · refine ⟨nodes, none, ?_, hInv, Nat.le_refl _, Or.inl ⟨hge, rfl, rfl⟩, rfl,
      fun h => h, fun k _ => rfl, fun a c2 b h => h, fun ch h => Option.noConfusion h⟩
    unfold processString
    rw [if_pos hge]
  · have hlt : i < s.length := Nat.lt_of_not_le hge
    obtain ⟨curNode, hcurEq⟩ := get?_isSome_of_lt hcur
    obtain ⟨hlen, hsfx, hcb, hel, heu, hst, hsd, hrc⟩ := hInv
    have hInv2 : Inv nodes := ⟨hlen, hsfx, hcb, hel, heu, hst, hsd, hrc⟩
    set c := s.getD i default with hc
    cases hcl : childLookup curNode.children c with
    | some childIdx =>
      have hchm : (c, childIdx) ∈ curNode.children := childLookup_mem hcl
      have hchb := hcb cur curNode hcurEq _ hchm
      have hrun : processString i nodes s cur =
          some (if i = s.length - 1 then setValue nodes childIdx (some s) else nodes,
            some childIdx) := by
        unfold processString
        rw [if_neg hge, hcurEq]
        dsimp only
        rw [← hc, hcl]
      have hedge0 : isEdge nodes cur c childIdx := ⟨curNode, hcurEq, hchm⟩
      by_cases hlast : i = s.length - 1
      · rw [if_pos hlast] at hrun
        have hskel := sameSkeleton_setValue nodes childIdx (some s)
        refine ⟨_, some childIdx, hrun, Inv_of_sameSkeleton hskel hInv2,
          (setValue_length nodes childIdx (some s)).symm.le,
          Or.inr ⟨hlt, childIdx, rfl, by rw [setValue_length]; exact hchb.2⟩, ?_,
          fun h => childKeysUniq_congr hskel.1 h,
          fun k _ => (depthIdx_congr hskel.1 k).symm,
          fun a c2 b h => (isEdge_congr hskel.1 a c2 b).mp h,
          fun ch hch => ?_⟩
        · rw [get?_setValue_ne nodes childIdx (some s) (by omega)]
        · injection hch with hch
          subst hch
          refine ⟨(isEdge_congr hskel.1 cur c childIdx).mp hedge0, ?_⟩
          rw [← depthIdx_congr hskel.1 childIdx]
          exact depthIdx_of_edge heu hel hcb hedge0
      · rw [if_neg hlast] at hrun
        exact ⟨nodes, some childIdx, hrun, hInv2, Nat.le_refl _,
          Or.inr ⟨hlt, childIdx, rfl, hchb.2⟩, rfl, fun h => h, fun k _ => rfl,
          fun a c2 b h => h, fun ch hch => by
            injection hch with hch
            subst hch
            exact ⟨hedge0, depthIdx_of_edge heu hel hcb hedge0⟩⟩
    | none =>
      -- creation branch
      have hp1 := snocChild_partialInv (c := c) hInv2 hcurEq
      obtain ⟨hsfx1, hcb1, hel1, heu1, hsd1⟩ := hp1
      have hlen1 : (snocChild nodes cur curNode c).length = nodes.length + 1 :=
        snocChild_length nodes cur curNode c
      -- run the suffix-link computation
      have hmf : ∃ sfx vals,
          mfAux (snocChild nodes cur curNode c)
            ((snocChild nodes cur curNode c).length + 1) curNode.suffix_link c ∅
            = some (sfx, vals) ∧
          (sfx < nodes.length ∧
            depthIdx (snocChild nodes cur curNode c) sfx <
              depthIdx nodes cur + 1 ∧
            (cur = 0 → sfx = 0)) := by
        cases hsl : curNode.suffix_link with
        | none =>
          refine ⟨0, ∅, mfAux_none _ _ _ _, by omega, ?_, fun _ => rfl⟩
          rw [snocChild_depthIdx_old hcurEq 0 (by omega), depthIdx_zero hcb]
          omega
        | some s0 =>
          have hs0cur : s0 < cur := hsfx cur curNode s0 hcurEq hsl
          obtain ⟨sfx, vals, hrun, hspec⟩ :=
            mfAux_run hsfx1 s0 (by omega) ((snocChild nodes cur curNode c).length + 1)
              (by omega) c ∅
          have hcur0 : cur ≠ 0 := by omega
          have hd1cur : depthIdx (snocChild nodes cur curNode c) cur = depthIdx nodes cur :=
            snocChild_depthIdx_old hcurEq cur (by omega)
          have hds0cur : depthIdx (snocChild nodes cur curNode c) s0 <
              depthIdx (snocChild nodes cur curNode c) cur := by
            refine hsd1 cur _ s0 (snocChild_get?_cur curNode c (by omega)) ?_
            exact hsl
          have hmain : sfx < nodes.length ∧
              depthIdx (snocChild nodes cur curNode c) sfx < depthIdx nodes cur + 1 := by
            rcases hspec with h0 | ⟨q, hreach, hedge⟩
            · subst h0
              constructor
              · omega
              · rw [snocChild_depthIdx_old hcurEq 0 (by omega), depthIdx_zero hcb]
                omega
            · have hq : q ≤ s0 := suffixReach_le hsfx1 hreach
              have hedge2 := hedge
              rcases (snocChild_isEdge_iff hcurEq q c sfx).mp hedge with hold | ⟨hqc, _, _⟩
              · obtain ⟨nd, hnd, hm⟩ := hold
                have hb := hcb q nd hnd _ hm
                have hdepth : depthIdx (snocChild nodes cur curNode c) sfx =
                    depthIdx (snocChild nodes cur curNode c) q + 1 :=
                  depthIdx_of_edge heu1 hel1 hcb1 hedge2
                have hqd : depthIdx (snocChild nodes cur curNode c) q ≤
                    depthIdx (snocChild nodes cur curNode c) s0 :=
                  suffixReach_depth_le hsd1 hreach
                exact ⟨hb.2, by omega⟩
              · omega
          exact ⟨sfx, vals, hrun, hmain.1, hmain.2, fun h => absurd h hcur0⟩
      obtain ⟨sfx, vals, hmfRun, hsfxLt, hsfxDepth, hsfxRoot⟩ := hmf
      have hrun : processString i nodes s cur =
          some ((if i = s.length - 1
              then setValue (setSuffix (snocChild nodes cur curNode c) nodes.length (some sfx))
                nodes.length (some s)
              else setSuffix (snocChild nodes cur curNode c) nodes.length (some sfx)),
            some nodes.length) := by
        unfold processString
        rw [if_neg hge, hcurEq]
        dsimp only
        rw [← hc, hcl, hmfRun]
      -- the arena after the suffix link is written
      set nodes1 := snocChild nodes cur curNode c with hn1
      set nodes2 := setSuffix nodes1 nodes.length (some sfx) with hn2
      have hget2new : nodes2.get? nodes.length = some ⟨none, [], some sfx⟩ := by
        rw [hn2, get?_setSuffix_self (some sfx) (snocChild_get?_new nodes cur curNode c)]
      have hget2old : ∀ k, k < nodes.length → nodes2.get? k = nodes1.get? k := by
        intro k hk
        rw [hn2, get?_setSuffix_ne nodes1 nodes.length (some sfx) (by omega)]
      have hsc12 : SameChildren nodes1 nodes2 := sameChildren_setSuffix nodes1 nodes.length _
      have hlen2 : nodes2.length = nodes.length + 1 := by
        rw [hn2, setSuffix_length, hlen1]
      have hd21 : ∀ j, depthIdx nodes2 j = depthIdx nodes1 j :=
        fun j => (depthIdx_congr hsc12 j).symm
      have hget2cases : ∀ k nd, nodes2.get? k = some nd →
          (k < nodes.length ∧ k ≠ cur ∧ nodes.get? k = some nd) ∨
          (k = cur ∧ nd = { curNode with children := curNode.children ++ [(c, nodes.length)] }) ∨
          (k = nodes.length ∧ nd = ⟨none, [], some sfx⟩) := by
        intro k nd hnd
        by_cases hke : k = nodes.length
        · subst hke
          rw [hget2new] at hnd
          injection hnd with hnd
          exact Or.inr (Or.inr ⟨rfl, hnd.symm⟩)
        · have hk2 : k < nodes.length := by
            have := lt_of_get?_eq_some hnd
            omega
          rw [hget2old k hk2] at hnd
          rcases snocChild_get?_cases hcurEq hnd with h | h | ⟨hke2, _⟩
          · exact Or.inl h
          · exact Or.inr (Or.inl h)
          · exact absurd hke2 hke
      have hInv2' : Inv nodes2 := by
        refine ⟨by omega, ?_, ?_, ?_, ?_, ?_, ?_, ?_⟩
        · -- SuffixLt
          intro k nd j hnd hsl
          rcases hget2cases k nd hnd with ⟨_, _, hold⟩ | ⟨hk, hnd2⟩ | ⟨hk, hnd2⟩
          · exact hsfx k nd j hold hsl
          · rw [hnd2] at hsl
            rw [hk]
            exact hsfx cur curNode j hcurEq hsl
          · rw [hnd2] at hsl
            injection hsl with hsl
            rw [hk]
            omega
        · -- ChildrenBound
          intro k nd hnd p hp
          rw [hlen2]
          rcases hget2cases k nd hnd with ⟨_, _, hold⟩ | ⟨hk, hnd2⟩ | ⟨hk, hnd2⟩
          · have := hcb k nd hold p hp
            omega
          · rw [hnd2] at hp
            rcases List.mem_append.mp hp with hp2 | hp2
            · have := hcb cur curNode hcurEq p hp2
              omega
            · rcases List.mem_singleton.mp hp2 with rfl
              omega
          · rw [hnd2] at hp
            exact absurd hp (by simp)
        · -- EdgeLt
          intro a c2 j he
          exact hel1 a c2 j ((isEdge_congr hsc12 a c2 j).mpr he)
        · -- EdgeUniq
          intro a c2 j a2 c3 he he2
          exact heu1 a c2 j a2 c3 ((isEdge_congr hsc12 a c2 j).mpr he)
            ((isEdge_congr hsc12 a2 c3 j).mpr he2)
        · -- SuffixTotal
          intro k nd hnd hk1
          rcases hget2cases k nd hnd with ⟨_, _, hold⟩ | ⟨hk, hnd2⟩ | ⟨hk, hnd2⟩
          · exact hst k nd hold hk1
          · rw [hnd2]
            exact hst cur curNode hcurEq (hk ▸ hk1)
          · rw [hnd2]
            rfl
        · -- SuffixDepth
          intro k nd j hnd hsl
          rcases hget2cases k nd hnd with ⟨hkl, hkc, hold⟩ | ⟨hk, hnd2⟩ | ⟨hk, hnd2⟩
          · have hjk : j < k := hsfx k nd j hold hsl
            rw [hd21 k, hd21 j, hn1, snocChild_depthIdx_old hcurEq k hkl,
              snocChild_depthIdx_old hcurEq j (by omega)]
            exact hsd k nd j hold hsl
          · rw [hnd2] at hsl
            have hjc : j < cur := hsfx cur curNode j hcurEq hsl
            have hclt : cur < nodes.length := lt_of_get?_eq_some hcurEq
            rw [hk, hd21 cur, hd21 j, hn1, snocChild_depthIdx_old hcurEq cur hclt,
              snocChild_depthIdx_old hcurEq j (by omega)]
            exact hsd cur curNode j hcurEq hsl
          · rw [hnd2] at hsl
            injection hsl with hsl
            rw [hk, ← hsl]
            rw [hd21 sfx, hd21 nodes.length, hn1, snocChild_depthIdx_new hcurEq hcb]
            exact hsfxDepth
        · -- RootChildSuffix
          intro c2 j he
          have he1 : isEdge nodes1 0 c2 j := (isEdge_congr hsc12 0 c2 j).mpr he
          rcases (snocChild_isEdge_iff hcurEq 0 c2 j).mp he1 with hold | ⟨hcur0, _, hj⟩
          · obtain ⟨nd, hnd, hs0⟩ := hrc c2 j hold
            have hjb : j < nodes.length := by
              obtain ⟨nd0, hnd0, hm0⟩ := hold
              exact (hcb 0 nd0 hnd0 _ hm0).2
            by_cases hjc : j = cur
            · refine ⟨{ curNode with children := curNode.children ++ [(c, nodes.length)] }, ?_, ?_⟩
              · rw [hjc, hget2old cur (hjc ▸ hjb), hn1]
                exact snocChild_get?_cur curNode c hcur
              · have hndc : nd = curNode := by
                  rw [hjc] at hnd
                  rw [hnd] at hcurEq
                  injection hcurEq
                show curNode.suffix_link = some 0
                rw [← hndc]
                exact hs0
            · refine ⟨nd, ?_, hs0⟩
              rw [hget2old j hjb, hn1, snocChild_get?_ne curNode c hjb hjc]
              exact hnd
          · subst hj
            have hsfx0 : sfx = 0 := hsfxRoot hcur0.symm
            refine ⟨_, hget2new, ?_⟩
            rw [hsfx0]
      -- the four extra conclusions, first for `nodes2`
      have hcku2 : ChildKeysUniq nodes → ChildKeysUniq nodes2 := fun h =>
        childKeysUniq_congr hsc12 (snocChild_childKeysUniq hcurEq hcl h)
      have hdep2 : ∀ k, k < nodes.length → depthIdx nodes2 k = depthIdx nodes k := by
        intro k hk
        rw [hd21 k, hn1, snocChild_depthIdx_old hcurEq k hk]
      have hedg2 : ∀ a c2 b, isEdge nodes a c2 b → isEdge nodes2 a c2 b := by
        intro a c2 b h
        refine (isEdge_congr hsc12 a c2 b).mp ?_
        rw [hn1]
        exact (snocChild_isEdge_iff hcurEq a c2 b).mpr (Or.inl h)
      have hres2edge : isEdge nodes2 cur c nodes.length := by
        refine (isEdge_congr hsc12 cur c nodes.length).mp ?_
        rw [hn1]
        exact (snocChild_isEdge_iff hcurEq cur c nodes.length).mpr
          (Or.inr ⟨rfl, rfl, rfl⟩)
      have hres2depth : depthIdx nodes2 nodes.length = depthIdx nodes cur + 1 := by
        rw [hd21 nodes.length, hn1, snocChild_depthIdx_new hcurEq hcb]
      -- final arena, with the value possibly written on the fresh node
      by_cases hlast : i = s.length - 1
      · rw [if_pos hlast] at hrun
        have hskel := sameSkeleton_setValue nodes2 nodes.length (some s)
        refine ⟨_, some nodes.length, hrun, Inv_of_sameSkeleton hskel hInv2',
          by rw [setValue_length]; omega,
          Or.inr ⟨hlt, nodes.length, rfl, by rw [setValue_length]; omega⟩, ?_,
          fun h => childKeysUniq_congr hskel.1 (hcku2 h),
          fun k hk => ((depthIdx_congr hskel.1 k).symm).trans (hdep2 k hk),
          fun a c2 b h => (isEdge_congr hskel.1 a c2 b).mp (hedg2 a c2 b h),
          fun ch hch => ?_⟩
        · rw [get?_setValue_ne nodes2 nodes.length (some s) (by omega),
            hget2old 0 (by omega), hn1]
          by_cases hc0 : cur = 0
          · subst hc0
            rw [snocChild_get?_cur curNode c (by omega), hcurEq]
            rfl
          · rw [snocChild_get?_ne curNode c (by omega) (fun h => hc0 h.symm)]
        · injection hch with hch
          subst hch
          exact ⟨(isEdge_congr hskel.1 cur c nodes.length).mp hres2edge,
            ((depthIdx_congr hskel.1 nodes.length).symm).trans hres2depth⟩
      · rw [if_neg hlast] at hrun
        refine ⟨nodes2, some nodes.length, hrun, hInv2', by omega,
          Or.inr ⟨hlt, nodes.length, rfl, by omega⟩, ?_, hcku2, hdep2, hedg2,
          fun ch hch => ?_⟩
        · rw [hget2old 0 (by omega), hn1]
          by_cases hc0 : cur = 0
          · subst hc0
            rw [snocChild_get?_cur curNode c (by omega), hcurEq]
            rfl
          · rw [snocChild_get?_ne curNode c (by omega) (fun h => hc0 h.symm)]
        · injection hch with hch
          subst hch
          exact ⟨hres2edge, hres2depth⟩

/-- The shape of `processString_run` used by the invariant-threading lemmas. -/
theorem processString_inv {nodes : List ACNode} (hInv : Inv nodes)
    (i : Nat) (s : List Char) {cur : Nat} (hcur : cur < nodes.length) :
    ∃ nodes3 res, processString i nodes s cur = some (nodes3, res) ∧
      Inv nodes3 ∧ nodes.length ≤ nodes3.length ∧
      ((s.length ≤ i ∧ nodes3 = nodes ∧ res = none) ∨
       (i < s.length ∧ ∃ ch, res = some ch ∧ ch < nodes3.length)) ∧
      (nodes3.get? 0).map (·.value) = (nodes.get? 0).map (·.value) := by
  obtain ⟨n3, res, h1, h2, h3, h4, h5, -, -, -, -⟩ := processString_run hInv i s hcur
  exact ⟨n3, res, h1, h2, h3, h4, h5⟩

/-- One whole column succeeds and preserves the invariant; surviving work
entries come from the old work list and still have unread characters. -/
theorem processColumn_inv (i : Nat) :
    ∀ (work : List (List Char × Nat)) (nodes : List ACNode), Inv nodes →
    (∀ item ∈ work, item.2 < nodes.length) →
    ∃ nodes2 work2, processColumn i nodes work = some (nodes2, work2) ∧
      Inv nodes2 ∧ nodes.length ≤ nodes2.length ∧
      (∀ item ∈ work2, item.2 < nodes2.length) ∧
      (∀ item ∈ work2, (∃ cur0, (item.1, cur0) ∈ work) ∧ i < item.1.length) ∧
      (nodes2.get? 0).map (·.value) = (nodes.get? 0).map (·.value)
  | [], nodes, hInv, _ =>
    ⟨nodes, [], rfl, hInv, Nat.le_refl _, by simp, by simp, rfl⟩
  | (s, cur) :: rest, nodes, hInv, hwork => by
    have hcur : cur < nodes.length := hwork (s, cur) (by simp)
    obtain ⟨nodes3, res, hrun, hInv3, hle3, hres, hroot3⟩ :=
      processString_inv hInv i s hcur
    obtain ⟨nodes2, work2, hcrun, hInv2, hle2, hmem2, horig2, hroot2⟩ :=
      processColumn_inv i rest nodes3 hInv3
        (fun item hitem => Nat.lt_of_lt_of_le (hwork item (by simp [hitem])) hle3)
    rcases hres with ⟨hge, heq3, hresn⟩ | ⟨hlt, ch, hressome, hchlt⟩
    · subst hresn
      have hstep : processColumn i nodes ((s, cur) :: rest) = some (nodes2, work2) := by
        show (match processString i nodes s cur with
          | none => none
          | some (nodes1, res) =>
            match processColumn i nodes1 rest with
            | none => none
            | some (nodes2, rest1) =>
              some (nodes2, match res with
                | none => rest1
                | some child => (s, child) :: rest1)) = _
        rw [hrun]
        dsimp only
        rw [hcrun]
      refine ⟨nodes2, work2, hstep, hInv2, le_trans hle3 hle2, hmem2, ?_, hroot2.trans hroot3⟩
      intro item hitem
      obtain ⟨⟨cur0, hcur0⟩, hlen⟩ := horig2 item hitem
      exact ⟨⟨cur0, by simp [hcur0]⟩, hlen⟩
    · subst hressome
      have hstep : processColumn i nodes ((s, cur) :: rest) =
          some (nodes2, (s, ch) :: work2) := by
        show (match processString i nodes s cur with
          | none => none
          | some (nodes1, res) =>
            match processColumn i nodes1 rest with
            | none => none
            | some (nodes2, rest1) =>
              some (nodes2, match res with
                | none => rest1
                | some child => (s, child) :: rest1)) = _
        rw [hrun]
        dsimp only
        rw [hcrun]
      refine ⟨nodes2, (s, ch) :: work2, hstep, hInv2, le_trans hle3 hle2, ?_, ?_,
        hroot2.trans hroot3⟩
      · intro item hitem
        rcases List.mem_cons.mp hitem with rfl | hmem
        · exact Nat.lt_of_lt_of_le hchlt hle2
        · exact hmem2 item hmem
      · intro item hitem
        rcases List.mem_cons.mp hitem with rfl | hmem
        · exact ⟨⟨cur, by simp⟩, hlt⟩
        · obtain ⟨⟨cur0, hcur0⟩, hlen⟩ := horig2 item hmem
          exact ⟨⟨cur0, by simp [hcur0]⟩, hlen⟩

/-- The constructor loop terminates within the fuel bound and preserves the
invariant and the root's terminal value. -/
theorem buildLoop_inv :
    ∀ (fuel i : Nat) (nodes : List ACNode) (work : List (List Char × Nat)) (L : Nat),
    Inv nodes →
    (∀ item ∈ work, item.2 < nodes.length) →
    (∀ item ∈ work, i ≤ item.1.length ∧ item.1.length ≤ L) →
    L + 1 ≤ fuel + i →
    ∃ nodes2, buildLoop fuel i nodes work = some nodes2 ∧ Inv nodes2 ∧
      (nodes2.get? 0).map (·.value) = (nodes.get? 0).map (·.value)
  | 0, i, nodes, work, L, hInv, _, hbound, hfuel => by
    have hempty : work = [] := by
      cases work with
      | nil => rfl
      | cons item rest =>
        have := hbound item (by simp)
        omega
    subst hempty
    exact ⟨nodes, by simp [buildLoop], hInv, rfl⟩
  | fuel + 1, i, nodes, work, L, hInv, hwork, hbound, hfuel => by
    by_cases hcond : work.any (fun sc => !sc.1.isEmpty) = true
    · obtain ⟨nodes2, work2, hcrun, hInv2, hle2, hmem2, horig2, hroot2⟩ :=
        processColumn_inv i work nodes hInv hwork
      obtain ⟨nodes4, hlrun, hInv4, hroot4⟩ :=
        buildLoop_inv fuel (i + 1) nodes2 work2 L hInv2 hmem2
          (fun item hitem => by
            obtain ⟨⟨cur0, hcur0⟩, hlen⟩ := horig2 item hitem
            have := hbound (item.1, cur0) hcur0
            exact ⟨by omega, this.2⟩)
          (by omega)
      refine ⟨nodes4, ?_, hInv4, hroot4.trans hroot2⟩
      show (if work.any (fun sc => !sc.1.isEmpty) then
          match processColumn i nodes work with
          | none => none
          | some (nodes1, work1) => buildLoop fuel (i + 1) nodes1 work1
        else some nodes) = some nodes4
      rw [if_pos hcond, hcrun]
      exact hlrun
    · refine ⟨nodes, ?_, hInv, rfl⟩
      show (if work.any (fun sc => !sc.1.isEmpty) then
          match processColumn i nodes work with
          | none => none
          | some (nodes1, work1) => buildLoop fuel (i + 1) nodes1 work1
        else some nodes) = some nodes
      rw [if_neg hcond]

/-! ### Totality of the constructor -/

theorem pyDedup_sub {x : List Char} :
    ∀ (l : List (List Char)) (acc : List (List Char)),
      x ∈ l.foldl (fun acc s => if s ∈ acc then acc else acc ++ [s]) acc →
      x ∈ acc ∨ x ∈ l
  | [], acc, h => Or.inl h
  | a :: l, acc, h => by
    have h2 : x ∈ l.foldl (fun acc s => if s ∈ acc then acc else acc ++ [s])
        (if a ∈ acc then acc else acc ++ [a]) := h
    rcases pyDedup_sub l _ h2 with h3 | h3
    · by_cases ha : a ∈ acc
      · rw [if_pos ha] at h3
        exact Or.inl h3
      · rw [if_neg ha] at h3
        rcases List.mem_append.mp h3 with h4 | h4
        · exact Or.inl h4
        · exact Or.inr (by simp [List.mem_singleton.mp h4])
    · exact Or.inr (by simp [h3])

theorem pyDedup_mem {x : List Char} {l : List (List Char)} (h : x ∈ pyDedup l) : x ∈ l := by
  rcases pyDedup_sub l [] h with h2 | h2
  · exact absurd h2 (by simp)
  · exact h2

theorem le_foldl_max : ∀ (l : List Nat) (init : Nat),
    (init ≤ l.foldl max init) ∧ (∀ a ∈ l, a ≤ l.foldl max init)
  | [], init => ⟨Nat.le_refl _, by simp⟩
  | b :: l, init => by
    obtain ⟨h1, h2⟩ := le_foldl_max l (max init b)
    refine ⟨le_trans (Nat.le_max_left init b) h1, ?_⟩
    intro a ha
    rcases List.mem_cons.mp ha with rfl | ha2
    · exact le_trans (Nat.le_max_right init a) h1
    · exact h2 a ha2

/-- `AhoCorasick.__init__` always terminates on a collection, keeps the
argument, satisfies the arena invariant, and marks the root terminal exactly
when the empty pattern is present. -/
theorem buildAC_total (strings : List (List Char)) :
    ∃ a, buildAC strings = some a ∧ a.strings = strings ∧ Inv a.nodes ∧
      (a.nodes.get? 0).map (·.value) =
        some (if [] ∈ strings then some [] else none) := by
  set rv : Option (List Char) := if [] ∈ strings then some [] else none with hrv
  set nodes0 : List ACNode := [⟨rv, [], none⟩] with hn0
  have hget00 : nodes0.get? 0 = some ⟨rv, [], none⟩ := rfl
  have hget0 : ∀ k nd, nodes0.get? k = some nd → k = 0 ∧ nd = ⟨rv, [], none⟩ := by
    intro k nd h
    cases k with
    | zero => exact ⟨rfl, by injection h with h; exact h.symm⟩
    | succ m =>
      have : nodes0.length ≤ m + 1 := by simp [hn0]
      rw [List.get?_eq_none.mpr this] at h
      exact Option.noConfusion h
  have hInv0 : Inv nodes0 := by
    refine ⟨by simp [hn0], ?_, ?_, ?_, ?_, ?_, ?_, ?_⟩
    · intro i nd j hnd hsl
      obtain ⟨_, rfl⟩ := hget0 i nd hnd
      exact Option.noConfusion hsl
    · intro k nd hnd p hp
      obtain ⟨_, rfl⟩ := hget0 k nd hnd
      exact absurd hp (by simp)
    · intro i c j he
      obtain ⟨nd, hnd, hm⟩ := he
      obtain ⟨_, rfl⟩ := hget0 i nd hnd
      exact absurd hm (by simp)
    · intro i c j i2 c2 he _
      obtain ⟨nd, hnd, hm⟩ := he
      obtain ⟨_, rfl⟩ := hget0 i nd hnd
      exact absurd hm (by simp)
    · intro j nd hnd hj
      obtain ⟨hj0, _⟩ := hget0 j nd hnd
      omega
    · intro j nd k hnd hsl
      obtain ⟨_, rfl⟩ := hget0 j nd hnd
      exact Option.noConfusion hsl
    · intro c j he
      obtain ⟨nd, hnd, hm⟩ := he
      obtain ⟨_, rfl⟩ := hget0 0 nd hnd
      exact absurd hm (by simp)
  set maxLen := (strings.map (·.length)).foldl max 0 with hml
  have hloop := buildLoop_inv (maxLen + 2) 0 nodes0
    ((pyDedup strings).map (fun s => (s, 0))) maxLen hInv0
    (fun item hitem => by
      obtain ⟨s, _, heq⟩ := List.mem_map.mp hitem
      rw [← heq]
      simp [hn0])
    (fun item hitem => by
      obtain ⟨s, hs, heq⟩ := List.mem_map.mp hitem
      rw [← heq]
      refine ⟨Nat.zero_le _, ?_⟩
      exact (le_foldl_max _ 0).2 s.length
        (List.mem_map.mpr ⟨s, pyDedup_mem hs, rfl⟩))
    (by omega)
  obtain ⟨nodes2, hlrun, hInv2, hroot2⟩ := hloop
  refine ⟨⟨strings, nodes2⟩, ?_, rfl, hInv2, ?_⟩
  · show (match buildLoop (maxLen + 2) 0 nodes0
        ((pyDedup strings).map (fun s => (s, 0))) with
      | none => none
      | some nodes => some (AhoCorasick.mk strings nodes))
      = some (AhoCorasick.mk strings nodes2)
    rw [hlrun]
  · show (nodes2.get? 0).map (·.value) = some rv
    rw [hroot2, hget00]
    rfl

/-! ### Totality of matching -/

theorem findLoop_total {nodes : List ACNode} (hsfx : SuffixLt nodes)
    (hcb : ChildrenBound nodes) (hlen : 1 ≤ nodes.length) :
    ∀ (s : List Char) (cur : Nat) (found : Finset (List Char)), cur < nodes.length →
      ∃ r, findLoop nodes cur s found = some r ∧ found ⊆ r
  | [], cur, found, _ => ⟨found, rfl, Finset.Subset.refl _⟩
  | c :: rest, cur, found, hcur => by
    obtain ⟨nxt, vals, hrun, hlt⟩ :=
      mfAux_run_lt hsfx hcb hlen cur hcur (nodes.length + 1) (by omega) c ∅
    obtain ⟨r, hrec, hsub⟩ := findLoop_total hsfx hcb hlen rest nxt (found ∪ vals) hlt
    refine ⟨r, ?_, le_trans Finset.subset_union_left hsub⟩
    show (match mfAux nodes (nodes.length + 1) (some cur) c ∅ with
      | none => none
      | some (nxt, traversed) => findLoop nodes nxt rest (found ∪ traversed)) = some r
    rw [hrun]
    exact hrec

/-! ### Order and duplication invariance: walk lemmas -/

theorem mfAux_step {nodes : List ACNode} {i : Nat} {nd : ACNode}
    (hnd : nodes.get? i = some nd) (f : Nat) (c : Char) (acc : Finset (List Char)) :
    mfAux nodes (f + 1) (some i) c acc =
      match childLookup nd.children c with
      | some j => some (j, mfAcc nd acc)
      | none => mfAux nodes f nd.suffix_link c (mfAcc nd acc) := by
  show (match nodes.get? i with
    | none => none
    | some nd =>
      match childLookup nd.children c with
      | some j => some (j, mfAcc nd acc)
      | none => mfAux nodes f nd.suffix_link c (mfAcc nd acc)) = _
  rw [hnd]

theorem mfAux_step_none {nodes : List ACNode} {i : Nat}
    (hnd : nodes.get? i = none) (f : Nat) (c : Char) (acc : Finset (List Char)) :
    mfAux nodes (f + 1) (some i) c acc = none := by
  show (match nodes.get? i with
    | none => none
    | some nd =>
      match childLookup nd.children c with
      | some j => some (j, mfAcc nd acc)
      | none => mfAux nodes f nd.suffix_link c (mfAcc nd acc)) = _
  rw [hnd]

theorem mfAux_step_child {nodes : List ACNode} {i : Nat} {nd : ACNode}
    (hnd : nodes.get? i = some nd) {c : Char} {j : Nat}
    (hcl : childLookup nd.children c = some j) (f : Nat) (acc : Finset (List Char)) :
    mfAux nodes (f + 1) (some i) c acc = some (j, mfAcc nd acc) := by
  rw [mfAux_step hnd, hcl]

theorem mfAux_step_sfx {nodes : List ACNode} {i : Nat} {nd : ACNode}
    (hnd : nodes.get? i = some nd) {c : Char}
    (hcl : childLookup nd.children c = none) (f : Nat) (acc : Finset (List Char)) :
    mfAux nodes (f + 1) (some i) c acc
      = mfAux nodes f nd.suffix_link c (mfAcc nd acc) := by
  rw [mfAux_step hnd, hcl]

theorem mfAux_zero_some {nodes : List ACNode} (i : Nat) (c : Char)
    (acc : Finset (List Char)) : mfAux nodes 0 (some i) c acc = none := rfl

/-- Once the walk returns within some fuel, one more unit of fuel changes
nothing. -/
theorem mfAux_fuel_mono {nodes : List ACNode} :
    ∀ (fuel : Nat) (o : Option Nat) (c : Char) (acc : Finset (List Char))
      {r : Nat × Finset (List Char)},
      mfAux nodes fuel o c acc = some r → mfAux nodes (fuel + 1) o c acc = some r := by
  intro fuel
  induction fuel with
  | zero =>
    intro o c acc r h
    cases o with
    | none => rw [mfAux_none] at h ⊢; exact h
    | some i => rw [mfAux_zero_some] at h; exact Option.noConfusion h
  | succ f ih =>
    intro o c acc r h
    cases o with
    | none => rw [mfAux_none] at h ⊢; exact h
    | some i =>
      cases hnd : nodes.get? i with
      | none => rw [mfAux_step_none hnd] at h; exact Option.noConfusion h
      | some nd =>
        cases hcl : childLookup nd.children c with
        | some j =>
          rw [mfAux_step_child hnd hcl] at h
          rw [mfAux_step_child hnd hcl]
          exact h
        | none =>
          rw [mfAux_step_sfx hnd hcl] at h
          rw [mfAux_step_sfx hnd hcl]
          exact ih _ _ _ h

theorem mfAux_fuel_le {nodes : List ACNode} {f1 f2 : Nat} (hf : f1 ≤ f2)
    {o : Option Nat} {c : Char} {acc : Finset (List Char)}
    {r : Nat × Finset (List Char)} (h : mfAux nodes f1 o c acc = some r) :
    mfAux nodes f2 o c acc = some r := by
  induction f2 with
  | zero =>
    have : f1 = 0 := by omega
    exact this ▸ h
  | succ f ih =>
    by_cases he : f1 = f + 1
    · exact he ▸ h
    · exact mfAux_fuel_mono f o c acc (ih (by omega))

/-- The walk's arrival state only depends on the part of the arena a
suffix-closed predicate `P` confines it to; harvested values are ignored. -/
theorem mfAux_congr_pred {N N2 : List ACNode} {P : Nat → Prop}
    (hP : ∀ k, P k → ∃ nd nd', N.get? k = some nd ∧ N2.get? k = some nd' ∧
      nd.children = nd'.children ∧ nd.suffix_link = nd'.suffix_link ∧
      (∀ j, nd.suffix_link = some j → P j)) :
    ∀ (fuel : Nat) (o : Option Nat) (c : Char) (acc acc' : Finset (List Char)),
      (o = none ∨ ∃ s0, o = some s0 ∧ P s0) →
      Option.map Prod.fst (mfAux N fuel o c acc)
        = Option.map Prod.fst (mfAux N2 fuel o c acc') := by
  intro fuel
  induction fuel with
  | zero =>
    intro o c acc acc' ho
    rcases ho with rfl | ⟨s0, rfl, hs0⟩
    · rw [mfAux_none, mfAux_none]
      rfl
    · rw [mfAux_zero_some, mfAux_zero_some]
  | succ f ih =>
    intro o c acc acc' ho
    rcases ho with rfl | ⟨s0, rfl, hs0⟩
    · rw [mfAux_none, mfAux_none]
      rfl
    · obtain ⟨nd, nd', hnd, hnd', hch, hsl, hPnext⟩ := hP s0 hs0
      cases hcl : childLookup nd.children c with
      | some j =>
        rw [mfAux_step_child hnd hcl, mfAux_step_child hnd' (by rw [← hch]; exact hcl)]
        rfl
      | none =>
        rw [mfAux_step_sfx hnd hcl, mfAux_step_sfx hnd' (by rw [← hch]; exact hcl),
          hsl]
        refine ih _ _ _ _ ?_
        cases hnl : nd'.suffix_link with
        | none => exact Or.inl rfl
        | some j => exact Or.inr ⟨j, rfl, hPnext j (by rw [hsl, hnl])⟩

theorem childLookup_append (l : List (Char × Nat)) (c2 c : Char) (j : Nat) :
    childLookup (l ++ [(c, j)]) c2 =
      match childLookup l c2 with
      | some r => some r
      | none => if c == c2 then some j else none := by
  unfold childLookup
  rw [find?_append_eq]
  cases hf : l.find? (fun p => p.1 == c) with
  | none =>
    cases hf2 : l.find? (fun p => p.1 == c2) with
    | none =>
      show ([(c, j)].find? (fun p => p.1 == c2)).map (·.2) = _
      by_cases hcc : c == c2
      · rw [List.find?_cons_of_pos _ (by simpa using hcc), hcc]
        rfl
      · rw [List.find?_cons_of_neg _ (by simpa using hcc)]
        rw [show (c == c2) = false from by simpa using hcc]
        rfl
    | some p => rfl
  | some q =>
    cases hf2 : l.find? (fun p => p.1 == c2) with
    | none =>
      show ([(c, j)].find? (fun p => p.1 == c2)).map (·.2) = _
      by_cases hcc : c == c2
      · rw [List.find?_cons_of_pos _ (by simpa using hcc), hcc]
        rfl
      · rw [List.find?_cons_of_neg _ (by simpa using hcc)]
        rw [show (c == c2) = false from by simpa using hcc]
        rfl
    | some p => rfl

/-! ### Arena isomorphisms -/

/-- Node correspondence along an index translation `φ`: equal terminal value,
children lookups translated pointwise (lookup is the only access the code
performs on a children dict), and the suffix link translated. -/
def mapsNode (φ : Nat → Nat) (a b : ACNode) : Prop :=
  b.value = a.value ∧
  (∀ c, childLookup b.children c = (childLookup a.children c).map φ) ∧
  b.suffix_link = a.suffix_link.map φ

/-- `φ`/`ψ` form a root-preserving isomorphism between the arenas `A` and
`B`. -/
def IsoPred (φ ψ : Nat → Nat) (A B : List ACNode) : Prop :=
  A.length = B.length ∧ φ 0 = 0 ∧ ψ 0 = 0 ∧
  (∀ i, i < A.length → φ i < B.length) ∧
  (∀ i, i < A.length → ψ (φ i) = i) ∧
  (∀ j, j < B.length → ψ j < A.length) ∧
  (∀ j, j < B.length → φ (ψ j) = j) ∧
  (∀ i a, A.get? i = some a → ∃ b, B.get? (φ i) = some b ∧ mapsNode φ a b)

theorem mapsNode_id {φ : Nat → Nat} (a : ACNode)
    (hch : ∀ c j, childLookup a.children c = some j → φ j = j)
    (hsl : ∀ j, a.suffix_link = some j → φ j = j) : mapsNode φ a a := by
  refine ⟨rfl, fun c => ?_, ?_⟩
  · cases hc : childLookup a.children c with
    | none => rfl
    | some j => rw [Option.map_some', hch c j hc]
  · cases hs : a.suffix_link with
    | none => rfl
    | some j => rw [Option.map_some', hsl j hs]

theorem iso_refl (A : List ACNode) : IsoPred (fun k => k) (fun k => k) A A :=
  ⟨rfl, rfl, rfl, fun _ h => h, fun _ _ => rfl, fun _ h => h, fun _ _ => rfl,
    fun _ a ha => ⟨a, ha, mapsNode_id a (fun _ _ _ => rfl) (fun _ _ => rfl)⟩⟩

theorem iso_symm {φ ψ : Nat → Nat} {A B : List ACNode} (h : IsoPred φ ψ A B)
    (hcb : ChildrenBound A) (hsfx : SuffixLt A) : IsoPred ψ φ B A := by
  obtain ⟨hlen, hφ0, hψ0, hφlt, hψφ, hψlt, hφψ, hmap⟩ := h
  refine ⟨hlen.symm, hψ0, hφ0, hψlt, hφψ, hφlt, hψφ, ?_⟩
  intro j b hb
  have hjb : j < B.length := by
    have := lt_of_get?_eq_some hb
    omega
  have hψj : ψ j < A.length := hψlt j hjb
  obtain ⟨a, ha⟩ := get?_isSome_of_lt hψj
  obtain ⟨b', hb', hmn⟩ := hmap (ψ j) a ha
  rw [hφψ j hjb, hb] at hb'
  injection hb' with hb'
  subst hb'
  obtain ⟨hv, hchl, hsl⟩ := hmn
  refine ⟨a, ha, hv.symm, fun c => ?_, ?_⟩
  · rw [hchl c]
    cases hc : childLookup a.children c with
    | none => rfl
    | some r =>
      have hr : r < A.length := (hcb (ψ j) a ha _ (childLookup_mem hc)).2
      rw [Option.map_some', Option.map_some', hψφ r hr]
  · rw [hsl]
    cases hs : a.suffix_link with
    | none => rfl
    | some t =>
      have ht : t < A.length := by
        have := hsfx (ψ j) a t ha hs
        omega
      rw [Option.map_some', Option.map_some', hψφ t ht]

theorem mapsNode_comp {φ1 φ2 : Nat → Nat} {a b c : ACNode}
    (h1 : mapsNode φ1 a b) (h2 : mapsNode φ2 b c) :
    mapsNode (fun k => φ2 (φ1 k)) a c := by
  obtain ⟨hv1, hch1, hsl1⟩ := h1
  obtain ⟨hv2, hch2, hsl2⟩ := h2
  refine ⟨hv2.trans hv1, fun ch => ?_, ?_⟩
  · rw [hch2 ch, hch1 ch]
    cases childLookup a.children ch <;> rfl
  · rw [hsl2, hsl1]
    cases a.suffix_link <;> rfl

theorem iso_trans {φ1 ψ1 φ2 ψ2 : Nat → Nat} {A B C : List ACNode}
    (h1 : IsoPred φ1 ψ1 A B) (h2 : IsoPred φ2 ψ2 B C) :
    IsoPred (fun k => φ2 (φ1 k)) (fun k => ψ1 (ψ2 k)) A C := by
  obtain ⟨hlen1, hφ01, hψ01, hφlt1, hψφ1, hψlt1, hφψ1, hmap1⟩ := h1
  obtain ⟨hlen2, hφ02, hψ02, hφlt2, hψφ2, hψlt2, hφψ2, hmap2⟩ := h2
  refine ⟨hlen1.trans hlen2, by show φ2 (φ1 0) = 0; rw [hφ01, hφ02],
    by show ψ1 (ψ2 0) = 0; rw [hψ02, hψ01],
    fun i hi => hφlt2 _ (hφlt1 i hi),
    fun i hi => by show ψ1 (ψ2 (φ2 (φ1 i))) = i; rw [hψφ2 _ (hφlt1 i hi), hψφ1 i hi],
    fun j hj => hψlt1 _ (hψlt2 j hj),
    fun j hj => by show φ2 (φ1 (ψ1 (ψ2 j))) = j; rw [hφψ1 _ (hψlt2 j hj), hφψ2 j hj], ?_⟩
  intro i a ha
  obtain ⟨b, hb, hab⟩ := hmap1 i a ha
  obtain ⟨cnd, hcn, hbc⟩ := hmap2 (φ1 i) b hb
  exact ⟨cnd, hcn, mapsNode_comp hab hbc⟩

/-- Extension of an index translation by one fresh point. -/
def extFun (f : Nat → Nat) (n m : Nat) : Nat → Nat := fun k => if k = n then m else f k

theorem extFun_self (f : Nat → Nat) (n m : Nat) : extFun f n m n = m := if_pos rfl

theorem extFun_ne (f : Nat → Nat) {n : Nat} (m : Nat) {k : Nat} (h : k ≠ n) :
    extFun f n m k = f k := if_neg h

theorem mapsNode_ext {φ φ2 : Nat → Nat} {a b : ACNode}
    (hch : ∀ c j, childLookup a.children c = some j → φ2 j = φ j)
    (hsl : ∀ j, a.suffix_link = some j → φ2 j = φ j)
    (h : mapsNode φ a b) : mapsNode φ2 a b := by
  obtain ⟨hv, hc, hs⟩ := h
  refine ⟨hv, fun c => ?_, ?_⟩
  · rw [hc c]
    cases hcl : childLookup a.children c with
    | none => rfl
    | some j => rw [Option.map_some', Option.map_some', hch c j hcl]
  · rw [hs]
    cases hss : a.suffix_link with
    | none => rfl
    | some j => rw [Option.map_some', Option.map_some', hsl j hss]

theorem iso_setValue {φ ψ : Nat → Nat} {A B : List ACNode} (h : IsoPred φ ψ A B)
    {k : Nat} (hk : k < A.length) (v : Option (List Char)) :
    IsoPred φ ψ (setValue A k v) (setValue B (φ k) v) := by
  obtain ⟨hlen, hφ0, hψ0, hφlt, hψφ, hψlt, hφψ, hmap⟩ := h
  have hlenA := setValue_length A k v
  have hlenB := setValue_length B (φ k) v
  refine ⟨by rw [hlenA, hlenB, hlen], hφ0, hψ0,
    fun i hi => by rw [hlenB]; exact hφlt i (by rwa [hlenA] at hi),
    fun i hi => hψφ i (by rwa [hlenA] at hi),
    fun j hj => by rw [hlenA]; exact hψlt j (by rwa [hlenB] at hj),
    fun j hj => hφψ j (by rwa [hlenB] at hj), ?_⟩
  intro i a ha
  by_cases hik : i = k
  · subst hik
    obtain ⟨a0, ha0⟩ := get?_isSome_of_lt hk
    rw [get?_setValue_self v ha0] at ha
    injection ha with ha
    obtain ⟨b0, hb0, hmn⟩ := hmap i a0 ha0
    refine ⟨{ b0 with value := v }, by rw [get?_setValue_self v hb0], ?_⟩
    rw [← ha]
    exact ⟨rfl, hmn.2.1, hmn.2.2⟩
  · have hi : i < A.length := by
      have := lt_of_get?_eq_some ha
      rwa [hlenA] at this
    have hφik : φ k ≠ φ i := by
      intro he
      have h1 := hψφ i hi
      rw [← he, hψφ k hk] at h1
      exact hik h1.symm
    rw [get?_setValue_ne A k v (fun he => hik he.symm)] at ha
    obtain ⟨b, hb, hmn⟩ := hmap i a ha
    exact ⟨b, by rw [get?_setValue_ne B (φ k) v hφik]; exact hb, hmn⟩

theorem iso_setSuffix {φ ψ : Nat → Nat} {A B : List ACNode} (h : IsoPred φ ψ A B)
    {k : Nat} (hk : k < A.length) (o : Option Nat) :
    IsoPred φ ψ (setSuffix A k o) (setSuffix B (φ k) (o.map φ)) := by
  obtain ⟨hlen, hφ0, hψ0, hφlt, hψφ, hψlt, hφψ, hmap⟩ := h
  have hlenA := setSuffix_length A k o
  have hlenB := setSuffix_length B (φ k) (o.map φ)
  refine ⟨by rw [hlenA, hlenB, hlen], hφ0, hψ0,
    fun i hi => by rw [hlenB]; exact hφlt i (by rwa [hlenA] at hi),
    fun i hi => hψφ i (by rwa [hlenA] at hi),
    fun j hj => by rw [hlenA]; exact hψlt j (by rwa [hlenB] at hj),
    fun j hj => hφψ j (by rwa [hlenB] at hj), ?_⟩
  intro i a ha
  by_cases hik : i = k
  · subst hik
    obtain ⟨a0, ha0⟩ := get?_isSome_of_lt hk
    rw [get?_setSuffix_self o ha0] at ha
    injection ha with ha
    obtain ⟨b0, hb0, hmn⟩ := hmap i a0 ha0
    refine ⟨{ b0 with suffix_link := o.map φ }, by rw [get?_setSuffix_self (o.map φ) hb0], ?_⟩
    rw [← ha]
    exact ⟨hmn.1, hmn.2.1, rfl⟩
  · have hi : i < A.length := by
      have := lt_of_get?_eq_some ha
      rwa [hlenA] at this
    have hφik : φ k ≠ φ i := by
      intro he
      have h1 := hψφ i hi
      rw [← he, hψφ k hk] at h1
      exact hik h1.symm
    rw [get?_setSuffix_ne A k o (fun he => hik he.symm)] at ha
    obtain ⟨b, hb, hmn⟩ := hmap i a ha
    exact ⟨b, by rw [get?_setSuffix_ne B (φ k) (o.map φ) hφik]; exact hb, hmn⟩

theorem iso_snocChild {φ ψ : Nat → Nat} {A B : List ACNode} (h : IsoPred φ ψ A B)
    (hcb : ChildrenBound A) (hsfx : SuffixLt A)
    {cur : Nat} {na : ACNode} (hna : A.get? cur = some na) (c : Char) :
    ∃ nb, B.get? (φ cur) = some nb ∧
      IsoPred (extFun φ A.length B.length) (extFun ψ B.length A.length)
        (snocChild A cur na c) (snocChild B (φ cur) nb c) := by
  obtain ⟨hlen, hφ0, hψ0, hφlt, hψφ, hψlt, hφψ, hmap⟩ := h
  have hcur : cur < A.length := lt_of_get?_eq_some hna
  obtain ⟨nb, hnb, hmn⟩ := hmap cur na hna
  have hA1 : A.length ≥ 1 := by omega
  have hB1 : B.length ≥ 1 := by omega
  have hlenSA := snocChild_length A cur na c
  have hlenSB := snocChild_length B (φ cur) nb c
  refine ⟨nb, hnb, by rw [hlenSA, hlenSB, hlen],
    by rw [extFun_ne φ B.length (by omega), hφ0],
    by rw [extFun_ne ψ A.length (by omega), hψ0], ?_, ?_, ?_, ?_, ?_⟩
  · intro i hi
    rw [hlenSA] at hi
    rw [hlenSB]
    by_cases hie : i = A.length
    · rw [hie, extFun_self]
      omega
    · rw [extFun_ne φ B.length hie]
      have := hφlt i (by omega)
      omega
  · intro i hi
    rw [hlenSA] at hi
    by_cases hie : i = A.length
    · rw [hie, extFun_self, extFun_self]
    · rw [extFun_ne φ B.length hie]
      have hφi := hφlt i (by omega)
      rw [extFun_ne ψ A.length (by omega)]
      exact hψφ i (by omega)
  · intro j hj
    rw [hlenSB] at hj
    rw [hlenSA]
    by_cases hje : j = B.length
    · rw [hje, extFun_self]
      omega
    · rw [extFun_ne ψ A.length hje]
      have := hψlt j (by omega)
      omega
  · intro j hj
    rw [hlenSB] at hj
    by_cases hje : j = B.length
    · rw [hje, extFun_self, extFun_self]
    · rw [extFun_ne ψ A.length hje]
      have hψj := hψlt j (by omega)
      rw [extFun_ne φ B.length (by omega)]
      exact hφψ j (by omega)
  · intro i a ha
    rcases snocChild_get?_cases hna ha with ⟨hil, hic, hold⟩ | ⟨hic, hav⟩ | ⟨hie, hav⟩
    · -- untouched old node
      obtain ⟨b, hb, hmn2⟩ := hmap i a hold
      have hφi : φ i < B.length := hφlt i hil
      have hφic : φ i ≠ φ cur := by
        intro he
        have h1 := hψφ i hil
        rw [he, hψφ cur hcur] at h1
        exact hic h1.symm
      refine ⟨b, ?_, ?_⟩
      · rw [extFun_ne φ B.length (by omega)]
        rw [snocChild_get?_ne nb c hφi hφic]
        exact hb
      · refine mapsNode_ext ?_ ?_ hmn2
        · intro c2 j hj
          have := (hcb i a hold _ (childLookup_mem hj)).2
          exact extFun_ne φ B.length (by omega)
        · intro j hj
          have := hsfx i a j hold hj
          exact extFun_ne φ B.length (by omega)
    · -- the parent that gained the fresh edge
      subst hic
      rw [extFun_ne φ B.length (by omega)]
      refine ⟨{ nb with children := nb.children ++ [(c, B.length)] },
        by rw [snocChild_get?_cur nb c (hφlt _ hcur)], ?_⟩
      rw [hav]
      obtain ⟨hv, hch, hsl⟩ := hmn
      refine ⟨hv, fun c2 => ?_, ?_⟩
      · show childLookup (nb.children ++ [(c, B.length)]) c2
          = (childLookup (na.children ++ [(c, A.length)]) c2).map (extFun φ A.length B.length)
        rw [childLookup_append, childLookup_append, hch c2]
        cases hcl : childLookup na.children c2 with
        | some r =>
          have hr := (hcb _ na hna _ (childLookup_mem hcl)).2
          rw [Option.map_some', Option.map_some', extFun_ne φ B.length (by omega)]
        | none =>
          by_cases hcc : c == c2
          · rw [if_pos hcc, if_pos hcc, Option.map_some', extFun_self]
            rfl
          · rw [if_neg hcc, if_neg hcc]
            rfl
      · show nb.suffix_link = na.suffix_link.map (extFun φ A.length B.length)
        rw [hsl]
        cases hss : na.suffix_link with
        | none => rfl
        | some t =>
          have := hsfx _ na t hna hss
          rw [Option.map_some', Option.map_some', extFun_ne φ B.length (by omega)]
    · -- the fresh blank node
      subst hie
      rw [extFun_self, hav]
      exact ⟨⟨none, [], none⟩, snocChild_get?_new B (φ cur) nb c,
        rfl, fun _ => rfl, rfl⟩

theorem mfAcc_congr {a b : ACNode} (h : b.value = a.value) (acc : Finset (List Char)) :
    mfAcc b acc = mfAcc a acc := by
  unfold mfAcc
  rw [h]

/-- The suffix-link walk commutes with an arena isomorphism. -/
theorem mfAux_iso {φ ψ : Nat → Nat} {A B : List ACNode} (h : IsoPred φ ψ A B)
    (hsfx : SuffixLt A) :
    ∀ (fuel : Nat) (o : Option Nat) (c : Char) (acc : Finset (List Char)),
      (o = none ∨ ∃ s0, o = some s0 ∧ s0 < A.length) →
      mfAux B fuel (o.map φ) c acc
        = (mfAux A fuel o c acc).map (fun r => (φ r.1, r.2)) := by
  obtain ⟨hlen, hφ0, hψ0, hφlt, hψφ, hψlt, hφψ, hmap⟩ := h
  intro fuel
  induction fuel with
  | zero =>
    intro o c acc ho
    rcases ho with rfl | ⟨s0, rfl, hs0⟩
    · rw [Option.map_none', mfAux_none, mfAux_none, Option.map_some', hφ0]
    · rw [Option.map_some', mfAux_zero_some, mfAux_zero_some]
      rfl
  | succ f ih =>
    intro o c acc ho
    rcases ho with rfl | ⟨s0, rfl, hs0⟩
    · rw [Option.map_none', mfAux_none, mfAux_none, Option.map_some', hφ0]
    · rw [Option.map_some']
      obtain ⟨nd, hnd⟩ := get?_isSome_of_lt hs0
      obtain ⟨ndb, hndb, hv, hch, hsl⟩ := hmap s0 nd hnd
      cases hcl : childLookup nd.children c with
      | some j =>
        have hclb : childLookup ndb.children c = some (φ j) := by
          rw [hch c, hcl, Option.map_some']
        rw [mfAux_step_child hnd hcl, mfAux_step_child hndb hclb,
          Option.map_some', mfAcc_congr hv]
      | none =>
        have hclb : childLookup ndb.children c = none := by
          rw [hch c, hcl, Option.map_none']
        rw [mfAux_step_sfx hnd hcl, mfAux_step_sfx hndb hclb, hsl,
          mfAcc_congr hv]
        refine ih nd.suffix_link c (mfAcc nd acc) ?_
        cases hss : nd.suffix_link with
        | none => exact Or.inl rfl
        | some t =>
          have := hsfx s0 nd t hnd hss
          exact Or.inr ⟨t, rfl, by omega⟩

/-- One constructor step commutes with an arena isomorphism: the mirrored run
succeeds, lands in an isomorphic arena, and reports the translated child. -/
theorem processString_iso {φ ψ : Nat → Nat} {A B : List ACNode}
    (hiso : IsoPred φ ψ A B) (hInvA : Inv A)
    (i : Nat) (s : List Char) {cur : Nat} (hcur : cur < A.length)
    {A2 : List ACNode} {res : Option Nat}
    (hrunA : processString i A s cur = some (A2, res)) :
    ∃ B2 φ2 ψ2,
      processString i B s (φ cur) = some (B2, res.map φ2) ∧
      IsoPred φ2 ψ2 A2 B2 ∧
      (∀ k, k < A.length → φ2 k = φ k) ∧
      (∀ k, k < B.length → ψ2 k = ψ k) := by
  have hlen : A.length = B.length := hiso.1
  obtain ⟨hlen1, hsfx, hcb, hel, heu, hst, hsd, hrc⟩ := hInvA
  have hInvA' : Inv A := ⟨hlen1, hsfx, hcb, hel, heu, hst, hsd, hrc⟩
  by_cases hge : i ≥ s.length
  · unfold processString at hrunA
    rw [if_pos hge] at hrunA
    injection hrunA with hrunA
    injection hrunA with h1 h2
    refine ⟨B, φ, ψ, ?_, by rw [← h1]; exact hiso, fun k _ => rfl, fun k _ => rfl⟩
    unfold processString
    rw [if_pos hge, ← h2]
    rfl
  · obtain ⟨na, hna⟩ := get?_isSome_of_lt hcur
    obtain ⟨nbv, hnbv, hvv, hchv, hslv⟩ := hiso.2.2.2.2.2.2.2 cur na hna
    unfold processString at hrunA
    rw [if_neg hge, hna] at hrunA
    dsimp only at hrunA
    cases hcl : childLookup na.children (s.getD i default) with
    | some j =>
      rw [hcl] at hrunA
      dsimp only at hrunA
      injection hrunA with hrunA
      injection hrunA with h1 h2
      have hj : j < A.length := (hcb cur na hna _ (childLookup_mem hcl)).2
      have hclb : childLookup nbv.children (s.getD i default) = some (φ j) := by
        rw [hchv _, hcl, Option.map_some']
      have hrunB : processString i B s (φ cur) =
          some (if i = s.length - 1 then setValue B (φ j) (some s) else B, some (φ j)) := by
        unfold processString
        rw [if_neg hge, hnbv]
        dsimp only
        rw [hclb]
      refine ⟨if i = s.length - 1 then setValue B (φ j) (some s) else B, φ, ψ,
        by rw [hrunB, ← h2, Option.map_some'], ?_, fun k _ => rfl, fun k _ => rfl⟩
      rw [← h1]
      by_cases hlast : i = s.length - 1
      · rw [if_pos hlast, if_pos hlast]
        exact iso_setValue hiso hj (some s)
      · rw [if_neg hlast, if_neg hlast]
        exact hiso
    | none =>
      rw [hcl] at hrunA
      dsimp only at hrunA
      have hclb : childLookup nbv.children (s.getD i default) = none := by
        rw [hchv _, hcl, Option.map_none']
      obtain ⟨nb, hnb, hiso1⟩ :=
        iso_snocChild hiso hcb hsfx hna (s.getD i default)
      have hnbe : nb = nbv := by
        rw [hnbv] at hnb
        injection hnb with h
        exact h.symm
      subst hnbe
      set c := s.getD i default with hc
      set A1 := snocChild A cur na c with hA1
      set B1 := snocChild B (φ cur) nb c with hB1
      set φ' := extFun φ A.length B.length with hφ'
      set ψ' := extFun ψ B.length A.length with hψ'
      have hlenA1 : A1.length = A.length + 1 := by
        rw [hA1, snocChild_length]
      have hlenB1 : B1.length = B.length + 1 := by
        rw [hB1, snocChild_length]
      obtain ⟨hsfx1, hcb1, hel1, heu1, hsd1⟩ := snocChild_partialInv (c := c) hInvA' hna
      cases hmf : mfAux A1 (A1.length + 1) na.suffix_link c ∅ with
      | none =>
        rw [hmf] at hrunA
        exact absurd hrunA (by simp)
      | some r =>
        obtain ⟨sfx, vals⟩ := r
        rw [hmf] at hrunA
        dsimp only at hrunA
        injection hrunA with hrunA
        injection hrunA with h1 h2
        have hstart : na.suffix_link = none ∨
            ∃ s0, na.suffix_link = some s0 ∧ s0 < A1.length := by
          cases hss : na.suffix_link with
          | none => exact Or.inl rfl
          | some t =>
            have := hsfx cur na t hna hss
            exact Or.inr ⟨t, rfl, by omega⟩
        have hmfB : mfAux B1 (B1.length + 1) nb.suffix_link c ∅
            = some (φ' sfx, vals) := by
          have hfuel : B1.length + 1 = A1.length + 1 := by omega
          have hmapped : nb.suffix_link = na.suffix_link.map φ' := by
            rw [hslv]
            cases hss : na.suffix_link with
            | none => rfl
            | some t =>
              have := hsfx cur na t hna hss
              rw [Option.map_some', Option.map_some', hφ',
                extFun_ne φ B.length (by omega)]
          rw [hfuel, hmapped, mfAux_iso hiso1 hsfx1 (A1.length + 1) na.suffix_link c ∅
            hstart, hmf, Option.map_some']
        have hrunB : processString i B s (φ cur) =
            some ((if i = s.length - 1
                then setValue (setSuffix B1 B.length (some (φ' sfx))) B.length (some s)
                else setSuffix B1 B.length (some (φ' sfx))),
              some B.length) := by
          unfold processString
          rw [if_neg hge, hnbv]
          dsimp only
          rw [← hc, hclb, ← hB1, hmfB]
        have hALlt : A.length < A1.length := by omega
        have hφAL : φ' A.length = B.length := by
          rw [hφ', extFun_self]
        have hiso2 : IsoPred φ' ψ' (setSuffix A1 A.length (some sfx))
            (setSuffix B1 B.length (some (φ' sfx))) := by
          have h0 := iso_setSuffix hiso1 hALlt (some sfx)
          rw [hφAL, Option.map_some'] at h0
          exact h0
        have hφ'agree : ∀ k, k < A.length → φ' k = φ k := by
          intro k hk
          rw [hφ', extFun_ne φ B.length (by omega)]
        have hψ'agree : ∀ k, k < B.length → ψ' k = ψ k := by
          intro k hk
          rw [hψ', extFun_ne ψ A.length (by omega)]
        refine ⟨_, φ', ψ', by rw [hrunB, ← h2, Option.map_some', hφAL], ?_,
          hφ'agree, hψ'agree⟩
        rw [← h1]
        by_cases hlast : i = s.length - 1
        · rw [if_pos hlast, if_pos hlast]
          have h3 := iso_setValue hiso2 (k := A.length)
            (by rw [setSuffix_length]; omega) (some s)
          rw [hφAL] at h3
          exact h3
        · rw [if_neg hlast, if_neg hlast]
          exact hiso2

/-- A work list with every current-node index translated. -/
def wmap (φ : Nat → Nat) (w : List (List Char × Nat)) : List (List Char × Nat) :=
  w.map (fun it => (it.1, φ it.2))

theorem wmap_congr {f g : Nat → Nat} : ∀ {W : List (List Char × Nat)},
    (∀ it ∈ W, f it.2 = g it.2) → wmap f W = wmap g W
  | [], _ => rfl
  | it :: rest, h => by
    show (it.1, f it.2) :: wmap f rest = (it.1, g it.2) :: wmap g rest
    rw [h it (by simp), wmap_congr (fun x hx => h x (by simp [hx]))]

/-- A whole column commutes with an arena isomorphism (same work order). -/
theorem processColumn_iso (i : Nat) :
    ∀ (W : List (List Char × Nat)) (φ ψ : Nat → Nat) (A B : List ACNode),
      IsoPred φ ψ A B → Inv A →
      (∀ it ∈ W, it.2 < A.length) →
      ∃ A2 W2 B2 φ2 ψ2,
        processColumn i A W = some (A2, W2) ∧
        processColumn i B (wmap φ W) = some (B2, wmap φ2 W2) ∧
        IsoPred φ2 ψ2 A2 B2 ∧
        (∀ k, k < A.length → φ2 k = φ k) ∧
        (∀ k, k < B.length → ψ2 k = ψ k)
  | [], φ, ψ, A, B => by
    intro hiso hInv hb
    exact ⟨A, [], B, φ, ψ, rfl, rfl, hiso, fun _ _ => rfl, fun _ _ => rfl⟩
  | (s, cur) :: rest, φ, ψ, A, B => by
    intro hiso hInv hb
    have hcur : cur < A.length := hb (s, cur) (by simp)
    have hlenAB : A.length = B.length := hiso.1
    obtain ⟨A1, res, hrun, hInv1, hle1, hres, -⟩ := processString_inv hInv i s hcur
    obtain ⟨B1, φ1, ψ1, hrunB, hiso1, hφag, hψag⟩ :=
      processString_iso hiso hInv i s hcur hrun
    have hlenB1 : B.length ≤ B1.length := by
      have := hiso1.1
      omega
    obtain ⟨A3, rest1, B3, φ2, ψ2, hcrunA, hcrunB, hiso2, hφag2, hψag2⟩ :=
      processColumn_iso i rest φ1 ψ1 A1 B1 hiso1 hInv1
        (fun it hit => Nat.lt_of_lt_of_le (hb it (by simp [hit])) hle1)
    have hwmapEq : wmap φ rest = wmap φ1 rest :=
      wmap_congr (fun it hit => (hφag it.2 (hb it (by simp [hit]))).symm)
    rcases hres with ⟨hge, heq1, hresn⟩ | ⟨hlt, ch, hressome, hchlt⟩
    · subst hresn
      rw [Option.map_none'] at hrunB
      refine ⟨A3, rest1, B3, φ2, ψ2, ?_, ?_, hiso2,
        fun k hk => (hφag2 k (by omega)).trans (hφag k hk),
        fun k hk => (hψag2 k (by omega)).trans (hψag k hk)⟩
      · show (match processString i A s cur with
          | none => none
          | some (nodes1, res) =>
            match processColumn i nodes1 rest with
            | none => none
            | some (nodes2, rest2) =>
              some (nodes2, match res with
                | none => rest2
                | some child => (s, child) :: rest2)) = _
        rw [hrun]
        dsimp only
        rw [hcrunA]
      · rw [show wmap φ ((s, cur) :: rest) = (s, φ cur) :: wmap φ rest from rfl]
        show (match processString i B s (φ cur) with
          | none => none
          | some (nodes1, res) =>
            match processColumn i nodes1 (wmap φ rest) with
            | none => none
            | some (nodes2, rest2) =>
              some (nodes2, match res with
                | none => rest2
                | some child => (s, child) :: rest2)) = _
        rw [hrunB]
        dsimp only
        rw [hwmapEq, hcrunB]
    · subst hressome
      rw [Option.map_some'] at hrunB
      have hφch : φ2 ch = φ1 ch := hφag2 ch hchlt
      refine ⟨A3, (s, ch) :: rest1, B3, φ2, ψ2, ?_, ?_, hiso2,
        fun k hk => (hφag2 k (by omega)).trans (hφag k hk),
        fun k hk => (hψag2 k (by omega)).trans (hψag k hk)⟩
      · show (match processString i A s cur with
          | none => none
          | some (nodes1, res) =>
            match processColumn i nodes1 rest with
            | none => none
            | some (nodes2, rest2) =>
              some (nodes2, match res with
                | none => rest2
                | some child => (s, child) :: rest2)) = _
        rw [hrun]
        dsimp only
        rw [hcrunA]
      · rw [show wmap φ ((s, cur) :: rest) = (s, φ cur) :: wmap φ rest from rfl]
        show (match processString i B s (φ cur) with
          | none => none
          | some (nodes1, res) =>
            match processColumn i nodes1 (wmap φ rest) with
            | none => none
            | some (nodes2, rest2) =>
              some (nodes2, match res with
                | none => rest2
                | some child => (s, child) :: rest2)) = _
        rw [hrunB]
        dsimp only
        rw [hwmapEq, hcrunB]
        show _ = some (B3, (s, φ2 ch) :: wmap φ2 rest1)
        rw [hφch]

/-- Structural bookkeeping across one column: child-key uniqueness, old
depths and edges survive, surviving strings form a sublist, and every
surviving entry moved along the edge labelled by its column character. -/
theorem processColumn_pres (i : Nat) :
    ∀ (W : List (List Char × Nat)) (A : List ACNode), Inv A →
      (∀ it ∈ W, it.2 < A.length) →
      ∃ A2 W2, processColumn i A W = some (A2, W2) ∧
        (ChildKeysUniq A → ChildKeysUniq A2) ∧
        (∀ k, k < A.length → depthIdx A2 k = depthIdx A k) ∧
        (∀ a c b, isEdge A a c b → isEdge A2 a c b) ∧
        (W2.map (·.1)).Sublist (W.map (·.1)) ∧
        (∀ it ∈ W2, ∃ cur0, (it.1, cur0) ∈ W ∧
          isEdge A2 cur0 (it.1.getD i default) it.2 ∧
          depthIdx A2 it.2 = depthIdx A cur0 + 1)
  | [], A => by
    intro hInv hb
    exact ⟨A, [], rfl, fun h => h, fun k _ => rfl, fun a c b h => h,
      List.Sublist.refl _, fun it h => absurd h (by simp)⟩
  | (s, cur) :: rest, A => by
    intro hInv hb
    have hcur : cur < A.length := hb (s, cur) (by simp)
    obtain ⟨A1, res, hrun, hInv1, hle1, hres, -, hcku1, hdep1, hedg1, hresf⟩ :=
      processString_run hInv i s hcur
    obtain ⟨A3, rest1, hcrun, hcku2, hdep2, hedg2, hsub2, hfact2⟩ :=
      processColumn_pres i rest A1 hInv1
        (fun it hit => Nat.lt_of_lt_of_le (hb it (by simp [hit])) hle1)
    have hdepComp : ∀ k, k < A.length → depthIdx A3 k = depthIdx A k :=
      fun k hk => (hdep2 k (by omega)).trans (hdep1 k hk)
    have hrestFacts : ∀ it ∈ rest1, ∃ cur0, (it.1, cur0) ∈ (s, cur) :: rest ∧
        isEdge A3 cur0 (it.1.getD i default) it.2 ∧
        depthIdx A3 it.2 = depthIdx A cur0 + 1 := by
      intro it hit
      obtain ⟨cur0, hmem, hedge, hdepth⟩ := hfact2 it hit
      have hcur0 : cur0 < A.length := hb (it.1, cur0) (by simp [hmem])
      refine ⟨cur0, by simp [hmem], hedge, ?_⟩
      rw [hdepth, hdep1 cur0 hcur0]
    rcases hres with ⟨hge, heq1, hresn⟩ | ⟨hlt, ch, hressome, hchlt⟩
    · subst hresn
      have hstep : processColumn i A ((s, cur) :: rest) = some (A3, rest1) := by
        show (match processString i A s cur with
          | none => none
          | some (nodes1, res) =>
            match processColumn i nodes1 rest with
            | none => none
            | some (nodes2, rest2) =>
              some (nodes2, match res with
                | none => rest2
                | some child => (s, child) :: rest2)) = _
        rw [hrun]
        dsimp only
        rw [hcrun]
      exact ⟨A3, rest1, hstep, fun h => hcku2 (hcku1 h), hdepComp,
        fun a c b h => hedg2 a c b (hedg1 a c b h),
        (by simpa using hsub2.trans (List.sublist_cons_self s (rest.map (·.1)))),
        hrestFacts⟩
    · subst hressome
      have hstep : processColumn i A ((s, cur) :: rest)
          = some (A3, (s, ch) :: rest1) := by
        show (match processString i A s cur with
          | none => none
          | some (nodes1, res) =>
            match processColumn i nodes1 rest with
            | none => none
            | some (nodes2, rest2) =>
              some (nodes2, match res with
                | none => rest2
                | some child => (s, child) :: rest2)) = _
        rw [hrun]
        dsimp only
        rw [hcrun]
      refine ⟨A3, (s, ch) :: rest1, hstep, fun h => hcku2 (hcku1 h), hdepComp,
        fun a c b h => hedg2 a c b (hedg1 a c b h),
        (by simpa using List.Sublist.cons₂ s hsub2), ?_⟩
      intro it hit
      rcases List.mem_cons.mp hit with rfl | hmem
      · obtain ⟨hedge, hdepth⟩ := hresf ch rfl
        refine ⟨cur, by simp, hedg2 _ _ _ hedge, ?_⟩
        rw [hdep2 ch hchlt, hdepth]
      · exact hrestFacts it hmem

/-! ### Equation forms of the three constructor-step branches -/

theorem ps_pop {N : List ACNode} {i : Nat} {s : List Char} (hge : i ≥ s.length)
    (cur : Nat) : processString i N s cur = some (N, none) := by
  unfold processString
  rw [if_pos hge]

theorem ps_existing {N : List ACNode} {cur : Nat} {nd : ACNode} {i : Nat}
    {s : List Char} (hge : ¬ i ≥ s.length) (hnd : N.get? cur = some nd) {j : Nat}
    (hcl : childLookup nd.children (s.getD i default) = some j) :
    processString i N s cur
      = some (if i = s.length - 1 then setValue N j (some s) else N, some j) := by
  unfold processString
  rw [if_neg hge, hnd]
  dsimp only
  rw [hcl]

theorem ps_create {N : List ACNode} {cur : Nat} {nd : ACNode} {i : Nat}
    {s : List Char} (hge : ¬ i ≥ s.length) (hnd : N.get? cur = some nd)
    (hcl : childLookup nd.children (s.getD i default) = none)
    {sfx : Nat} {vals : Finset (List Char)}
    (hmf : mfAux (snocChild N cur nd (s.getD i default))
        ((snocChild N cur nd (s.getD i default)).length + 1) nd.suffix_link
        (s.getD i default) ∅ = some (sfx, vals)) :
    processString i N s cur = some
      ((if i = s.length - 1
        then setValue (setSuffix (snocChild N cur nd (s.getD i default))
          N.length (some sfx)) N.length (some s)
        else setSuffix (snocChild N cur nd (s.getD i default)) N.length (some sfx)),
      some N.length) := by
  unfold processString
  rw [if_neg hge, hnd]
  dsimp only
  rw [hcl, hmf]

/-- A fresh child's suffix-link walk always lands on a pre-existing index. -/
theorem create_walk {A : List ACNode} (hInv : Inv A) {cur : Nat} {nd : ACNode}
    (hnd : A.get? cur = some nd) (c : Char) :
    ∃ sfx vals, mfAux (snocChild A cur nd c) ((snocChild A cur nd c).length + 1)
        nd.suffix_link c ∅ = some (sfx, vals) ∧ sfx < A.length := by
  obtain ⟨hlen1, hsfx, hcb, hel, heu, hst, hsd, hrc⟩ := hInv
  have hInv' : Inv A := ⟨hlen1, hsfx, hcb, hel, heu, hst, hsd, hrc⟩
  have hcur : cur < A.length := lt_of_get?_eq_some hnd
  obtain ⟨hsfx1, hcb1, hel1, heu1, hsd1⟩ := snocChild_partialInv (c := c) hInv' hnd
  have hlenS : (snocChild A cur nd c).length = A.length + 1 := snocChild_length A cur nd c
  cases hss : nd.suffix_link with
  | none => exact ⟨0, ∅, mfAux_none _ _ _ _, by omega⟩
  | some s0 =>
    have hs0 : s0 < cur := hsfx cur nd s0 hnd hss
    obtain ⟨j, vals, hrun, hspec⟩ := mfAux_run hsfx1 s0 (by omega)
      ((snocChild A cur nd c).length + 1) (by omega) c ∅
    refine ⟨j, vals, hrun, ?_⟩
    rcases hspec with h0 | ⟨q, hreach, hedge⟩
    · omega
    · have hq : q ≤ s0 := suffixReach_le hsfx1 hreach
      obtain ⟨ndq, hndq, hmq⟩ := hedge
      rw [snocChild_get?_ne nd c (by omega) (by omega)] at hndq
      exact (hcb q ndq hndq _ hmq).2

/-- Walks started strictly below depth `i` never see nodes of depth `≥ i`, so
arenas agreeing below depth `i` walk identically. -/
theorem mfAux_fst_confined {A N N2 : List ACNode} {i : Nat}
    (hsfx : SuffixLt A) (hsd : SuffixDepth A)
    (hN : ∀ k, k < A.length → depthIdx A k < i → N.get? k = A.get? k)
    (hN2 : ∀ k, k < A.length → depthIdx A k < i → N2.get? k = A.get? k)
    (fuel : Nat) (o : Option Nat) (c : Char) (acc acc' : Finset (List Char))
    (ho : o = none ∨ ∃ s0, o = some s0 ∧ s0 < A.length ∧ depthIdx A s0 < i) :
    Option.map Prod.fst (mfAux N fuel o c acc)
      = Option.map Prod.fst (mfAux N2 fuel o c acc') := by
  refine mfAux_congr_pred (P := fun k => k < A.length ∧ depthIdx A k < i)
    ?_ fuel o c acc acc' ?_
  · rintro k ⟨hk, hd⟩
    obtain ⟨nd, hnd⟩ := get?_isSome_of_lt hk
    refine ⟨nd, nd, by rw [hN k hk hd]; exact hnd, by rw [hN2 k hk hd]; exact hnd,
      rfl, rfl, ?_⟩
    intro j hj
    have hjk : j < k := hsfx k nd j hnd hj
    have hdj : depthIdx A j < depthIdx A k := hsd k nd j hnd hj
    exact ⟨by omega, by omega⟩
  · rcases ho with rfl | ⟨s0, rfl, h1, h2⟩
    · exact Or.inl rfl
    · exact Or.inr ⟨s0, rfl, h1, h2⟩

/-! ### Concrete scenario claims -/

/-- C1: the claim that `find_substrings_in_superstring` always agrees with the
brute-force substring scan fails on the code.  At `P = ["ab","b","abc"]`,
`S = "abc"` the automaton answers `{"ab","abc"}`, while `"b"` is a member of
`P` and a substring of `S`, so the brute-force answer `{"ab","b","abc"}`
differs: the lazy value-harvesting along suffix links misses `"b"`. -/
theorem claim_C1_misses_pattern :
    acMatches [['a','b'], ['b'], ['a','b','c']] ['a','b','c']
      = some {['a','b'], ['a','b','c']} ∧
    bruteMatches [['a','b'], ['b'], ['a','b','c']] ['a','b','c']
      = {['a','b'], ['b'], ['a','b','c']} ∧
    Substr ['b'] ['a','b','c'] ∧
    acMatches [['a','b'], ['b'], ['a','b','c']] ['a','b','c']
      ≠ some (bruteMatches [['a','b'], ['b'], ['a','b','c']] ['a','b','c']) := by
  have h1 : acMatches [['a','b'], ['b'], ['a','b','c']] ['a','b','c']
      = some {['a','b'], ['a','b','c']} := someEq_of_mapDecide (by decide)
  have h2 : bruteMatches [['a','b'], ['b'], ['a','b','c']] ['a','b','c']
      = {['a','b'], ['b'], ['a','b','c']} := by decide
  refine ⟨h1, h2, ⟨['a'], ['c'], rfl⟩, ?_⟩
  rw [h1, h2]
  intro hc
  have h3 : ({['a','b'], ['a','b','c']} : Finset (List Char))
      = {['a','b'], ['b'], ['a','b','c']} := by injection hc
  exact absurd h3 (by decide)

/-- C2: the claim that for `P = {"he","she","his","hers"}`, `S = "ahishers"`
the result is `{"he","his","hers"}` with `"she"` absent is false: the code
returns a set that contains `"she"` (which indeed occurs at positions 3..5),
so in particular the result is not `{"he","his","hers"}`. -/
theorem claim_C2_counterexample :
    acMatches [['h','e'], ['s','h','e'], ['h','i','s'], ['h','e','r','s']]
        ['a','h','i','s','h','e','r','s']
      ≠ some {['h','e'], ['h','i','s'], ['h','e','r','s']} ∧
    (acMatches [['h','e'], ['s','h','e'], ['h','i','s'], ['h','e','r','s']]
        ['a','h','i','s','h','e','r','s']).map
        (fun r => decide (['s','h','e'] ∈ r)) = some true := by
  have h1 : acMatches [['h','e'], ['s','h','e'], ['h','i','s'], ['h','e','r','s']]
      ['a','h','i','s','h','e','r','s']
      = some {['h','e'], ['s','h','e'], ['h','i','s'], ['h','e','r','s']} :=
    someEq_of_mapDecide (by decide)
  constructor
  · rw [h1]
    intro hc
    have h3 : ({['h','e'], ['s','h','e'], ['h','i','s'], ['h','e','r','s']} : Finset (List Char))
        = {['h','e'], ['h','i','s'], ['h','e','r','s']} := by injection hc
    exact absurd h3 (by decide)
  · rw [h1]
    decide

/-- C2 (amended): for `P = {"he","she","his","hers"}` and `S = "ahishers"`,
`find_substrings_in_superstring` returns exactly
`{"he","she","his","hers"}`; in particular `"she"` does appear. -/
theorem claim_C2_amended_scenarioA :
    acMatches [['h','e'], ['s','h','e'], ['h','i','s'], ['h','e','r','s']]
        ['a','h','i','s','h','e','r','s']
      = some {['h','e'], ['s','h','e'], ['h','i','s'], ['h','e','r','s']} :=
  someEq_of_mapDecide (by decide)

/-- C8: for `P = {"a","ab","bc","bca","c","caa"}` and `S = "abccab"`, the
result is exactly `{"a","ab","bc","c"}`. -/
theorem claim_C8_scenarioB :
    acMatches [['a'], ['a','b'], ['b','c'], ['b','c','a'], ['c'], ['c','a','a']]
        ['a','b','c','c','a','b']
      = some {['a'], ['a','b'], ['b','c'], ['c']} :=
  someEq_of_mapDecide (by decide)

/-- C9: the claim that the legacy and packaged matchers always agree fails on
the code.  At `P = ["ab","b","abc"]`, `S = "abc"` the legacy node-set matcher
answers `{"ab","b","abc"}` (the documented behaviour), while the packaged
single-state matcher answers `{"ab","abc"}`, dropping `"b"`. -/
theorem claim_C9_divergence :
    Legacy.acMatches [['a','b'], ['b'], ['a','b','c']] ['a','b','c']
      = some {['a','b'], ['b'], ['a','b','c']} ∧
    acMatches [['a','b'], ['b'], ['a','b','c']] ['a','b','c']
      = some {['a','b'], ['a','b','c']} ∧
    Legacy.acMatches [['a','b'], ['b'], ['a','b','c']] ['a','b','c']
      ≠ acMatches [['a','b'], ['b'], ['a','b','c']] ['a','b','c'] := by
  have h1 : Legacy.acMatches [['a','b'], ['b'], ['a','b','c']] ['a','b','c']
      = some {['a','b'], ['b'], ['a','b','c']} := someEq_of_mapDecide (by decide)
  have h2 : acMatches [['a','b'], ['b'], ['a','b','c']] ['a','b','c']
      = some {['a','b'], ['a','b','c']} := someEq_of_mapDecide (by decide)
  refine ⟨h1, h2, ?_⟩
  rw [h1, h2]
  intro hc
  have h3 : ({['a','b'], ['b'], ['a','b','c']} : Finset (List Char))
      = {['a','b'], ['a','b','c']} := by injection hc
  exact absurd h3 (by decide)

/-! ### Claims C3, C4, C5, C7 -/

/-- C3: under the precondition that the constructor argument is either a bare
string or a collection of strings, the constructor raises `InvalidInput`
(`ValueError`) exactly on the bare string, with the documented message; every
collection builds successfully, keeping the collection as the pattern set —
in particular `Build(["abc"])` treats `"abc"` as the single pattern, which
then matches in `"abc"`. -/
theorem claim_C3_input_validation :
    (∀ s, AhoCorasickInit (StringsArg.single s) = Except.error (invalidInputMessage s)) ∧
    (∀ l, ∃ a, AhoCorasickInit (StringsArg.collection l) = Except.ok (some a) ∧
      a.strings = l) ∧
    acMatches [['a','b','c']] ['a','b','c'] = some {['a','b','c']} := by
  refine ⟨fun s => rfl, fun l => ?_, someEq_of_mapDecide (by decide)⟩
  obtain ⟨a, hbuild, hstr, _, _⟩ := buildAC_total l
  exact ⟨a, by show Except.ok (buildAC l) = _; rw [hbuild], hstr⟩

/-- C4: matching is total — on every automaton the constructor actually
builds, `find_substrings_in_superstring` returns a result set (never
`none`/no exception) for every text, the empty text included. -/
theorem claim_C4_find_total :
    ∀ P a, buildAC P = some a → ∀ s,
      (find_substrings_in_superstring a s).isSome = true := by
  intro P a hbuild s
  obtain ⟨a2, hbuild2, _, hInv2, _⟩ := buildAC_total P
  rw [hbuild2] at hbuild
  injection hbuild with hbuild
  subst hbuild
  obtain ⟨hlen, hsfx, hcb, _, _, _, _, _⟩ := hInv2
  obtain ⟨root, hroot⟩ := get?_isSome_of_lt (show 0 < a2.nodes.length by omega)
  obtain ⟨r, hr, _⟩ :=
    findLoop_total hsfx hcb hlen (s ++ [sentinelChar]) 0
      (if root.value.isSome then {[]} else ∅) (by omega)
  show (find_substrings_in_superstring a2 s).isSome = true
  unfold find_substrings_in_superstring
  rw [hroot]
  dsimp only
  rw [hr]
  rfl

/-- C4 witness: the automaton built from `{"xyz"}` answers on `"abc"`. -/
theorem claim_C4_find_total_witness :
    (find_substrings_in_superstring sampleXYZ ['a','b','c']).isSome = true :=
  claim_C4_find_total [['x','y','z']] sampleXYZ rfl ['a','b','c']

/-- C5: when the empty pattern is present, the built root is terminal (its
value is `""`), and `""` is in the result of every query, the empty text
included. -/
theorem claim_C5_empty_pattern :
    ∀ P a, [] ∈ P → buildAC P = some a →
      ((a.nodes.get? 0).map (·.value) = some (some [])) ∧
      ∀ s, (find_substrings_in_superstring a s).isSome = true ∧
        [] ∈ (find_substrings_in_superstring a s).getD ∅ := by
  intro P a hmem hbuild
  obtain ⟨a2, hbuild2, _, hInv2, hroot2⟩ := buildAC_total P
  rw [hbuild2] at hbuild
  injection hbuild with hbuild
  subst hbuild
  rw [if_pos hmem] at hroot2
  refine ⟨hroot2, ?_⟩
  intro s
  obtain ⟨hlen, hsfx, hcb, _, _, _, _, _⟩ := hInv2
  obtain ⟨root, hroot⟩ := get?_isSome_of_lt (show 0 < a2.nodes.length by omega)
  have hrootv : root.value = some [] := by
    rw [hroot] at hroot2
    simp only [Option.map_some'] at hroot2
    injection hroot2
  obtain ⟨r, hr, hsub⟩ :=
    findLoop_total hsfx hcb hlen (s ++ [sentinelChar]) 0
      (if root.value.isSome then {[]} else ∅) (by omega)
  have hfind : find_substrings_in_superstring a2 s = some r := by
    unfold find_substrings_in_superstring
    rw [hroot]
    dsimp only
    rw [hr]
  rw [hfind]
  refine ⟨rfl, ?_⟩
  show [] ∈ r
  apply hsub
  rw [hrootv]
  show [] ∈ ({[]} : Finset (List Char))
  exact Finset.mem_singleton_self []

/-- C5 witness: built from `{""}`, the root is terminal and `""` is matched
inside the empty text. -/
theorem claim_C5_empty_pattern_witness :
    ((sampleEmptyPat.nodes.get? 0).map (·.value) = some (some [])) ∧
    (find_substrings_in_superstring sampleEmptyPat []).isSome = true ∧
    [] ∈ (find_substrings_in_superstring sampleEmptyPat []).getD ∅ := by
  have h := claim_C5_empty_pattern [[]] sampleEmptyPat (by decide) rfl
  exact ⟨h.1, (h.2 []).1, (h.2 []).2⟩

/-- C7: every built automaton satisfies the failure-depth invariant: edges
increase depth by one from the depth-0 root, every non-root node carries a
failure link of strictly smaller depth, root children link to the root, and
the root's failure link is the absorbing sentinel. -/
theorem claim_C7_failure_depth :
    ∀ P a, buildAC P = some a → DepthInvariant a := by
  intro P a hbuild
  obtain ⟨a2, hbuild2, _, hInv2, _⟩ := buildAC_total P
  rw [hbuild2] at hbuild
  injection hbuild with hbuild
  subst hbuild
  obtain ⟨hlen, hsfx, hcb, hel, heu, hst, hsd, hrc⟩ := hInv2
  refine ⟨depthIdx_zero hcb, ?_, ?_, hrc, ?_, ?_⟩
  · intro i c j hedge
    exact depthIdx_of_edge heu hel hcb hedge
  · intro j nd hnd hj
    have hsome := hst j nd hnd hj
    cases hsl : nd.suffix_link with
    | none => rw [hsl] at hsome; exact Bool.noConfusion hsome
    | some k => exact ⟨k, rfl, hsd j nd k hnd hsl⟩
  · obtain ⟨root, hroot⟩ := get?_isSome_of_lt (show 0 < a2.nodes.length by omega)
    exact ⟨root, hroot, root_suffix_none hsfx hroot⟩
  · intro fuel c acc
    exact mfAux_none a2.nodes fuel c acc

/-- C7 witness: the invariant holds on the automaton built from `{"xyz"}`. -/
theorem claim_C7_failure_depth_witness : DepthInvariant sampleXYZ :=
  claim_C7_failure_depth [['x','y','z']] sampleXYZ rfl

/-! ### KMP: suffix and border toolbox -/

theorem take_succ_getD {w : List Char} {k : Nat} (h : k < w.length) :
    w.take (k + 1) = w.take k ++ [w.getD k default] := by
  rw [List.take_succ, List.getElem?_eq_getElem h, List.getD_eq_getElem w default h]
  rfl

theorem getD_of_get? {w : List Char} {k : Nat} {ch : Char} (h : w.get? k = some ch) :
    w.getD k default = ch := by
  rw [List.getD_eq_getElem?_getD, ← List.get?_eq_getElem?, h]
  rfl

theorem suffix_snoc_of {a b : List Char} (x : Char) (h : a <:+ b) :
    a ++ [x] <:+ b ++ [x] := by
  obtain ⟨t, ht⟩ := h
  exact ⟨t, by rw [← List.append_assoc, ht]⟩

theorem snoc_suffix_snoc {a b : List Char} {x y : Char} (h : a ++ [x] <:+ b ++ [y]) :
    x = y ∧ a <:+ b := by
  obtain ⟨t, ht⟩ := h
  rw [← List.append_assoc] at ht
  have hlen : (t ++ a).length = b.length := by
    have := congrArg List.length ht
    simp only [List.length_append, List.length_singleton] at this ⊢
    omega
  obtain ⟨h1, h2⟩ := List.append_inj ht hlen
  refine ⟨?_, t, h1⟩
  injection h2

theorem suffix_of_suffix_le {a b t : List Char} (ha : a <:+ t) (hb : b <:+ t)
    (hab : a.length ≤ b.length) : a <:+ b := by
  obtain ⟨u, hu⟩ := ha
  obtain ⟨v, hv⟩ := hb
  have hvu : v.length ≤ u.length := by
    have h1 := congrArg List.length hu
    have h2 := congrArg List.length hv
    simp only [List.length_append] at h1 h2
    omega
  have h4 : u.length = v.length + (u.length - v.length) := by omega
  have ha2 : a = b.drop (u.length - v.length) := by
    have h3 : a = (v ++ b).drop u.length := by
      rw [hv, ← hu, List.drop_left]
    rw [h4, List.drop_append] at h3
    exact h3
  rw [ha2]
  exact List.drop_suffix _ _

theorem take_suffix_nil {w : List Char} {k : Nat} (hw : w ≠ []) (hk : 1 ≤ k)
    (h : w.take k <:+ []) : False := by
  have h2 : w.take k = [] := List.suffix_nil.mp h
  rcases List.take_eq_nil_iff.mp h2 with h3 | h3
  · omega
  · exact hw h3

/-- `lspLen` of the empty text is `0` for a nonempty pattern. -/
theorem lspLen_nil {w : List Char} (hw : w ≠ []) : lspLen w [] = 0 := by
  unfold lspLen
  rw [Nat.findGreatest_eq_zero_iff]
  intro m hm _ hsuf
  exact take_suffix_nil hw hm hsuf

theorem lspLen_le (w t : List Char) : lspLen w t ≤ w.length :=
  Nat.findGreatest_le _

theorem lspLen_spec (w t : List Char) : w.take (lspLen w t) <:+ t := by
  have h0 : w.take 0 <:+ t := by simp
  unfold lspLen
  exact Nat.findGreatest_spec (P := fun k => w.take k <:+ t) (Nat.zero_le _) h0

theorem lspLen_lt {w t : List Char} (hw : w ≠ []) (hns : ¬ (w <:+ t)) :
    lspLen w t < w.length := by
  rcases Nat.lt_or_ge (lspLen w t) w.length with h | h
  · exact h
  · exfalso
    have he : lspLen w t = w.length := le_antisymm (lspLen_le w t) h
    have := lspLen_spec w t
    rw [he, List.take_length] at this
    exact hns this

theorem lspLen_full {w t : List Char} (h : w <:+ t) : lspLen w t = w.length := by
  refine le_antisymm (lspLen_le w t) ?_
  exact Nat.le_findGreatest (Nat.le_refl _) (by rw [List.take_length]; exact h)

theorem pborder_le (w : List Char) (i : Nat) : pborder w i ≤ i - 1 :=
  Nat.findGreatest_le _

theorem pborder_spec (w : List Char) (i : Nat) : w.take (pborder w i) <:+ w.take i := by
  have h0 : w.take 0 <:+ w.take i := by simp
  unfold pborder
  exact Nat.findGreatest_spec (P := fun k => w.take k <:+ w.take i) (Nat.zero_le _) h0

theorem le_pborder {w : List Char} {i k : Nat} (hk : k ≤ i - 1)
    (h : w.take k <:+ w.take i) : k ≤ pborder w i :=
  Nat.le_findGreatest hk h

theorem extLen_le (w : List Char) (p : Nat) (c : Char) : extLen w p c ≤ p + 1 :=
  Nat.findGreatest_le _

theorem extLen_spec (w : List Char) (p : Nat) (c : Char) :
    w.take (extLen w p c) <:+ w.take p ++ [c] := by
  have h0 : w.take 0 <:+ w.take p ++ [c] := by simp
  unfold extLen
  exact Nat.findGreatest_spec (P := fun k => w.take k <:+ w.take p ++ [c]) (Nat.zero_le _) h0

theorem le_extLen {w : List Char} {p k : Nat} {c : Char} (hk : k ≤ p + 1)
    (h : w.take k <:+ w.take p ++ [c]) : k ≤ extLen w p c :=
  Nat.le_findGreatest hk h

/-- On a match, the state advances to `p + 1`. -/
theorem extLen_match {w : List Char} {p : Nat} (hp : p < w.length) {c : Char}
    (hc : w.getD p default = c) : extLen w p c = p + 1 := by
  refine le_antisymm (extLen_le w p c) ?_
  refine le_extLen (Nat.le_refl _) ?_
  rw [take_succ_getD hp, hc]

/-- On a mismatch, falling back to the longest proper border preserves the
reached state (the heart of KMP: every shorter suffix-prefix extension factors
through the longest proper border). -/
theorem extLen_fallback {w : List Char} {p : Nat} (hp1 : 1 ≤ p) (hp : p < w.length)
    {c : Char} (hc : w.getD p default ≠ c) :
    extLen w p c = extLen w (pborder w p) c := by
  refine le_antisymm ?_ ?_
  · -- every candidate factors through the border
    set k := extLen w p c with hk
    rcases Nat.eq_zero_or_pos k with hk0 | hk1
    · omega
    have hspec : w.take k <:+ w.take p ++ [c] := extLen_spec w p c
    have hkp : k ≤ p + 1 := extLen_le w p c
    have hkm : k - 1 < w.length := by omega
    have hdec : w.take k = w.take (k - 1) ++ [w.getD (k - 1) default] := by
      rw [← take_succ_getD hkm]
      congr 1
      omega
    rw [hdec] at hspec
    obtain ⟨hcEq, hsfx⟩ := snoc_suffix_snoc hspec
    have hkp2 : k - 1 ≠ p := by
      intro he
      rw [he] at hcEq
      exact hc hcEq
    have hkp3 : k - 1 ≤ p - 1 := by omega
    have hble : k - 1 ≤ pborder w p := le_pborder hkp3 hsfx
    have hsfx2 : w.take (k - 1) <:+ w.take (pborder w p) := by
      refine suffix_of_suffix_le hsfx (pborder_spec w p) ?_
      rw [List.length_take, List.length_take]
      have hpb : pborder w p ≤ p - 1 := pborder_le w p
      omega
    refine le_extLen (by omega) ?_
    rw [hdec, hcEq]
    exact suffix_snoc_of c hsfx2
  · -- border candidates are candidates
    set k := extLen w (pborder w p) c with hk
    have hspec : w.take k <:+ w.take (pborder w p) ++ [c] := extLen_spec w (pborder w p) c
    have hkb : k ≤ pborder w p + 1 := extLen_le w (pborder w p) c
    have hpb : pborder w p ≤ p - 1 := pborder_le w p
    refine le_extLen (by omega) ?_
    exact hspec.trans (suffix_snoc_of c (pborder_spec w p))

/-- The recurrence the table loop implements: the longest proper border of
`w.take i` extends the longest proper border of `w.take (i-1)` through
`_move_forward_from_prefix`. -/
theorem pborder_step {w : List Char} {i : Nat} (hi2 : 2 ≤ i) (hi : i ≤ w.length) :
    pborder w i = extLen w (pborder w (i - 1)) (w.getD (i - 1) default) := by
  have him : i - 1 < w.length := by omega
  have htake : w.take i = w.take (i - 1) ++ [w.getD (i - 1) default] := by
    rw [← take_succ_getD him]
    congr 1
    omega
  set pb := pborder w (i - 1) with hpb
  have hpble : pb ≤ i - 2 := by
    have := pborder_le w (i - 1)
    omega
  refine le_antisymm ?_ ?_
  · set k := pborder w i with hk
    rcases Nat.eq_zero_or_pos k with hk0 | hk1
    · omega
    have hspec : w.take k <:+ w.take i := pborder_spec w i
    have hki : k ≤ i - 1 := pborder_le w i
    have hkm : k - 1 < w.length := by omega
    have hdec : w.take k = w.take (k - 1) ++ [w.getD (k - 1) default] := by
      rw [← take_succ_getD hkm]
      congr 1
      omega
    rw [hdec, htake] at hspec
    obtain ⟨hcEq, hsfx⟩ := snoc_suffix_snoc hspec
    have hble : k - 1 ≤ pb := le_pborder (by omega) hsfx
    have hsfx2 : w.take (k - 1) <:+ w.take pb := by
      refine suffix_of_suffix_le hsfx (pborder_spec w (i - 1)) ?_
      rw [List.length_take, List.length_take]
      omega
    refine le_extLen (by omega) ?_
    rw [hdec, hcEq]
    exact suffix_snoc_of _ hsfx2
  · set k := extLen w pb (w.getD (i - 1) default) with hk
    have hspec := extLen_spec w pb (w.getD (i - 1) default)
    have hkb : k ≤ pb + 1 := extLen_le w pb (w.getD (i - 1) default)
    refine le_pborder (by omega) ?_
    rw [htake]
    exact hspec.trans (suffix_snoc_of _ (pborder_spec w (i - 1)))

/-- The on-line step: from the longest suffix-prefix state `p` of text `t`,
`extLen` is the longest suffix-prefix state of `t ++ [c]`. -/
theorem lspLen_step {w t : List Char} {p : Nat} (hp : p = lspLen w t)
    (hplen : p < w.length) (c : Char) : lspLen w (t ++ [c]) = extLen w p c := by
  have hpt : w.take p <:+ t := hp ▸ lspLen_spec w t
  refine le_antisymm ?_ ?_
  · set k := lspLen w (t ++ [c]) with hk
    rcases Nat.eq_zero_or_pos k with hk0 | hk1
    · omega
    have hspec : w.take k <:+ t ++ [c] := lspLen_spec w (t ++ [c])
    have hkw : k ≤ w.length := lspLen_le w (t ++ [c])
    have hkm : k - 1 < w.length := by omega
    have hdec : w.take k = w.take (k - 1) ++ [w.getD (k - 1) default] := by
      rw [← take_succ_getD hkm]
      congr 1
      omega
    rw [hdec] at hspec
    obtain ⟨hcEq, hsfx⟩ := snoc_suffix_snoc hspec
    have hble : k - 1 ≤ p := by
      rw [hp]
      exact Nat.le_findGreatest (by omega) hsfx
    have hsfx2 : w.take (k - 1) <:+ w.take p := by
      refine suffix_of_suffix_le hsfx hpt ?_
      rw [List.length_take, List.length_take]
      omega
    refine le_extLen (by omega) ?_
    rw [hdec, hcEq]
    exact suffix_snoc_of c hsfx2
  · set k := extLen w p c with hk
    have hspec := extLen_spec w p c
    have hkb : k ≤ p + 1 := extLen_le w p c
    refine Nat.le_findGreatest (by omega) ?_
    exact hspec.trans (suffix_snoc_of c hpt)

/-! ### KMP: the fallback walk computes `extLen` -/

theorem mfpAux_sentinel (w : List Char) (tbl : List Int) {fuel : Nat} (h : 1 ≤ fuel)
    (c : Char) : mfpAux w tbl fuel NO_FALLBACK_FOUND c = some 0 := by
  obtain ⟨f, rfl⟩ : ∃ f, fuel = f + 1 := ⟨fuel - 1, by omega⟩
  rfl

theorem extLen_zero {w : List Char} (hw : 0 < w.length) {c : Char}
    (hc : w.getD 0 default ≠ c) : extLen w 0 c = 0 := by
  unfold extLen
  rw [Nat.findGreatest_eq_zero_iff]
  intro m hm0 hm1 hsuf
  have hm : m = 1 := by omega
  subst hm
  have h1 : w.take 1 = [w.getD 0 default] := by
    have := take_succ_getD hw
    simpa using this
  have h3 : ([] : List Char) ++ [w.getD 0 default] <:+ ([] : List Char) ++ [c] := by
    simpa [h1] using hsuf
  exact hc (snoc_suffix_snoc h3).1

theorem mfpAux_spec {w : List Char} {tbl : List Int} (htbl : TblOK w tbl) :
    ∀ p : Nat, p < tbl.length → p < w.length → ∀ fuel, p + 2 ≤ fuel → ∀ c,
      mfpAux w tbl fuel ((p : Nat) : Int) c = some ((extLen w p c : Nat) : Int) := by
  obtain ⟨htl1, htlw, ht0, hti⟩ := htbl
  intro p
  induction p using Nat.strong_induction_on with
  | _ p ih =>
    intro hpt hpw fuel hfuel c
    obtain ⟨fuel2, rfl⟩ : ∃ f2, fuel = f2 + 1 := ⟨fuel - 1, by omega⟩
    obtain ⟨ch, hch⟩ := get?_isSome_of_lt hpw
    have hne : ((p : Nat) : Int) ≠ NO_FALLBACK_FOUND := by
      unfold NO_FALLBACK_FOUND
      omega
    have hstep : mfpAux w tbl (fuel2 + 1) ((p : Nat) : Int) c =
        (match w.get? (((p : Nat) : Int)).toNat with
        | none => none
        | some ch =>
          if ch = c then some (((p : Nat) : Int) + 1)
          else
            match tbl.get? (((p : Nat) : Int)).toNat with
            | none => none
            | some p2 => mfpAux w tbl fuel2 p2 c) := by
      show (if ((p : Nat) : Int) = NO_FALLBACK_FOUND then some 0
        else
          match w.get? (((p : Nat) : Int)).toNat with
          | none => none
          | some ch =>
            if ch = c then some (((p : Nat) : Int) + 1)
            else
              match tbl.get? (((p : Nat) : Int)).toNat with
              | none => none
              | some p2 => mfpAux w tbl fuel2 p2 c) = _
      rw [if_neg hne]
    rw [hstep, Int.toNat_natCast, hch]
    dsimp only
    by_cases hcc : ch = c
    · rw [if_pos hcc]
      have hext : extLen w p c = p + 1 := extLen_match hpw (by rw [getD_of_get? hch]; exact hcc)
      rw [hext]
      congr 1
    · rw [if_neg hcc]
      have hgd : w.getD p default ≠ c := by
        rw [getD_of_get? hch]
        exact hcc
      rcases Nat.eq_zero_or_pos p with hp0 | hp1
      · subst hp0
        rw [ht0]
        dsimp only
        rw [mfpAux_sentinel w tbl (by omega) c]
        rw [extLen_zero hpw hgd]
        rfl
      · have hpe := hti p hp1 hpt
        rw [hpe]
        dsimp only
        have hpb := pborder_le w p
        have hrec := ih (pborder w p) (by omega) (by omega) (by omega) fuel2 (by omega) c
        rw [hrec, extLen_fallback hp1 hpw hgd]

/-! ### KMP: the constructor fills the table with proper borders -/

theorem pborder_one (w : List Char) : pborder w 1 = 0 := rfl

theorem buildFallbackAux_spec {w : List Char} :
    ∀ (k : Nat) (tbl : List Int), TblOK w tbl → tbl.length + k = w.length →
      ∃ tbl2, buildFallbackAux w k tbl = some tbl2 ∧ TblOK w tbl2 ∧
        tbl2.length = w.length
  | 0, tbl, htbl, hlen => ⟨tbl, rfl, htbl, by omega⟩
  | k + 1, tbl, htbl, hlen => by
    obtain ⟨htl1, htlw, ht0, hti⟩ := htbl
    have hiw : tbl.length < w.length := by omega
    obtain ⟨prev, hprev⟩ : ∃ prev, tbl.get? (tbl.length - 1) = some prev :=
      get?_isSome_of_lt (by omega)
    obtain ⟨c, hc⟩ : ∃ c, w.get? (tbl.length - 1) = some c :=
      get?_isSome_of_lt (by omega)
    have hv : mfpAux w tbl (w.length + 2) prev c =
        some ((pborder w tbl.length : Nat) : Int) := by
      rcases Nat.lt_or_ge tbl.length 2 with hi2 | hi2
      · have hieq : tbl.length = 1 := by omega
        have hprev2 : prev = NO_FALLBACK_FOUND := by
          rw [show tbl.length - 1 = 0 by omega, ht0] at hprev
          injection hprev with h
          exact h.symm
        rw [hprev2, mfpAux_sentinel w tbl (by omega) c, hieq, pborder_one]
        rfl
      · have hpentry := hti (tbl.length - 1) (by omega) (by omega)
        have hprev2 : prev = ((pborder w (tbl.length - 1) : Nat) : Int) := by
          rw [hpentry] at hprev
          injection hprev with h
          exact h.symm
        have hpb2 : pborder w (tbl.length - 1) ≤ tbl.length - 2 := by
          have := pborder_le w (tbl.length - 1)
          omega
        rw [hprev2, mfpAux_spec ⟨htl1, htlw, ht0, hti⟩ (pborder w (tbl.length - 1))
          (by omega) (by omega) (w.length + 2) (by omega) c]
        have hstep2 : pborder w tbl.length = extLen w (pborder w (tbl.length - 1)) c := by
          rw [pborder_step hi2 (by omega), getD_of_get? hc]
        rw [hstep2]
    have hstep : buildFallbackAux w (k + 1) tbl =
        buildFallbackAux w k (tbl ++ [((pborder w tbl.length : Nat) : Int)]) := by
      show (match tbl.get? (tbl.length - 1), w.get? (tbl.length - 1) with
        | some prev, some c =>
          match mfpAux w tbl (w.length + 2) prev c with
          | none => none
          | some v => buildFallbackAux w k (tbl ++ [v])
        | _, _ => none) = _
      rw [hprev, hc]
      dsimp only
      rw [hv]
    have htbl2 : TblOK w (tbl ++ [((pborder w tbl.length : Nat) : Int)]) := by
      refine ⟨?_, ?_, ?_, ?_⟩
      · rw [List.length_append]
        omega
      · rw [List.length_append, List.length_singleton]
        omega
      · rw [List.get?_append (by omega)]
        exact ht0
      · intro j hj1 hjlt
        rw [List.length_append, List.length_singleton] at hjlt
        by_cases hji : j < tbl.length
        · rw [List.get?_append hji]
          exact hti j hj1 hji
        · have hje : j = tbl.length := by omega
          subst hje
          exact List.get?_concat_length tbl _
    obtain ⟨tbl2, hrun2, htbl3, hlen3⟩ :=
      buildFallbackAux_spec k (tbl ++ [((pborder w tbl.length : Nat) : Int)]) htbl2
        (by rw [List.length_append, List.length_singleton]; omega)
    exact ⟨tbl2, by rw [hstep]; exact hrun2, htbl3, hlen3⟩

theorem kmpInit_spec {w : List Char} (hw : w ≠ []) :
    ∃ tbl, kmpInit w = some ⟨w, tbl⟩ ∧ TblOK w tbl ∧ tbl.length = w.length := by
  have hw1 : 0 < w.length := List.length_pos.mpr hw
  have htbl0 : TblOK w [NO_FALLBACK_FOUND] := by
    refine ⟨by simp, by simp; omega, rfl, ?_⟩
    intro i h1 h2
    simp only [List.length_singleton] at h2
    omega
  obtain ⟨tbl2, hrun, htbl2, hlen2⟩ :=
    buildFallbackAux_spec (w.length - 1) [NO_FALLBACK_FOUND] htbl0
      (by simp; omega)
  refine ⟨tbl2, ?_, htbl2, hlen2⟩
  unfold kmpInit
  rw [if_neg hw, hrun]

/-! ### KMP: the search loop -/

theorem containedLoop_iff {w : List Char} {tbl : List Int} (hw : w ≠ [])
    (htbl : TblOK w tbl) (hlen : tbl.length = w.length) :
    ∀ (s t : List Char), lspLen w t < w.length →
      ∃ b, containedLoop w tbl ((lspLen w t : Nat) : Int) s = some b ∧
        (b = true ↔ ∃ j, 1 ≤ j ∧ j ≤ s.length ∧ w <:+ t ++ s.take j)
  | [], t, hlt => by
    refine ⟨false, rfl, ?_⟩
    constructor
    · intro h
      exact absurd h (by simp)
    · rintro ⟨j, hj1, hj2, _⟩
      simp only [List.length_nil] at hj2
      omega
  | c :: rest, t, hlt => by
    have hmfp := mfpAux_spec htbl (lspLen w t) (by omega) hlt (w.length + 2)
      (by have := lspLen_le w t; omega) c
    have hstepEq : lspLen w (t ++ [c]) = extLen w (lspLen w t) c := lspLen_step rfl hlt c
    have hunfold : containedLoop w tbl ((lspLen w t : Nat) : Int) (c :: rest) =
        (if ((extLen w (lspLen w t) c : Nat) : Int) = (w.length : Int) then some true
         else containedLoop w tbl ((extLen w (lspLen w t) c : Nat) : Int) rest) := by
      show (match mfpAux w tbl (w.length + 2) ((lspLen w t : Nat) : Int) c with
        | none => none
        | some p2 =>
          if p2 = (w.length : Int) then some true
          else containedLoop w tbl p2 rest) = _
      rw [hmfp]
    by_cases hfull : extLen w (lspLen w t) c = w.length
    · have hmatch : lspLen w (t ++ [c]) = w.length := by rw [hstepEq, hfull]
      have hsfx := lspLen_spec w (t ++ [c])
      rw [hmatch, List.take_length] at hsfx
      refine ⟨true, ?_, ?_⟩
      · rw [hunfold, if_pos (by exact_mod_cast hfull)]
      · refine ⟨fun _ => ⟨1, by omega, by simp, ?_⟩, fun _ => rfl⟩
        simpa using hsfx
    · have hextle : extLen w (lspLen w t) c ≤ w.length := by
        have h1 := extLen_le w (lspLen w t) c
        omega
      have hlt2 : lspLen w (t ++ [c]) < w.length := by
        rw [hstepEq]
        omega
      obtain ⟨b, hrun, hiff⟩ := containedLoop_iff hw htbl hlen rest (t ++ [c]) hlt2
      rw [hstepEq] at hrun
      refine ⟨b, ?_, ?_⟩
      · rw [hunfold, if_neg ?_]
        · exact hrun
        · intro hcast
          exact hfull (by exact_mod_cast hcast)
      · rw [hiff]
        constructor
        · rintro ⟨j, hj1, hjle, hsfx⟩
          refine ⟨j + 1, by omega, by simp; omega, ?_⟩
          rw [show (c :: rest).take (j + 1) = c :: rest.take j from List.take_succ_cons,
            show t ++ (c :: rest.take j) = (t ++ [c]) ++ rest.take j by simp]
          exact hsfx
        · rintro ⟨j, hj1, hjle, hsfx⟩
          rcases Nat.eq_or_lt_of_le hj1 with hj1e | hj2
          · exfalso
            rw [← hj1e] at hsfx
            simp only [List.take_succ_cons, List.take_zero] at hsfx
            have := lspLen_full (w := w) (t := t ++ [c]) (by simpa using hsfx)
            omega
          · obtain ⟨j2, rfl⟩ : ∃ j2, j = j2 + 1 := ⟨j - 1, by omega⟩
            refine ⟨j2, by omega, by simp at hjle; omega, ?_⟩
            have hdecomp : t ++ (c :: rest).take (j2 + 1) = (t ++ [c]) ++ rest.take j2 := by
              rw [List.take_succ_cons]
              simp
            rw [hdecomp] at hsfx
            exact hsfx

/-- `Substr` means some prefix of the text ends with the pattern. -/
theorem substr_iff_suffix_take {w s : List Char} :
    Substr w s ↔ ∃ n, w <:+ s.take n := by
  constructor
  · rintro ⟨t1, t2, rfl⟩
    refine ⟨t1.length + w.length, ?_⟩
    rw [show t1.length + w.length = (t1 ++ w).length from (List.length_append t1 w).symm]
    rw [List.take_left]
    exact List.suffix_append t1 w
  · rintro ⟨n, hn⟩
    obtain ⟨u, hu⟩ := hn
    exact ⟨u, s.drop n, by rw [hu, List.take_append_drop]⟩

/-- C10: `KnuthMorrisPratt(w).contained_by(s)` never raises and answers `True`
exactly when `w` occurs inside `s`; in particular the empty pattern is
contained in every text and the constructor is total. -/
theorem claim_C10_kmp_contained_correct :
    ∀ w s, (kmpContains w s).isSome = true ∧
      (kmpContains w s = some true ↔ Substr w s) := by
  intro w s
  by_cases hw : w = []
  · subst hw
    have hrun : kmpContains [] s = some true := rfl
    rw [hrun]
    exact ⟨rfl, ⟨fun _ => ⟨[], s, by simp⟩, fun _ => rfl⟩⟩
  · obtain ⟨tbl, hinit, htbl, hlen⟩ := kmpInit_spec hw
    have hw1 : 0 < w.length := List.length_pos.mpr hw
    have hlsp0 : lspLen w [] = 0 := lspLen_nil hw
    obtain ⟨b, hloop, hiff⟩ := containedLoop_iff hw htbl hlen s [] (by omega)
    rw [hlsp0] at hloop
    have hrun : kmpContains w s = some b := by
      unfold kmpContains
      rw [hinit]
      show contained_by ⟨w, tbl⟩ s = some b
      unfold contained_by
      rw [if_neg hw]
      exact hloop
    rw [hrun]
    refine ⟨rfl, ?_⟩
    have hinj : (some b = some true) ↔ (b = true) := by
      constructor
      · intro h
        injection h
      · intro h
        rw [h]
    rw [hinj, hiff, substr_iff_suffix_take]
    constructor
    · rintro ⟨j, _, _, hsfx⟩
      exact ⟨j, by simpa using hsfx⟩
    · rintro ⟨n, hn⟩
      rcases le_or_lt n s.length with hns | hns
      · have hn1 : 1 ≤ n := by
          by_contra h
          have hn0 : n = 0 := by omega
          subst hn0
          simp only [List.take_zero] at hn
          exact hw (List.suffix_nil.mp hn)
        exact ⟨n, hn1, hns, by simpa using hn⟩
      · have hfull : s.take n = s := List.take_all_of_le (by omega)
        rw [hfull] at hn
        have hs1 : 1 ≤ s.length := by
          by_contra h
          have hs0 : s = [] := List.eq_nil_of_length_eq_zero (by omega)
          subst hs0
          exact hw (List.suffix_nil.mp hn)
        refine ⟨s.length, hs1, Nat.le_refl _, ?_⟩
        rw [List.take_length]
        simpa using hn

/-! ### Commutation of the constructor's arena writes (order invariance) -/

theorem fst_some_inv {X : Option (Nat × Finset (List Char))} {a : Nat}
    (h : Option.map Prod.fst X = some a) : ∃ v, X = some (a, v) := by
  cases X with
  | none => exact absurd h (by simp)
  | some p =>
    obtain ⟨p1, p2⟩ := p
    refine ⟨p2, ?_⟩
    injection h with h
    rw [← h]

theorem eq_of_take_last {s1 s2 : List Char} {i : Nat} (h1 : s1.length = i + 1)
    (h2 : s2.length = i + 1) (ht : s1.take i = s2.take i)
    (hc : s1.getD i default = s2.getD i default) : s1 = s2 := by
  have e1 : s1 = s1.take i ++ [s1.getD i default] := by
    rw [← take_succ_getD (by omega), List.take_of_length_le (by omega)]
  have e2 : s2 = s2.take i ++ [s2.getD i default] := by
    rw [← take_succ_getD (by omega), List.take_of_length_le (by omega)]
  rw [e1, e2, ht, hc]

theorem setValue_comm {A : List ACNode} {j1 j2 : Nat} (h : j1 ≠ j2)
    (v1 v2 : Option (List Char)) :
    setValue (setValue A j1 v1) j2 v2 = setValue (setValue A j2 v2) j1 v1 := by
  cases hg1 : A.get? j1 with
  | none =>
    rw [setValue_of_get?_none v1 hg1,
      setValue_of_get?_none v1 (by rw [get?_setValue_ne A j2 v2 (fun he => h he.symm)]; exact hg1)]
  | some nd1 =>
    cases hg2 : A.get? j2 with
    | none =>
      rw [setValue_of_get?_none v2 hg2,
        setValue_of_get?_none v2 (by rw [get?_setValue_ne A j1 v1 h]; exact hg2)]
    | some nd2 =>
      refine List.ext (fun k => ?_)
      by_cases hk1 : k = j1
      · subst hk1
        rw [get?_setValue_ne _ j2 v2 (fun he => h he.symm),
          get?_setValue_self v1 hg1,
          get?_setValue_self v1 (by rw [get?_setValue_ne A j2 v2 (fun he => h he.symm)]; exact hg1)]
      · by_cases hk2 : k = j2
        · subst hk2
          rw [get?_setValue_self v2 (by rw [get?_setValue_ne A j1 v1 h]; exact hg2),
            get?_setValue_ne _ j1 v1 (fun he => hk1 he.symm),
            get?_setValue_self v2 hg2]
        · rw [get?_setValue_ne _ j2 v2 (fun he => hk2 he.symm),
            get?_setValue_ne _ j1 v1 (fun he => hk1 he.symm),
            get?_setValue_ne _ j1 v1 (fun he => hk1 he.symm),
            get?_setValue_ne _ j2 v2 (fun he => hk2 he.symm)]

theorem setValue_setSuffix_comm {A : List ACNode} {j1 j2 : Nat} (h : j1 ≠ j2)
    (v : Option (List Char)) (o : Option Nat) :
    setSuffix (setValue A j1 v) j2 o = setValue (setSuffix A j2 o) j1 v := by
  cases hg1 : A.get? j1 with
  | none =>
    rw [setValue_of_get?_none v hg1,
      setValue_of_get?_none v (by rw [get?_setSuffix_ne A j2 o (fun he => h he.symm)]; exact hg1)]
  | some nd1 =>
    cases hg2 : A.get? j2 with
    | none =>
      rw [setSuffix_of_get?_none o hg2,
        setSuffix_of_get?_none o (by rw [get?_setValue_ne A j1 v h]; exact hg2)]
    | some nd2 =>
      refine List.ext (fun k => ?_)
      by_cases hk1 : k = j1
      · subst hk1
        rw [get?_setSuffix_ne _ j2 o (fun he => h he.symm),
          get?_setValue_self v hg1,
          get?_setValue_self v (by rw [get?_setSuffix_ne A j2 o (fun he => h he.symm)]; exact hg1)]
      · by_cases hk2 : k = j2
        · subst hk2
          rw [get?_setSuffix_self o (by rw [get?_setValue_ne A j1 v h]; exact hg2),
            get?_setValue_ne _ j1 v (fun he => hk1 he.symm),
            get?_setSuffix_self o hg2]
        · rw [get?_setSuffix_ne _ j2 o (fun he => hk2 he.symm),
            get?_setValue_ne _ j1 v (fun he => hk1 he.symm),
            get?_setValue_ne _ j1 v (fun he => hk1 he.symm),
            get?_setSuffix_ne _ j2 o (fun he => hk2 he.symm)]

theorem setValue_snocChild_comm {A : List ACNode} {j cur : Nat} {nd : ACNode}
    (hj : j < A.length) (hjc : j ≠ cur) (hcur : A.get? cur = some nd)
    (v : Option (List Char)) (c : Char) :
    snocChild (setValue A j v) cur nd c = setValue (snocChild A cur nd c) j v := by
  have hlenV : (setValue A j v).length = A.length := setValue_length A j v
  have hcur2 : (setValue A j v).get? cur = some nd := by
    rw [get?_setValue_ne A j v hjc]
    exact hcur
  have hclt : cur < A.length := lt_of_get?_eq_some hcur
  refine List.ext (fun k => ?_)
  by_cases hkc : k = cur
  · subst hkc
    rw [show (snocChild (setValue A j v) k nd c).get? k
        = some { nd with children := nd.children ++ [(c, (setValue A j v).length)] }
      from snocChild_get?_cur nd c (by omega), hlenV,
      get?_setValue_ne _ j v hjc, snocChild_get?_cur nd c hclt]
  · by_cases hkj : k = j
    · subst hkj
      cases hgj : A.get? k with
      | none => exact absurd hgj (by rw [List.get?_eq_none]; omega)
      | some ndj =>
        rw [show (snocChild (setValue A k v) cur nd c).get? k = (setValue A k v).get? k
            from snocChild_get?_ne nd c (by omega) hkc,
          get?_setValue_self v hgj,
          get?_setValue_self v (by rw [snocChild_get?_ne nd c (by omega) hkc]; exact hgj)]
    · by_cases hkl : k < A.length
      · rw [show (snocChild (setValue A j v) cur nd c).get? k = (setValue A j v).get? k
            from snocChild_get?_ne nd c (by omega) hkc,
          get?_setValue_ne A j v (fun he => hkj he.symm),
          get?_setValue_ne _ j v (fun he => hkj he.symm),
          snocChild_get?_ne nd c hkl hkc]
      · by_cases hke : k = A.length
        · subst hke
          rw [show (snocChild (setValue A j v) cur nd c).get? A.length
              = (snocChild (setValue A j v) cur nd c).get? (setValue A j v).length
            from by rw [hlenV],
            snocChild_get?_new, get?_setValue_ne _ j v (by omega),
            snocChild_get?_new]
        · rw [snocChild_get?_ge nd c (by rw [hlenV]; omega),
            get?_setValue_ne _ j v (by omega), snocChild_get?_ge nd c (by omega)]

/-- Two existing-child steps commute on the nose. -/
theorem swap_EE {A : List ACNode} (hInv : Inv A)
    {i : Nat} {sx sy : List Char} {curx cury : Nat}
    (hgx : ¬ i ≥ sx.length) (hgy : ¬ i ≥ sy.length)
    {nax nay : ACNode} (hnax : A.get? curx = some nax) (hnay : A.get? cury = some nay)
    {jx jy : Nat}
    (hclx : childLookup nax.children (sx.getD i default) = some jx)
    (hcly : childLookup nay.children (sy.getD i default) = some jy)
    (hdx : depthIdx A curx = i) (hdy : depthIdx A cury = i)
    (hpre : curx = cury → sx.take i = sy.take i)
    (hne : sx ≠ sy) :
    ∃ Ax Axy Ay Ayx,
      processString i A sx curx = some (Ax, some jx) ∧
      processString i Ax sy cury = some (Axy, some jy) ∧
      processString i A sy cury = some (Ay, some jy) ∧
      processString i Ay sx curx = some (Ayx, some jx) ∧
      Axy = Ayx := by
  obtain ⟨hlenA, hsfx, hcb, hel, heu, hst, hsd, hrc⟩ := hInv
  have hex : isEdge A curx (sx.getD i default) jx := ⟨nax, hnax, childLookup_mem hclx⟩
  have hey : isEdge A cury (sy.getD i default) jy := ⟨nay, hnay, childLookup_mem hcly⟩
  have hdjx : depthIdx A jx = i + 1 := by
    rw [depthIdx_of_edge heu hel hcb hex, hdx]
  have hdjy : depthIdx A jy = i + 1 := by
    rw [depthIdx_of_edge heu hel hcb hey, hdy]
  have hjxcy : jx ≠ cury := fun he => by rw [he, hdy] at hdjx; omega
  have hjycx : jy ≠ curx := fun he => by rw [he, hdx] at hdjy; omega
  have hrun1 : processString i A sx curx = some
      (if i = sx.length - 1 then setValue A jx (some sx) else A, some jx) :=
    ps_existing hgx hnax hclx
  have hAxnay : (if i = sx.length - 1 then setValue A jx (some sx) else A).get? cury
      = some nay := by
    by_cases hlx : i = sx.length - 1
    · rw [if_pos hlx, get?_setValue_ne A jx (some sx) hjxcy]
      exact hnay
    · rw [if_neg hlx]
      exact hnay
  have hrun2 := ps_existing hgy hAxnay hcly
  have hrun3 : processString i A sy cury = some
      (if i = sy.length - 1 then setValue A jy (some sy) else A, some jy) :=
    ps_existing hgy hnay hcly
  have hAynax : (if i = sy.length - 1 then setValue A jy (some sy) else A).get? curx
      = some nax := by
    by_cases hly : i = sy.length - 1
    · rw [if_pos hly, get?_setValue_ne A jy (some sy) hjycx]
      exact hnax
    · rw [if_neg hly]
      exact hnax
  have hrun4 := ps_existing hgx hAynax hclx
  refine ⟨_, _, _, _, hrun1, hrun2, hrun3, hrun4, ?_⟩
  by_cases hlx : i = sx.length - 1 <;> by_cases hly : i = sy.length - 1
  · have hjxy : jx ≠ jy := by
      intro he
      obtain ⟨he1, he2⟩ := heu curx _ jy cury _ (he ▸ hex) hey
      exact hne (eq_of_take_last (by omega) (by omega) (hpre he1) he2)
    simp only [if_pos hlx, if_pos hly]
    exact setValue_comm hjxy (some sx) (some sy)
  · simp only [if_pos hlx, if_neg hly]
  · simp only [if_neg hlx, if_pos hly]
  · simp only [if_neg hlx, if_neg hly]

/-- An existing-child step and a creation step commute on the nose. -/
theorem swap_EC {A : List ACNode} (hInv : Inv A)
    {i : Nat} {sE sC : List Char} {curE curC : Nat}
    (hgE : ¬ i ≥ sE.length) (hgC : ¬ i ≥ sC.length)
    {nE nC : ACNode} (hnE : A.get? curE = some nE) (hnC : A.get? curC = some nC)
    {jE : Nat} (hclE : childLookup nE.children (sE.getD i default) = some jE)
    (hclC : childLookup nC.children (sC.getD i default) = none)
    (hdE : depthIdx A curE = i) (hdC : depthIdx A curC = i) :
    ∃ AE AEC AC ACE,
      processString i A sE curE = some (AE, some jE) ∧
      processString i AE sC curC = some (AEC, some A.length) ∧
      processString i A sC curC = some (AC, some A.length) ∧
      processString i AC sE curE = some (ACE, some jE) ∧
      AEC = ACE := by
  obtain ⟨hlenA, hsfx, hcb, hel, heu, hst, hsd, hrc⟩ := hInv
  have hInv' : Inv A := ⟨hlenA, hsfx, hcb, hel, heu, hst, hsd, hrc⟩
  have hcurE : curE < A.length := lt_of_get?_eq_some hnE
  have hcurC : curC < A.length := lt_of_get?_eq_some hnC
  have hexE : isEdge A curE (sE.getD i default) jE := ⟨nE, hnE, childLookup_mem hclE⟩
  have hdjE : depthIdx A jE = i + 1 := by
    rw [depthIdx_of_edge heu hel hcb hexE, hdE]
  have hjEcC : jE ≠ curC := fun he => by rw [he, hdC] at hdjE; omega
  have hjEl : jE < A.length := (hcb curE nE hnE _ (childLookup_mem hclE)).2
  have hrun1 : processString i A sE curE = some
      (if i = sE.length - 1 then setValue A jE (some sE) else A, some jE) :=
    ps_existing hgE hnE hclE
  have hAEnC : (if i = sE.length - 1 then setValue A jE (some sE) else A).get? curC
      = some nC := by
    by_cases hlE : i = sE.length - 1
    · rw [if_pos hlE, get?_setValue_ne A jE (some sE) hjEcC]
      exact hnC
    · rw [if_neg hlE]
      exact hnC
  have hAElen : (if i = sE.length - 1 then setValue A jE (some sE) else A).length
      = A.length := by
    by_cases hlE : i = sE.length - 1
    · rw [if_pos hlE, setValue_length]
    · rw [if_neg hlE]
  have hAEag : ∀ k, k < A.length → k ≠ jE →
      (if i = sE.length - 1 then setValue A jE (some sE) else A).get? k
        = A.get? k := by
    intro k hk hkj
    by_cases hlE : i = sE.length - 1
    · rw [if_pos hlE, get?_setValue_ne A jE (some sE) (fun he => hkj he.symm)]
    · rw [if_neg hlE]
  obtain ⟨sfx, vals, hmfC, hsfxlt⟩ := create_walk hInv' hnC (sC.getD i default)
  have hrun3 := ps_create hgC hnC hclC hmfC
  have hagA1C : ∀ k, k < A.length → depthIdx A k < i →
      (snocChild A curC nC (sC.getD i default)).get? k = A.get? k := by
    intro k hk hdk
    have hkc : k ≠ curC := fun he => by rw [he, hdC] at hdk; omega
    rw [snocChild_get?_ne nC (sC.getD i default) hk hkc]
  have hagA1CE : ∀ k, k < A.length → depthIdx A k < i →
      (snocChild (if i = sE.length - 1 then setValue A jE (some sE) else A)
        curC nC (sC.getD i default)).get? k = A.get? k := by
    intro k hk hdk
    have hkc : k ≠ curC := fun he => by rw [he, hdC] at hdk; omega
    have hkj : k ≠ jE := fun he => by rw [he, hdjE] at hdk; omega
    rw [snocChild_get?_ne nC (sC.getD i default) (by rw [hAElen]; exact hk) hkc]
    exact hAEag k hk hkj
  have hstart : nC.suffix_link = none ∨ ∃ s0, nC.suffix_link = some s0 ∧
      s0 < A.length ∧ depthIdx A s0 < i := by
    cases hss : nC.suffix_link with
    | none => exact Or.inl rfl
    | some s0 =>
      have h1 : s0 < curC := hsfx curC nC s0 hnC hss
      have h2 : depthIdx A s0 < depthIdx A curC := hsd curC nC s0 hnC hss
      exact Or.inr ⟨s0, rfl, by omega, by rw [hdC] at h2; exact h2⟩
  have hfst := mfAux_fst_confined hsfx hsd hagA1CE hagA1C
    ((snocChild A curC nC (sC.getD i default)).length + 1) nC.suffix_link
    (sC.getD i default) ∅ ∅ hstart
  rw [hmfC] at hfst
  obtain ⟨vals2, hmfCE⟩ := fst_some_inv (by rw [hfst]; rfl)
  have hF2 : (snocChild (if i = sE.length - 1 then setValue A jE (some sE) else A)
        curC nC (sC.getD i default)).length + 1
      = (snocChild A curC nC (sC.getD i default)).length + 1 := by
    rw [snocChild_length, snocChild_length, hAElen]
  have hrun2 := ps_create hgC hAEnC hclC (by rw [hF2]; exact hmfCE)
  rw [hAElen] at hrun2
  have hACagree : ∀ k, k < A.length → k ≠ curC →
      (if i = sC.length - 1
        then setValue (setSuffix (snocChild A curC nC (sC.getD i default))
          A.length (some sfx)) A.length (some sC)
        else setSuffix (snocChild A curC nC (sC.getD i default))
          A.length (some sfx)).get? k = A.get? k := by
    intro k hk hkc
    have hkL : k ≠ A.length := by omega
    by_cases hlC : i = sC.length - 1
    · rw [if_pos hlC, get?_setValue_ne _ A.length (some sC) (fun he => hkL he.symm),
        get?_setSuffix_ne _ A.length (some sfx) (fun he => hkL he.symm),
        snocChild_get?_ne nC (sC.getD i default) hk hkc]
    · rw [if_neg hlC,
        get?_setSuffix_ne _ A.length (some sfx) (fun he => hkL he.symm),
        snocChild_get?_ne nC (sC.getD i default) hk hkc]
  have hACcurC : (if i = sC.length - 1
        then setValue (setSuffix (snocChild A curC nC (sC.getD i default))
          A.length (some sfx)) A.length (some sC)
        else setSuffix (snocChild A curC nC (sC.getD i default))
          A.length (some sfx)).get? curC
      = some { nC with children := nC.children ++ [(sC.getD i default, A.length)] } := by
    have hkL : curC ≠ A.length := by omega
    by_cases hlC : i = sC.length - 1
    · rw [if_pos hlC, get?_setValue_ne _ A.length (some sC) (fun he => hkL he.symm),
        get?_setSuffix_ne _ A.length (some sfx) (fun he => hkL he.symm),
        snocChild_get?_cur nC (sC.getD i default) hcurC]
    · rw [if_neg hlC,
        get?_setSuffix_ne _ A.length (some sfx) (fun he => hkL he.symm),
        snocChild_get?_cur nC (sC.getD i default) hcurC]
  have hACnE : ∃ nE2, (if i = sC.length - 1
        then setValue (setSuffix (snocChild A curC nC (sC.getD i default))
          A.length (some sfx)) A.length (some sC)
        else setSuffix (snocChild A curC nC (sC.getD i default))
          A.length (some sfx)).get? curE = some nE2 ∧
      childLookup nE2.children (sE.getD i default) = some jE := by
    by_cases hcc : curE = curC
    · have hEC : nE = nC := by
        rw [hcc, hnC] at hnE
        injection hnE with h
        exact h.symm
      refine ⟨{ nC with children := nC.children ++ [(sC.getD i default, A.length)] },
        by rw [hcc]; exact hACcurC, ?_⟩
      show childLookup (nC.children ++ [(sC.getD i default, A.length)])
        (sE.getD i default) = some jE
      rw [childLookup_append]
      have : childLookup nC.children (sE.getD i default) = some jE := by
        rw [← hEC]
        exact hclE
      rw [this]
    · exact ⟨nE, by rw [hACagree curE hcurE hcc]; exact hnE, hclE⟩
  obtain ⟨nE2, hnE2, hclE2⟩ := hACnE
  have hrun4 := ps_existing hgE hnE2 hclE2
  refine ⟨_, _, _, _, hrun1, hrun2, hrun3, hrun4, ?_⟩
  by_cases hlE : i = sE.length - 1 <;> by_cases hlC : i = sC.length - 1
  · simp only [if_pos hlE, if_pos hlC]
    rw [setValue_snocChild_comm hjEl hjEcC hnC (some sE) (sC.getD i default),
      setValue_setSuffix_comm (by omega) (some sE) (some sfx),
      setValue_comm (show jE ≠ A.length from by omega) (some sE) (some sC)]
  · simp only [if_pos hlE, if_neg hlC]
    rw [setValue_snocChild_comm hjEl hjEcC hnC (some sE) (sC.getD i default),
      setValue_setSuffix_comm (by omega) (some sE) (some sfx)]
  · simp only [if_neg hlE, if_pos hlC]
  · simp only [if_neg hlE, if_neg hlC]

/-- Two creations from the same node along the same character: whichever
string comes first allocates the child, the other reuses it; the results
agree. -/
theorem swap_CCsame {A : List ACNode} (hInv : Inv A)
    {i : Nat} {sx sy : List Char} {cur : Nat}
    (hgx : ¬ i ≥ sx.length) (hgy : ¬ i ≥ sy.length)
    {nd : ACNode} (hnd : A.get? cur = some nd)
    (hclx : childLookup nd.children (sx.getD i default) = none)
    (hceq : sx.getD i default = sy.getD i default)
    (hpre : sx.take i = sy.take i)
    (hne : sx ≠ sy) :
    ∃ Ax Axy Ay Ayx,
      processString i A sx cur = some (Ax, some A.length) ∧
      processString i Ax sy cur = some (Axy, some A.length) ∧
      processString i A sy cur = some (Ay, some A.length) ∧
      processString i Ay sx cur = some (Ayx, some A.length) ∧
      Axy = Ayx := by
  obtain ⟨hlenA, hsfx, hcb, hel, heu, hst, hsd, hrc⟩ := hInv
  have hInv' : Inv A := ⟨hlenA, hsfx, hcb, hel, heu, hst, hsd, hrc⟩
  have hcur : cur < A.length := lt_of_get?_eq_some hnd
  have hcL : cur ≠ A.length := by omega
  obtain ⟨sfx, vals, hmf, hsfxlt⟩ := create_walk hInv' hnd (sx.getD i default)
  have hrun1 := ps_create hgx hnd hclx hmf
  have hnotboth : ¬ (i = sx.length - 1 ∧ i = sy.length - 1) := by
    rintro ⟨hlx, hly⟩
    exact hne (eq_of_take_last (by omega) (by omega) hpre hceq)
  have hgetcur : (if i = sx.length - 1
        then setValue (setSuffix (snocChild A cur nd (sx.getD i default))
          A.length (some sfx)) A.length (some sx)
        else setSuffix (snocChild A cur nd (sx.getD i default))
          A.length (some sfx)).get? cur
      = some { nd with children := nd.children ++ [(sx.getD i default, A.length)] } := by
    by_cases hlx : i = sx.length - 1
    · rw [if_pos hlx, get?_setValue_ne _ A.length (some sx) (fun he => hcL he.symm),
        get?_setSuffix_ne _ A.length (some sfx) (fun he => hcL he.symm),
        snocChild_get?_cur nd (sx.getD i default) hcur]
    · rw [if_neg hlx,
        get?_setSuffix_ne _ A.length (some sfx) (fun he => hcL he.symm),
        snocChild_get?_cur nd (sx.getD i default) hcur]
  have hclFresh : childLookup
      (nd.children ++ [(sx.getD i default, A.length)]) (sy.getD i default)
      = some A.length := by
    rw [childLookup_append, ← hceq, hclx]
    rw [show (sx.getD i default == sx.getD i default) = true from beq_self_eq_true _]
    rfl
  have hrun2 := ps_existing hgy hgetcur hclFresh
  have hcly : childLookup nd.children (sy.getD i default) = none := by
    rw [← hceq]
    exact hclx
  have hmfy : mfAux (snocChild A cur nd (sy.getD i default))
      ((snocChild A cur nd (sy.getD i default)).length + 1) nd.suffix_link
      (sy.getD i default) ∅ = some (sfx, vals) := by
    rw [← hceq]
    exact hmf
  have hrun3 := ps_create hgy hnd hcly hmfy
  have hgetcury : (if i = sy.length - 1
        then setValue (setSuffix (snocChild A cur nd (sy.getD i default))
          A.length (some sfx)) A.length (some sy)
        else setSuffix (snocChild A cur nd (sy.getD i default))
          A.length (some sfx)).get? cur
      = some { nd with children := nd.children ++ [(sy.getD i default, A.length)] } := by
    by_cases hly : i = sy.length - 1
    · rw [if_pos hly, get?_setValue_ne _ A.length (some sy) (fun he => hcL he.symm),
        get?_setSuffix_ne _ A.length (some sfx) (fun he => hcL he.symm),
        snocChild_get?_cur nd (sy.getD i default) hcur]
    · rw [if_neg hly,
        get?_setSuffix_ne _ A.length (some sfx) (fun he => hcL he.symm),
        snocChild_get?_cur nd (sy.getD i default) hcur]
  have hclFreshy : childLookup
      (nd.children ++ [(sy.getD i default, A.length)]) (sx.getD i default)
      = some A.length := by
    rw [childLookup_append, hclx, hceq]
    rw [show (sy.getD i default == sy.getD i default) = true from beq_self_eq_true _]
    rfl
  have hrun4 := ps_existing hgx hgetcury hclFreshy
  refine ⟨_, _, _, _, hrun1, hrun2, hrun3, hrun4, ?_⟩
  by_cases hlx : i = sx.length - 1 <;> by_cases hly : i = sy.length - 1
  · exact absurd ⟨hlx, hly⟩ hnotboth
  · simp only [if_pos hlx, if_neg hly]
    rw [← hceq]
  · simp only [if_neg hlx, if_pos hly]
    rw [← hceq]
  · simp only [if_neg hlx, if_neg hly]
    rw [← hceq]

/-- Transposition of the two fresh indices allocated in either order. -/
def swap2 (n k : Nat) : Nat :=
  if k = n then n + 1 else if k = n + 1 then n else k

theorem swap2_lt {n k : Nat} (h : k < n) : swap2 n k = k := by
  unfold swap2
  rw [if_neg (by omega), if_neg (by omega)]

theorem swap2_self (n : Nat) : swap2 n n = n + 1 := by
  unfold swap2
  rw [if_pos rfl]

theorem swap2_succ (n : Nat) : swap2 n (n + 1) = n := by
  unfold swap2
  rw [if_neg (by omega), if_pos rfl]

theorem swap2_invol (n k : Nat) : swap2 n (swap2 n k) = k := by
  by_cases h1 : k = n
  · rw [h1, swap2_self, swap2_succ]
  · by_cases h2 : k = n + 1
    · rw [h2, swap2_succ, swap2_self]
    · have hkk : swap2 n k = k := by
        unfold swap2
        rw [if_neg h1, if_neg h2]
      rw [hkk, hkk]

theorem swap2_bound {n k : Nat} (h : k < n + 2) : swap2 n k < n + 2 := by
  unfold swap2
  by_cases h1 : k = n
  · rw [if_pos h1]
    omega
  · by_cases h2 : k = n + 1
    · rw [if_neg h1, if_pos h2]
      omega
    · rw [if_neg h1, if_neg h2]
      omega

/-- Two creations under distinct parents: the two fresh nodes are allocated
in opposite order, giving arenas equal up to transposing the fresh
indices. -/
theorem swap_CCdiff_diffcur {A : List ACNode} (hInv : Inv A)
    {i : Nat} {sx sy : List Char} {curx cury : Nat}
    (hgx : ¬ i ≥ sx.length) (hgy : ¬ i ≥ sy.length)
    {nax nay : ACNode} (hnax : A.get? curx = some nax) (hnay : A.get? cury = some nay)
    (hclx : childLookup nax.children (sx.getD i default) = none)
    (hcly : childLookup nay.children (sy.getD i default) = none)
    (hdx : depthIdx A curx = i) (hdy : depthIdx A cury = i)
    (hcxy : curx ≠ cury) :
    ∃ Ax Axy Ay Ayx,
      processString i A sx curx = some (Ax, some A.length) ∧
      processString i Ax sy cury = some (Axy, some (A.length + 1)) ∧
      processString i A sy cury = some (Ay, some A.length) ∧
      processString i Ay sx curx = some (Ayx, some (A.length + 1)) ∧
      IsoPred (swap2 A.length) (swap2 A.length) Axy Ayx := by
  obtain ⟨hlenA, hsfx, hcb, hel, heu, hst, hsd, hrc⟩ := hInv
  have hInv' : Inv A := ⟨hlenA, hsfx, hcb, hel, heu, hst, hsd, hrc⟩
  have hcx : curx < A.length := lt_of_get?_eq_some hnax
  have hcy : cury < A.length := lt_of_get?_eq_some hnay
  obtain ⟨sfxx, valsx, hmfx, hsfxxlt⟩ := create_walk hInv' hnax (sx.getD i default)
  obtain ⟨sfxy, valsy, hmfy, hsfxylt⟩ := create_walk hInv' hnay (sy.getD i default)
  have hrun1 := ps_create hgx hnax hclx hmfx
  have hrun3 := ps_create hgy hnay hcly hmfy
  set Ax := (if i = sx.length - 1
      then setValue (setSuffix (snocChild A curx nax (sx.getD i default))
        A.length (some sfxx)) A.length (some sx)
      else setSuffix (snocChild A curx nax (sx.getD i default)) A.length (some sfxx))
    with hAxdef
  set Ay := (if i = sy.length - 1
      then setValue (setSuffix (snocChild A cury nay (sy.getD i default))
        A.length (some sfxy)) A.length (some sy)
      else setSuffix (snocChild A cury nay (sy.getD i default)) A.length (some sfxy))
    with hAydef
  have hAxlen : Ax.length = A.length + 1 := by
    rw [hAxdef]
    by_cases hlx : i = sx.length - 1
    · rw [if_pos hlx, setValue_length, setSuffix_length, snocChild_length]
    · rw [if_neg hlx, setSuffix_length, snocChild_length]
  have hAylen : Ay.length = A.length + 1 := by
    rw [hAydef]
    by_cases hly : i = sy.length - 1
    · rw [if_pos hly, setValue_length, setSuffix_length, snocChild_length]
    · rw [if_neg hly, setSuffix_length, snocChild_length]
  have hAxagree : ∀ k, k < A.length → k ≠ curx → Ax.get? k = A.get? k := by
    intro k hk hkx
    have hkL : A.length ≠ k := by omega
    rw [hAxdef]
    by_cases hlx : i = sx.length - 1
    · rw [if_pos hlx, get?_setValue_ne _ A.length (some sx) hkL,
        get?_setSuffix_ne _ A.length (some sfxx) hkL,
        snocChild_get?_ne nax (sx.getD i default) hk hkx]
    · rw [if_neg hlx, get?_setSuffix_ne _ A.length (some sfxx) hkL,
        snocChild_get?_ne nax (sx.getD i default) hk hkx]
  have hAyagree : ∀ k, k < A.length → k ≠ cury → Ay.get? k = A.get? k := by
    intro k hk hky
    have hkL : A.length ≠ k := by omega
    rw [hAydef]
    by_cases hly : i = sy.length - 1
    · rw [if_pos hly, get?_setValue_ne _ A.length (some sy) hkL,
        get?_setSuffix_ne _ A.length (some sfxy) hkL,
        snocChild_get?_ne nay (sy.getD i default) hk hky]
    · rw [if_neg hly, get?_setSuffix_ne _ A.length (some sfxy) hkL,
        snocChild_get?_ne nay (sy.getD i default) hk hky]
  have hAxcurx : Ax.get? curx
      = some { nax with children := nax.children ++ [(sx.getD i default, A.length)] } := by
    have hkL : A.length ≠ curx := by omega
    rw [hAxdef]
    by_cases hlx : i = sx.length - 1
    · rw [if_pos hlx, get?_setValue_ne _ A.length (some sx) hkL,
        get?_setSuffix_ne _ A.length (some sfxx) hkL,
        snocChild_get?_cur nax (sx.getD i default) hcx]
    · rw [if_neg hlx, get?_setSuffix_ne _ A.length (some sfxx) hkL,
        snocChild_get?_cur nax (sx.getD i default) hcx]
  have hAycury : Ay.get? cury
      = some { nay with children := nay.children ++ [(sy.getD i default, A.length)] } := by
    have hkL : A.length ≠ cury := by omega
    rw [hAydef]
    by_cases hly : i = sy.length - 1
    · rw [if_pos hly, get?_setValue_ne _ A.length (some sy) hkL,
        get?_setSuffix_ne _ A.length (some sfxy) hkL,
        snocChild_get?_cur nay (sy.getD i default) hcy]
    · rw [if_neg hly, get?_setSuffix_ne _ A.length (some sfxy) hkL,
        snocChild_get?_cur nay (sy.getD i default) hcy]
  have hAxL : Ax.get? A.length
      = some ⟨if i = sx.length - 1 then some sx else none, [], some sfxx⟩ := by
    rw [hAxdef]
    by_cases hlx : i = sx.length - 1
    · rw [if_pos hlx,
        get?_setValue_self (some sx)
          (get?_setSuffix_self (some sfxx) (snocChild_get?_new A curx nax (sx.getD i default))), if_pos hlx]
    · rw [if_neg hlx,
        get?_setSuffix_self (some sfxx) (snocChild_get?_new A curx nax (sx.getD i default)), if_neg hlx]
  have hAyL : Ay.get? A.length
      = some ⟨if i = sy.length - 1 then some sy else none, [], some sfxy⟩ := by
    rw [hAydef]
    by_cases hly : i = sy.length - 1
    · rw [if_pos hly,
        get?_setValue_self (some sy)
          (get?_setSuffix_self (some sfxy) (snocChild_get?_new A cury nay (sy.getD i default))), if_pos hly]
    · rw [if_neg hly,
        get?_setSuffix_self (some sfxy) (snocChild_get?_new A cury nay (sy.getD i default)), if_neg hly]
  -- the mirrored second steps
  have hAxcury : Ax.get? cury = some nay :=
    (hAxagree cury hcy (fun he => hcxy he.symm)).trans hnay
  have hAycurx : Ay.get? curx = some nax :=
    (hAyagree curx hcx hcxy).trans hnax
  have hstarty : nay.suffix_link = none ∨ ∃ s0, nay.suffix_link = some s0 ∧
      s0 < A.length ∧ depthIdx A s0 < i := by
    cases hss : nay.suffix_link with
    | none => exact Or.inl rfl
    | some s0 =>
      have h1 : s0 < cury := hsfx cury nay s0 hnay hss
      have h2 : depthIdx A s0 < depthIdx A cury := hsd cury nay s0 hnay hss
      exact Or.inr ⟨s0, rfl, by omega, by rw [hdy] at h2; exact h2⟩
  have hstartx : nax.suffix_link = none ∨ ∃ s0, nax.suffix_link = some s0 ∧
      s0 < A.length ∧ depthIdx A s0 < i := by
    cases hss : nax.suffix_link with
    | none => exact Or.inl rfl
    | some s0 =>
      have h1 : s0 < curx := hsfx curx nax s0 hnax hss
      have h2 : depthIdx A s0 < depthIdx A curx := hsd curx nax s0 hnax hss
      exact Or.inr ⟨s0, rfl, by omega, by rw [hdx] at h2; exact h2⟩
  have hagA1y : ∀ k, k < A.length → depthIdx A k < i →
      (snocChild A cury nay (sy.getD i default)).get? k = A.get? k := by
    intro k hk hdk
    have hky : k ≠ cury := fun he => by rw [he, hdy] at hdk; omega
    rw [snocChild_get?_ne nay (sy.getD i default) hk hky]
  have hagA1x : ∀ k, k < A.length → depthIdx A k < i →
      (snocChild A curx nax (sx.getD i default)).get? k = A.get? k := by
    intro k hk hdk
    have hkx : k ≠ curx := fun he => by rw [he, hdx] at hdk; omega
    rw [snocChild_get?_ne nax (sx.getD i default) hk hkx]
  have hagA1yx : ∀ k, k < A.length → depthIdx A k < i →
      (snocChild Ax cury nay (sy.getD i default)).get? k = A.get? k := by
    intro k hk hdk
    have hky : k ≠ cury := fun he => by rw [he, hdy] at hdk; omega
    have hkx : k ≠ curx := fun he => by rw [he, hdx] at hdk; omega
    rw [snocChild_get?_ne nay (sy.getD i default) (by omega) hky]
    exact hAxagree k hk hkx
  have hagA1xy : ∀ k, k < A.length → depthIdx A k < i →
      (snocChild Ay curx nax (sx.getD i default)).get? k = A.get? k := by
    intro k hk hdk
    have hky : k ≠ cury := fun he => by rw [he, hdy] at hdk; omega
    have hkx : k ≠ curx := fun he => by rw [he, hdx] at hdk; omega
    rw [snocChild_get?_ne nax (sx.getD i default) (by omega) hkx]
    exact hAyagree k hk hky
  have hmfyF : mfAux (snocChild A cury nay (sy.getD i default))
      ((snocChild Ax cury nay (sy.getD i default)).length + 1) nay.suffix_link
      (sy.getD i default) ∅ = some (sfxy, valsy) :=
    mfAux_fuel_le (by rw [snocChild_length, snocChild_length, hAxlen]; omega) hmfy
  have hfsty := mfAux_fst_confined hsfx hsd hagA1yx hagA1y
    ((snocChild Ax cury nay (sy.getD i default)).length + 1) nay.suffix_link
    (sy.getD i default) ∅ ∅ hstarty
  rw [hmfyF] at hfsty
  obtain ⟨valsy2, hmfy_x⟩ := fst_some_inv (by rw [hfsty]; rfl)
  have hrun2 := ps_create hgy hAxcury hcly hmfy_x
  rw [hAxlen] at hrun2
  have hmfxF : mfAux (snocChild A curx nax (sx.getD i default))
      ((snocChild Ay curx nax (sx.getD i default)).length + 1) nax.suffix_link
      (sx.getD i default) ∅ = some (sfxx, valsx) :=
    mfAux_fuel_le (by rw [snocChild_length, snocChild_length, hAylen]; omega) hmfx
  have hfstx := mfAux_fst_confined hsfx hsd hagA1xy hagA1x
    ((snocChild Ay curx nax (sx.getD i default)).length + 1) nax.suffix_link
    (sx.getD i default) ∅ ∅ hstartx
  rw [hmfxF] at hfstx
  obtain ⟨valsx2, hmfx_y⟩ := fst_some_inv (by rw [hfstx]; rfl)
  have hrun4 := ps_create hgx hAycurx hclx hmfx_y
  rw [hAylen] at hrun4
  set Axy := (if i = sy.length - 1
      then setValue (setSuffix (snocChild Ax cury nay (sy.getD i default))
        (A.length + 1) (some sfxy)) (A.length + 1) (some sy)
      else setSuffix (snocChild Ax cury nay (sy.getD i default))
        (A.length + 1) (some sfxy)) with hAxydef
  set Ayx := (if i = sx.length - 1
      then setValue (setSuffix (snocChild Ay curx nax (sx.getD i default))
        (A.length + 1) (some sfxx)) (A.length + 1) (some sx)
      else setSuffix (snocChild Ay curx nax (sx.getD i default))
        (A.length + 1) (some sfxx)) with hAyxdef
  refine ⟨Ax, Axy, Ay, Ayx, hrun1, hrun2, hrun3, hrun4, ?_⟩
  -- get? facts about the two final arenas
  have hAxyLen : Axy.length = A.length + 2 := by
    rw [hAxydef]
    by_cases hly : i = sy.length - 1
    · rw [if_pos hly, setValue_length, setSuffix_length, snocChild_length, hAxlen]
    · rw [if_neg hly, setSuffix_length, snocChild_length, hAxlen]
  have hAyxLen : Ayx.length = A.length + 2 := by
    rw [hAyxdef]
    by_cases hlx : i = sx.length - 1
    · rw [if_pos hlx, setValue_length, setSuffix_length, snocChild_length, hAylen]
    · rw [if_neg hlx, setSuffix_length, snocChild_length, hAylen]
  have hAxyAt : ∀ k, k < A.length + 1 → k ≠ cury →
      Axy.get? k = Ax.get? k := by
    intro k hk hky
    have hkL1 : A.length + 1 ≠ k := by omega
    rw [hAxydef]
    by_cases hly : i = sy.length - 1
    · rw [if_pos hly, get?_setValue_ne _ (A.length + 1) (some sy) hkL1,
        get?_setSuffix_ne _ (A.length + 1) (some sfxy) hkL1,
        snocChild_get?_ne nay (sy.getD i default) (by omega) hky]
    · rw [if_neg hly, get?_setSuffix_ne _ (A.length + 1) (some sfxy) hkL1,
        snocChild_get?_ne nay (sy.getD i default) (by omega) hky]
  have hAyxAt : ∀ k, k < A.length + 1 → k ≠ curx →
      Ayx.get? k = Ay.get? k := by
    intro k hk hkx
    have hkL1 : A.length + 1 ≠ k := by omega
    rw [hAyxdef]
    by_cases hlx : i = sx.length - 1
    · rw [if_pos hlx, get?_setValue_ne _ (A.length + 1) (some sx) hkL1,
        get?_setSuffix_ne _ (A.length + 1) (some sfxx) hkL1,
        snocChild_get?_ne nax (sx.getD i default) (by omega) hkx]
    · rw [if_neg hlx, get?_setSuffix_ne _ (A.length + 1) (some sfxx) hkL1,
        snocChild_get?_ne nax (sx.getD i default) (by omega) hkx]
  have hAxyOld : ∀ k, k < A.length → k ≠ curx → k ≠ cury → Axy.get? k = A.get? k :=
    fun k hk hkx hky => (hAxyAt k (by omega) hky).trans (hAxagree k hk hkx)
  have hAyxOld : ∀ k, k < A.length → k ≠ curx → k ≠ cury → Ayx.get? k = A.get? k :=
    fun k hk hkx hky => (hAyxAt k (by omega) hkx).trans (hAyagree k hk hky)
  have hAxyCurx : Axy.get? curx
      = some { nax with children := nax.children ++ [(sx.getD i default, A.length)] } :=
    (hAxyAt curx (by omega) hcxy).trans hAxcurx
  have hAyxCury : Ayx.get? cury
      = some { nay with children := nay.children ++ [(sy.getD i default, A.length)] } :=
    (hAyxAt cury (by omega) (fun he => hcxy he.symm)).trans hAycury
  have hAxyL : Axy.get? A.length
      = some ⟨if i = sx.length - 1 then some sx else none, [], some sfxx⟩ :=
    (hAxyAt A.length (by omega) (by omega)).trans hAxL
  have hAyxL : Ayx.get? A.length
      = some ⟨if i = sy.length - 1 then some sy else none, [], some sfxy⟩ :=
    (hAyxAt A.length (by omega) (by omega)).trans hAyL
  have hAxyCury : Axy.get? cury
      = some { nay with children := nay.children ++ [(sy.getD i default, A.length + 1)] } := by
    have hkL1 : A.length + 1 ≠ cury := by omega
    rw [hAxydef]
    by_cases hly : i = sy.length - 1
    · rw [if_pos hly, get?_setValue_ne _ (A.length + 1) (some sy) hkL1,
        get?_setSuffix_ne _ (A.length + 1) (some sfxy) hkL1,
        snocChild_get?_cur nay (sy.getD i default) (by omega), hAxlen]
    · rw [if_neg hly, get?_setSuffix_ne _ (A.length + 1) (some sfxy) hkL1,
        snocChild_get?_cur nay (sy.getD i default) (by omega), hAxlen]
  have hAyxCurx : Ayx.get? curx
      = some { nax with children := nax.children ++ [(sx.getD i default, A.length + 1)] } := by
    have hkL1 : A.length + 1 ≠ curx := by omega
    rw [hAyxdef]
    by_cases hlx : i = sx.length - 1
    · rw [if_pos hlx, get?_setValue_ne _ (A.length + 1) (some sx) hkL1,
        get?_setSuffix_ne _ (A.length + 1) (some sfxx) hkL1,
        snocChild_get?_cur nax (sx.getD i default) (by omega), hAylen]
    · rw [if_neg hlx, get?_setSuffix_ne _ (A.length + 1) (some sfxx) hkL1,
        snocChild_get?_cur nax (sx.getD i default) (by omega), hAylen]
  have hSnocNewX : (snocChild Ax cury nay (sy.getD i default)).get? (A.length + 1)
      = some ⟨none, [], none⟩ := by
    rw [← hAxlen]
    exact snocChild_get?_new Ax cury nay (sy.getD i default)
  have hSnocNewY : (snocChild Ay curx nax (sx.getD i default)).get? (A.length + 1)
      = some ⟨none, [], none⟩ := by
    rw [← hAylen]
    exact snocChild_get?_new Ay curx nax (sx.getD i default)
  have hAxyL1 : Axy.get? (A.length + 1)
      = some ⟨if i = sy.length - 1 then some sy else none, [], some sfxy⟩ := by
    rw [hAxydef]
    by_cases hly : i = sy.length - 1
    · rw [if_pos hly,
        get?_setValue_self (some sy) (get?_setSuffix_self (some sfxy) hSnocNewX),
        if_pos hly]
    · rw [if_neg hly, get?_setSuffix_self (some sfxy) hSnocNewX, if_neg hly]
  have hAyxL1 : Ayx.get? (A.length + 1)
      = some ⟨if i = sx.length - 1 then some sx else none, [], some sfxx⟩ := by
    rw [hAyxdef]
    by_cases hlx : i = sx.length - 1
    · rw [if_pos hlx,
        get?_setValue_self (some sx) (get?_setSuffix_self (some sfxx) hSnocNewY),
        if_pos hlx]
    · rw [if_neg hlx, get?_setSuffix_self (some sfxx) hSnocNewY, if_neg hlx]
  refine ⟨by rw [hAxyLen, hAyxLen], swap2_lt (by omega), swap2_lt (by omega),
    ?_, fun k _ => swap2_invol _ _, ?_, fun j _ => swap2_invol _ _, ?_⟩
  · intro k hk
    rw [hAxyLen] at hk
    rw [hAyxLen]
    exact swap2_bound hk
  · intro j hj
    rw [hAyxLen] at hj
    rw [hAxyLen]
    exact swap2_bound hj
  · intro k a hka
    by_cases hkx : k = curx
    · rw [hkx] at hka ⊢
      rw [hAxyCurx] at hka
      injection hka with hka
      refine ⟨_, by rw [swap2_lt hcx]; exact hAyxCurx, ?_⟩
      rw [← hka]
      refine ⟨rfl, fun c2 => ?_, ?_⟩
      · show childLookup (nax.children ++ [(sx.getD i default, A.length + 1)]) c2
          = (childLookup (nax.children ++ [(sx.getD i default, A.length)]) c2).map
            (swap2 A.length)
        rw [childLookup_append, childLookup_append]
        cases horig : childLookup nax.children c2 with
        | some r =>
          have hr := (hcb curx nax hnax _ (childLookup_mem horig)).2
          rw [Option.map_some', swap2_lt hr]
        | none =>
          by_cases hcc2 : (sx.getD i default == c2)
          · rw [if_pos hcc2, if_pos hcc2, Option.map_some', swap2_self]
          · rw [if_neg hcc2, if_neg hcc2]
            rfl
      · show nax.suffix_link = nax.suffix_link.map (swap2 A.length)
        cases hss : nax.suffix_link with
        | none => rfl
        | some t =>
          have ht : t < curx := hsfx curx nax t hnax hss
          rw [Option.map_some', swap2_lt (by omega)]
    · by_cases hky : k = cury
      · rw [hky] at hka ⊢
        rw [hAxyCury] at hka
        injection hka with hka
        refine ⟨_, by rw [swap2_lt hcy]; exact hAyxCury, ?_⟩
        rw [← hka]
        refine ⟨rfl, fun c2 => ?_, ?_⟩
        · show childLookup (nay.children ++ [(sy.getD i default, A.length)]) c2
            = (childLookup (nay.children ++ [(sy.getD i default, A.length + 1)]) c2).map
              (swap2 A.length)
          rw [childLookup_append, childLookup_append]
          cases horig : childLookup nay.children c2 with
          | some r =>
            have hr := (hcb cury nay hnay _ (childLookup_mem horig)).2
            rw [Option.map_some', swap2_lt hr]
          | none =>
            by_cases hcc2 : (sy.getD i default == c2)
            · rw [if_pos hcc2, if_pos hcc2, Option.map_some', swap2_succ]
            · rw [if_neg hcc2, if_neg hcc2]
              rfl
        · show nay.suffix_link = nay.suffix_link.map (swap2 A.length)
          cases hss : nay.suffix_link with
          | none => rfl
          | some t =>
            have ht : t < cury := hsfx cury nay t hnay hss
            rw [Option.map_some', swap2_lt (by omega)]
      · by_cases hkL : k = A.length
        · subst hkL
          rw [hAxyL] at hka
          injection hka with hka
          refine ⟨_, by rw [swap2_self]; exact hAyxL1, ?_⟩
          rw [← hka]
          refine ⟨rfl, fun c2 => rfl, ?_⟩
          show some sfxx = (some sfxx).map (swap2 A.length)
          rw [Option.map_some', swap2_lt hsfxxlt]
        · by_cases hkL1 : k = A.length + 1
          · subst hkL1
            rw [hAxyL1] at hka
            injection hka with hka
            refine ⟨_, by rw [swap2_succ]; exact hAyxL, ?_⟩
            rw [← hka]
            refine ⟨rfl, fun c2 => rfl, ?_⟩
            show some sfxy = (some sfxy).map (swap2 A.length)
            rw [Option.map_some', swap2_lt hsfxylt]
          · have hklen : k < A.length + 2 := by
              have := lt_of_get?_eq_some hka
              rw [hAxyLen] at this
              exact this
            have hk : k < A.length := by omega
            rw [hAxyOld k hk hkx hky] at hka
            refine ⟨a, ?_, ?_⟩
            · rw [swap2_lt hk, hAyxOld k hk hkx hky]
              exact hka
            · refine mapsNode_id a (fun c2 j hj => ?_) (fun j hj => ?_)
              · exact swap2_lt ((hcb k a hka _ (childLookup_mem hj)).2)
              · have := hsfx k a j hka hj
                exact swap2_lt (by omega)

theorem childLookup_two_appends {l : List (Char × Nat)} (c2 ca cb : Char)
    (ja jb : Nat) :
    childLookup ((l ++ [(ca, ja)]) ++ [(cb, jb)]) c2
      = match childLookup l c2 with
        | some r => some r
        | none => if ca == c2 then some ja else if cb == c2 then some jb else none := by
  rw [childLookup_append, childLookup_append]
  cases h : childLookup l c2 with
  | some r => rfl
  | none =>
    by_cases hca : (ca == c2)
    · rw [if_pos hca, if_pos hca]
    · rw [if_neg hca, if_neg hca]

/-- Two creations from the same node along distinct characters: the fresh
indices are transposed between the two orders. -/
theorem swap_CCdiff_samecur {A : List ACNode} (hInv : Inv A)
    {i : Nat} {sx sy : List Char} {cur : Nat}
    (hgx : ¬ i ≥ sx.length) (hgy : ¬ i ≥ sy.length)
    {nd : ACNode} (hnd : A.get? cur = some nd)
    (hclx : childLookup nd.children (sx.getD i default) = none)
    (hcly : childLookup nd.children (sy.getD i default) = none)
    (hdc : depthIdx A cur = i)
    (hcne : sx.getD i default ≠ sy.getD i default) :
    ∃ Ax Axy Ay Ayx,
      processString i A sx cur = some (Ax, some A.length) ∧
      processString i Ax sy cur = some (Axy, some (A.length + 1)) ∧
      processString i A sy cur = some (Ay, some A.length) ∧
      processString i Ay sx cur = some (Ayx, some (A.length + 1)) ∧
      IsoPred (swap2 A.length) (swap2 A.length) Axy Ayx := by
  obtain ⟨hlenA, hsfx, hcb, hel, heu, hst, hsd, hrc⟩ := hInv
  have hInv' : Inv A := ⟨hlenA, hsfx, hcb, hel, heu, hst, hsd, hrc⟩
  have hcur : cur < A.length := lt_of_get?_eq_some hnd
  have hbxy : (sx.getD i default == sy.getD i default) = false :=
    beq_eq_false_iff_ne.mpr hcne
  have hbyx : (sy.getD i default == sx.getD i default) = false :=
    beq_eq_false_iff_ne.mpr (fun he => hcne he.symm)
  obtain ⟨sfxx, valsx, hmfx, hsfxxlt⟩ := create_walk hInv' hnd (sx.getD i default)
  obtain ⟨sfxy, valsy, hmfy, hsfxylt⟩ := create_walk hInv' hnd (sy.getD i default)
  have hrun1 := ps_create hgx hnd hclx hmfx
  have hrun3 := ps_create hgy hnd hcly hmfy
  set Ax := (if i = sx.length - 1
      then setValue (setSuffix (snocChild A cur nd (sx.getD i default))
        A.length (some sfxx)) A.length (some sx)
      else setSuffix (snocChild A cur nd (sx.getD i default)) A.length (some sfxx))
    with hAxdef
  set Ay := (if i = sy.length - 1
      then setValue (setSuffix (snocChild A cur nd (sy.getD i default))
        A.length (some sfxy)) A.length (some sy)
      else setSuffix (snocChild A cur nd (sy.getD i default)) A.length (some sfxy))
    with hAydef
  have hAxlen : Ax.length = A.length + 1 := by
    rw [hAxdef]
    by_cases hlx : i = sx.length - 1
    · rw [if_pos hlx, setValue_length, setSuffix_length, snocChild_length]
    · rw [if_neg hlx, setSuffix_length, snocChild_length]
  have hAylen : Ay.length = A.length + 1 := by
    rw [hAydef]
    by_cases hly : i = sy.length - 1
    · rw [if_pos hly, setValue_length, setSuffix_length, snocChild_length]
    · rw [if_neg hly, setSuffix_length, snocChild_length]
  have hAxagree : ∀ k, k < A.length → k ≠ cur → Ax.get? k = A.get? k := by
    intro k hk hkc
    have hkL : A.length ≠ k := by omega
    rw [hAxdef]
    by_cases hlx : i = sx.length - 1
    · rw [if_pos hlx, get?_setValue_ne _ A.length (some sx) hkL,
        get?_setSuffix_ne _ A.length (some sfxx) hkL,
        snocChild_get?_ne nd (sx.getD i default) hk hkc]
    · rw [if_neg hlx, get?_setSuffix_ne _ A.length (some sfxx) hkL,
        snocChild_get?_ne nd (sx.getD i default) hk hkc]
  have hAyagree : ∀ k, k < A.length → k ≠ cur → Ay.get? k = A.get? k := by
    intro k hk hkc
    have hkL : A.length ≠ k := by omega
    rw [hAydef]
    by_cases hly : i = sy.length - 1
    · rw [if_pos hly, get?_setValue_ne _ A.length (some sy) hkL,
        get?_setSuffix_ne _ A.length (some sfxy) hkL,
        snocChild_get?_ne nd (sy.getD i default) hk hkc]
    · rw [if_neg hly, get?_setSuffix_ne _ A.length (some sfxy) hkL,
        snocChild_get?_ne nd (sy.getD i default) hk hkc]
  have hAxcur : Ax.get? cur
      = some { nd with children := nd.children ++ [(sx.getD i default, A.length)] } := by
    have hkL : A.length ≠ cur := by omega
    rw [hAxdef]
    by_cases hlx : i = sx.length - 1
    · rw [if_pos hlx, get?_setValue_ne _ A.length (some sx) hkL,
        get?_setSuffix_ne _ A.length (some sfxx) hkL,
        snocChild_get?_cur nd (sx.getD i default) hcur]
    · rw [if_neg hlx, get?_setSuffix_ne _ A.length (some sfxx) hkL,
        snocChild_get?_cur nd (sx.getD i default) hcur]
  have hAycur : Ay.get? cur
      = some { nd with children := nd.children ++ [(sy.getD i default, A.length)] } := by
    have hkL : A.length ≠ cur := by omega
    rw [hAydef]
    by_cases hly : i = sy.length - 1
    · rw [if_pos hly, get?_setValue_ne _ A.length (some sy) hkL,
        get?_setSuffix_ne _ A.length (some sfxy) hkL,
        snocChild_get?_cur nd (sy.getD i default) hcur]
    · rw [if_neg hly, get?_setSuffix_ne _ A.length (some sfxy) hkL,
        snocChild_get?_cur nd (sy.getD i default) hcur]
  have hAxL : Ax.get? A.length
      = some ⟨if i = sx.length - 1 then some sx else none, [], some sfxx⟩ := by
    rw [hAxdef]
    by_cases hlx : i = sx.length - 1
    · rw [if_pos hlx,
        get?_setValue_self (some sx)
          (get?_setSuffix_self (some sfxx) (snocChild_get?_new A cur nd (sx.getD i default))),
        if_pos hlx]
    · rw [if_neg hlx,
        get?_setSuffix_self (some sfxx) (snocChild_get?_new A cur nd (sx.getD i default)),
        if_neg hlx]
  have hAyL : Ay.get? A.length
      = some ⟨if i = sy.length - 1 then some sy else none, [], some sfxy⟩ := by
    rw [hAydef]
    by_cases hly : i = sy.length - 1
    · rw [if_pos hly,
        get?_setValue_self (some sy)
          (get?_setSuffix_self (some sfxy) (snocChild_get?_new A cur nd (sy.getD i default))),
        if_pos hly]
    · rw [if_neg hly,
        get?_setSuffix_self (some sfxy) (snocChild_get?_new A cur nd (sy.getD i default)),
        if_neg hly]
  -- the second step's parent node and its failed lookup
  have hclyAx : childLookup
      ({ nd with children := nd.children ++ [(sx.getD i default, A.length)] } : ACNode).children
      (sy.getD i default) = none := by
    show childLookup (nd.children ++ [(sx.getD i default, A.length)]) (sy.getD i default)
      = none
    rw [childLookup_append, hcly, hbxy]
    rfl
  have hclxAy : childLookup
      ({ nd with children := nd.children ++ [(sy.getD i default, A.length)] } : ACNode).children
      (sx.getD i default) = none := by
    show childLookup (nd.children ++ [(sy.getD i default, A.length)]) (sx.getD i default)
      = none
    rw [childLookup_append, hclx, hbyx]
    rfl
  have hstart : nd.suffix_link = none ∨ ∃ s0, nd.suffix_link = some s0 ∧
      s0 < A.length ∧ depthIdx A s0 < i := by
    cases hss : nd.suffix_link with
    | none => exact Or.inl rfl
    | some s0 =>
      have h1 : s0 < cur := hsfx cur nd s0 hnd hss
      have h2 : depthIdx A s0 < depthIdx A cur := hsd cur nd s0 hnd hss
      exact Or.inr ⟨s0, rfl, by omega, by rw [hdc] at h2; exact h2⟩
  have hagA1y : ∀ k, k < A.length → depthIdx A k < i →
      (snocChild A cur nd (sy.getD i default)).get? k = A.get? k := by
    intro k hk hdk
    have hkc : k ≠ cur := fun he => by rw [he, hdc] at hdk; omega
    rw [snocChild_get?_ne nd (sy.getD i default) hk hkc]
  have hagA1x : ∀ k, k < A.length → depthIdx A k < i →
      (snocChild A cur nd (sx.getD i default)).get? k = A.get? k := by
    intro k hk hdk
    have hkc : k ≠ cur := fun he => by rw [he, hdc] at hdk; omega
    rw [snocChild_get?_ne nd (sx.getD i default) hk hkc]
  have hagA1yx : ∀ k, k < A.length → depthIdx A k < i →
      (snocChild Ax cur
        { nd with children := nd.children ++ [(sx.getD i default, A.length)] }
        (sy.getD i default)).get? k = A.get? k := by
    intro k hk hdk
    have hkc : k ≠ cur := fun he => by rw [he, hdc] at hdk; omega
    rw [snocChild_get?_ne _ (sy.getD i default) (by omega) hkc]
    exact hAxagree k hk hkc
  have hagA1xy : ∀ k, k < A.length → depthIdx A k < i →
      (snocChild Ay cur
        { nd with children := nd.children ++ [(sy.getD i default, A.length)] }
        (sx.getD i default)).get? k = A.get? k := by
    intro k hk hdk
    have hkc : k ≠ cur := fun he => by rw [he, hdc] at hdk; omega
    rw [snocChild_get?_ne _ (sx.getD i default) (by omega) hkc]
    exact hAyagree k hk hkc
  have hmfyF : mfAux (snocChild A cur nd (sy.getD i default))
      ((snocChild Ax cur
        { nd with children := nd.children ++ [(sx.getD i default, A.length)] }
        (sy.getD i default)).length + 1) nd.suffix_link
      (sy.getD i default) ∅ = some (sfxy, valsy) :=
    mfAux_fuel_le (by rw [snocChild_length, snocChild_length, hAxlen]; omega) hmfy
  have hfsty := mfAux_fst_confined hsfx hsd hagA1yx hagA1y
    ((snocChild Ax cur
      { nd with children := nd.children ++ [(sx.getD i default, A.length)] }
      (sy.getD i default)).length + 1) nd.suffix_link
    (sy.getD i default) ∅ ∅ hstart
  rw [hmfyF] at hfsty
  obtain ⟨valsy2, hmfy_x⟩ := fst_some_inv (by rw [hfsty]; rfl)
  have hrun2 := ps_create hgy hAxcur hclyAx hmfy_x
  rw [hAxlen] at hrun2
  have hmfxF : mfAux (snocChild A cur nd (sx.getD i default))
      ((snocChild Ay cur
        { nd with children := nd.children ++ [(sy.getD i default, A.length)] }
        (sx.getD i default)).length + 1) nd.suffix_link
      (sx.getD i default) ∅ = some (sfxx, valsx) :=
    mfAux_fuel_le (by rw [snocChild_length, snocChild_length, hAylen]; omega) hmfx
  have hfstx := mfAux_fst_confined hsfx hsd hagA1xy hagA1x
    ((snocChild Ay cur
      { nd with children := nd.children ++ [(sy.getD i default, A.length)] }
      (sx.getD i default)).length + 1) nd.suffix_link
    (sx.getD i default) ∅ ∅ hstart
  rw [hmfxF] at hfstx
  obtain ⟨valsx2, hmfx_y⟩ := fst_some_inv (by rw [hfstx]; rfl)
  have hrun4 := ps_create hgx hAycur hclxAy hmfx_y
  rw [hAylen] at hrun4
  set Axy := (if i = sy.length - 1
      then setValue (setSuffix (snocChild Ax cur
        { nd with children := nd.children ++ [(sx.getD i default, A.length)] }
        (sy.getD i default)) (A.length + 1) (some sfxy)) (A.length + 1) (some sy)
      else setSuffix (snocChild Ax cur
        { nd with children := nd.children ++ [(sx.getD i default, A.length)] }
        (sy.getD i default)) (A.length + 1) (some sfxy)) with hAxydef
  set Ayx := (if i = sx.length - 1
      then setValue (setSuffix (snocChild Ay cur
        { nd with children := nd.children ++ [(sy.getD i default, A.length)] }
        (sx.getD i default)) (A.length + 1) (some sfxx)) (A.length + 1) (some sx)
      else setSuffix (snocChild Ay cur
        { nd with children := nd.children ++ [(sy.getD i default, A.length)] }
        (sx.getD i default)) (A.length + 1) (some sfxx)) with hAyxdef
  refine ⟨Ax, Axy, Ay, Ayx, hrun1, hrun2, hrun3, hrun4, ?_⟩
  have hAxyLen : Axy.length = A.length + 2 := by
    rw [hAxydef]
    by_cases hly : i = sy.length - 1
    · rw [if_pos hly, setValue_length, setSuffix_length, snocChild_length, hAxlen]
    · rw [if_neg hly, setSuffix_length, snocChild_length, hAxlen]
  have hAyxLen : Ayx.length = A.length + 2 := by
    rw [hAyxdef]
    by_cases hlx : i = sx.length - 1
    · rw [if_pos hlx, setValue_length, setSuffix_length, snocChild_length, hAylen]
    · rw [if_neg hlx, setSuffix_length, snocChild_length, hAylen]
  have hAxyAt : ∀ k, k < A.length + 1 → k ≠ cur → Axy.get? k = Ax.get? k := by
    intro k hk hkc
    have hkL1 : A.length + 1 ≠ k := by omega
    rw [hAxydef]
    by_cases hly : i = sy.length - 1
    · rw [if_pos hly, get?_setValue_ne _ (A.length + 1) (some sy) hkL1,
        get?_setSuffix_ne _ (A.length + 1) (some sfxy) hkL1,
        snocChild_get?_ne _ (sy.getD i default) (by omega) hkc]
    · rw [if_neg hly, get?_setSuffix_ne _ (A.length + 1) (some sfxy) hkL1,
        snocChild_get?_ne _ (sy.getD i default) (by omega) hkc]
  have hAyxAt : ∀ k, k < A.length + 1 → k ≠ cur → Ayx.get? k = Ay.get? k := by
    intro k hk hkc
    have hkL1 : A.length + 1 ≠ k := by omega
    rw [hAyxdef]
    by_cases hlx : i = sx.length - 1
    · rw [if_pos hlx, get?_setValue_ne _ (A.length + 1) (some sx) hkL1,
        get?_setSuffix_ne _ (A.length + 1) (some sfxx) hkL1,
        snocChild_get?_ne _ (sx.getD i default) (by omega) hkc]
    · rw [if_neg hlx, get?_setSuffix_ne _ (A.length + 1) (some sfxx) hkL1,
        snocChild_get?_ne _ (sx.getD i default) (by omega) hkc]
  have hAxyOld : ∀ k, k < A.length → k ≠ cur → Axy.get? k = A.get? k :=
    fun k hk hkc => (hAxyAt k (by omega) hkc).trans (hAxagree k hk hkc)
  have hAyxOld : ∀ k, k < A.length → k ≠ cur → Ayx.get? k = A.get? k :=
    fun k hk hkc => (hAyxAt k (by omega) hkc).trans (hAyagree k hk hkc)
  have hAxyL : Axy.get? A.length
      = some ⟨if i = sx.length - 1 then some sx else none, [], some sfxx⟩ :=
    (hAxyAt A.length (by omega) (by omega)).trans hAxL
  have hAyxL : Ayx.get? A.length
      = some ⟨if i = sy.length - 1 then some sy else none, [], some sfxy⟩ :=
    (hAyxAt A.length (by omega) (by omega)).trans hAyL
  have hAxyCur : Axy.get? cur
      = some { nd with children :=
          (nd.children ++ [(sx.getD i default, A.length)]) ++ [(sy.getD i default, A.length + 1)] } := by
    have hkL1 : A.length + 1 ≠ cur := by omega
    rw [hAxydef]
    by_cases hly : i = sy.length - 1
    · rw [if_pos hly, get?_setValue_ne _ (A.length + 1) (some sy) hkL1,
        get?_setSuffix_ne _ (A.length + 1) (some sfxy) hkL1,
        snocChild_get?_cur _ (sy.getD i default) (by omega), hAxlen]
    · rw [if_neg hly, get?_setSuffix_ne _ (A.length + 1) (some sfxy) hkL1,
        snocChild_get?_cur _ (sy.getD i default) (by omega), hAxlen]
  have hAyxCur : Ayx.get? cur
      = some { nd with children :=
          (nd.children ++ [(sy.getD i default, A.length)]) ++ [(sx.getD i default, A.length + 1)] } := by
    have hkL1 : A.length + 1 ≠ cur := by omega
    rw [hAyxdef]
    by_cases hlx : i = sx.length - 1
    · rw [if_pos hlx, get?_setValue_ne _ (A.length + 1) (some sx) hkL1,
        get?_setSuffix_ne _ (A.length + 1) (some sfxx) hkL1,
        snocChild_get?_cur _ (sx.getD i default) (by omega), hAylen]
    · rw [if_neg hlx, get?_setSuffix_ne _ (A.length + 1) (some sfxx) hkL1,
        snocChild_get?_cur _ (sx.getD i default) (by omega), hAylen]
  have hSnocNewX : (snocChild Ax cur
      { nd with children := nd.children ++ [(sx.getD i default, A.length)] }
      (sy.getD i default)).get? (A.length + 1) = some ⟨none, [], none⟩ := by
    rw [← hAxlen]
    exact snocChild_get?_new Ax cur _ (sy.getD i default)
  have hSnocNewY : (snocChild Ay cur
      { nd with children := nd.children ++ [(sy.getD i default, A.length)] }
      (sx.getD i default)).get? (A.length + 1) = some ⟨none, [], none⟩ := by
    rw [← hAylen]
    exact snocChild_get?_new Ay cur _ (sx.getD i default)
  have hAxyL1 : Axy.get? (A.length + 1)
      = some ⟨if i = sy.length - 1 then some sy else none, [], some sfxy⟩ := by
    rw [hAxydef]
    by_cases hly : i = sy.length - 1
    · rw [if_pos hly,
        get?_setValue_self (some sy) (get?_setSuffix_self (some sfxy) hSnocNewX),
        if_pos hly]
    · rw [if_neg hly, get?_setSuffix_self (some sfxy) hSnocNewX, if_neg hly]
  have hAyxL1 : Ayx.get? (A.length + 1)
      = some ⟨if i = sx.length - 1 then some sx else none, [], some sfxx⟩ := by
    rw [hAyxdef]
    by_cases hlx : i = sx.length - 1
    · rw [if_pos hlx,
        get?_setValue_self (some sx) (get?_setSuffix_self (some sfxx) hSnocNewY),
        if_pos hlx]
    · rw [if_neg hlx, get?_setSuffix_self (some sfxx) hSnocNewY, if_neg hlx]
  refine ⟨by rw [hAxyLen, hAyxLen], swap2_lt (by omega), swap2_lt (by omega),
    ?_, fun k _ => swap2_invol _ _, ?_, fun j _ => swap2_invol _ _, ?_⟩
  · intro k hk
    rw [hAxyLen] at hk
    rw [hAyxLen]
    exact swap2_bound hk
  · intro j hj
    rw [hAyxLen] at hj
    rw [hAxyLen]
    exact swap2_bound hj
  · intro k a hka
    by_cases hkc : k = cur
    · rw [hkc] at hka ⊢
      rw [hAxyCur] at hka
      injection hka with hka
      refine ⟨_, by rw [swap2_lt hcur]; exact hAyxCur, ?_⟩
      rw [← hka]
      refine ⟨rfl, fun c2 => ?_, ?_⟩
      · show childLookup
            ((nd.children ++ [(sy.getD i default, A.length)]) ++ [(sx.getD i default, A.length + 1)]) c2
          = (childLookup
            ((nd.children ++ [(sx.getD i default, A.length)]) ++ [(sy.getD i default, A.length + 1)]) c2).map
            (swap2 A.length)
        rw [childLookup_two_appends, childLookup_two_appends]
        cases horig : childLookup nd.children c2 with
        | some r =>
          have hr := (hcb cur nd hnd _ (childLookup_mem horig)).2
          show some r = Option.map (swap2 A.length) (some r)
          rw [Option.map_some', swap2_lt hr]
        | none =>
          dsimp only
          by_cases hcx2 : sx.getD i default = c2
          · have hbx : (sx.getD i default == c2) = true := by
              rw [hcx2]
              exact beq_self_eq_true c2
            have hby : (sy.getD i default == c2) = false := by
              refine beq_eq_false_iff_ne.mpr ?_
              rw [← hcx2]
              exact fun he => hcne he.symm
            rw [hbx, hby]
            show some (A.length + 1) = Option.map (swap2 A.length) (some A.length)
            rw [Option.map_some', swap2_self]
          · have hbx : (sx.getD i default == c2) = false := beq_eq_false_iff_ne.mpr hcx2
            by_cases hcy2 : sy.getD i default = c2
            · have hby : (sy.getD i default == c2) = true := by
                rw [hcy2]
                exact beq_self_eq_true c2
              rw [hbx, hby]
              show some A.length = Option.map (swap2 A.length) (some (A.length + 1))
              rw [Option.map_some', swap2_succ]
            · have hby : (sy.getD i default == c2) = false := beq_eq_false_iff_ne.mpr hcy2
              rw [hbx, hby]
              rfl
      · show nd.suffix_link = nd.suffix_link.map (swap2 A.length)
        cases hss : nd.suffix_link with
        | none => rfl
        | some t =>
          have ht : t < cur := hsfx cur nd t hnd hss
          rw [Option.map_some', swap2_lt (by omega)]
    · by_cases hkL : k = A.length
      · subst hkL
        rw [hAxyL] at hka
        injection hka with hka
        refine ⟨_, by rw [swap2_self]; exact hAyxL1, ?_⟩
        rw [← hka]
        refine ⟨rfl, fun c2 => rfl, ?_⟩
        show some sfxx = (some sfxx).map (swap2 A.length)
        rw [Option.map_some', swap2_lt hsfxxlt]
      · by_cases hkL1 : k = A.length + 1
        · subst hkL1
          rw [hAxyL1] at hka
          injection hka with hka
          refine ⟨_, by rw [swap2_succ]; exact hAyxL, ?_⟩
          rw [← hka]
          refine ⟨rfl, fun c2 => rfl, ?_⟩
          show some sfxy = (some sfxy).map (swap2 A.length)
          rw [Option.map_some', swap2_lt hsfxylt]
        · have hklen : k < A.length + 2 := by
            have := lt_of_get?_eq_some hka
            rw [hAxyLen] at this
            exact this
          have hk : k < A.length := by omega
          rw [hAxyOld k hk hkc] at hka
          refine ⟨a, ?_, ?_⟩
          · rw [swap2_lt hk, hAyxOld k hk hkc]
            exact hka
          · refine mapsNode_id a (fun c2 j hj => ?_) (fun j hj => ?_)
            · exact swap2_lt ((hcb k a hka _ (childLookup_mem hj)).2)
            · have := hsfx k a j hka hj
              exact swap2_lt (by omega)

/-- Processing two distinct work entries of the same column in either order
yields isomorphic arenas and correspondingly translated results. -/
theorem processPair_swap {A : List ACNode} (hInv : Inv A)
    (i : Nat) (sx sy : List Char) (curx cury : Nat)
    (hcx : curx < A.length) (hcy : cury < A.length)
    (hdx : depthIdx A curx = i) (hdy : depthIdx A cury = i)
    (hpre : curx = cury → sx.take i = sy.take i)
    (hne : sx ≠ sy) :
    ∃ Ax rx Axy ry Ay ry2 Ayx rx2 φs ψs,
      processString i A sx curx = some (Ax, rx) ∧
      processString i Ax sy cury = some (Axy, ry) ∧
      processString i A sy cury = some (Ay, ry2) ∧
      processString i Ay sx curx = some (Ayx, rx2) ∧
      IsoPred φs ψs Axy Ayx ∧
      rx2 = Option.map φs rx ∧ ry2 = Option.map φs ry ∧
      (∀ k, k < A.length → φs k = k) ∧ (∀ k, k < A.length → ψs k = k) := by
  by_cases hgx : i ≥ sx.length
  · obtain ⟨Ay, ry0, hry, -, -, -, -⟩ := processString_inv hInv i sy hcy
    refine ⟨A, none, Ay, ry0, Ay, ry0, Ay, none, (fun k => k), (fun k => k),
      ps_pop hgx curx, hry, hry, ps_pop hgx curx, iso_refl Ay, rfl, ?_,
      fun _ _ => rfl, fun _ _ => rfl⟩
    cases ry0 <;> rfl
  · by_cases hgy : i ≥ sy.length
    · obtain ⟨Ax, rx0, hrx, -, -, -, -⟩ := processString_inv hInv i sx hcx
      refine ⟨Ax, rx0, Ax, none, A, none, Ax, rx0, (fun k => k), (fun k => k),
        hrx, ps_pop hgy cury, ps_pop hgy cury, hrx, iso_refl Ax, ?_, rfl,
        fun _ _ => rfl, fun _ _ => rfl⟩
      cases rx0 <;> rfl
    · obtain ⟨nax, hnax⟩ := get?_isSome_of_lt hcx
      obtain ⟨nay, hnay⟩ := get?_isSome_of_lt hcy
      cases hclx : childLookup nax.children (sx.getD i default) with
      | some jx =>
        cases hcly : childLookup nay.children (sy.getD i default) with
        | some jy =>
          obtain ⟨Ax, Axy, Ay, Ayx, h1, h2, h3, h4, heq⟩ :=
            swap_EE hInv hgx hgy hnax hnay hclx hcly hdx hdy hpre hne
          exact ⟨Ax, some jx, Axy, some jy, Ay, some jy, Ayx, some jx,
            (fun k => k), (fun k => k), h1, h2, h3, h4,
            by rw [heq]; exact iso_refl _, rfl, rfl,
            fun _ _ => rfl, fun _ _ => rfl⟩
        | none =>
          obtain ⟨AE, AEC, AC, ACE, h1, h2, h3, h4, heq⟩ :=
            swap_EC hInv hgx hgy hnax hnay hclx hcly hdx hdy
          exact ⟨AE, some jx, AEC, some A.length, AC, some A.length, ACE, some jx,
            (fun k => k), (fun k => k), h1, h2, h3, h4,
            by rw [heq]; exact iso_refl _, rfl, rfl,
            fun _ _ => rfl, fun _ _ => rfl⟩
      | none =>
        cases hcly : childLookup nay.children (sy.getD i default) with
        | some jy =>
          obtain ⟨AE, AEC, AC, ACE, h1, h2, h3, h4, heq⟩ :=
            swap_EC hInv hgy hgx hnay hnax hcly hclx hdy hdx
          exact ⟨AC, some A.length, ACE, some jy, AE, some jy, AEC, some A.length,
            (fun k => k), (fun k => k), h3, h4, h1, h2,
            by rw [← heq]; exact iso_refl _, rfl, rfl,
            fun _ _ => rfl, fun _ _ => rfl⟩
        | none =>
          by_cases hkey : curx = cury
          · have hnayx : nay = nax := by
              rw [← hkey, hnax] at hnay
              injection hnay with h
              exact h.symm
            by_cases hceq : sx.getD i default = sy.getD i default
            · rw [← hkey]
              obtain ⟨Ax, Axy, Ay, Ayx, h1, h2, h3, h4, heq⟩ :=
                swap_CCsame hInv hgx hgy hnax hclx hceq (hpre hkey) hne
              exact ⟨Ax, some A.length, Axy, some A.length, Ay, some A.length,
                Ayx, some A.length, (fun k => k), (fun k => k), h1, h2, h3, h4,
                by rw [heq]; exact iso_refl _, rfl, rfl,
                fun _ _ => rfl, fun _ _ => rfl⟩
            · rw [← hkey]
              obtain ⟨Ax, Axy, Ay, Ayx, h1, h2, h3, h4, hiso⟩ :=
                swap_CCdiff_samecur hInv hgx hgy hnax hclx
                  (by rw [hnayx] at hcly; exact hcly) hdx hceq
              refine ⟨Ax, some A.length, Axy, some (A.length + 1), Ay, some A.length,
                Ayx, some (A.length + 1), swap2 A.length, swap2 A.length,
                h1, h2, h3, h4, hiso, ?_, ?_, fun k hk => swap2_lt hk,
                fun k hk => swap2_lt hk⟩
              · rw [Option.map_some', swap2_self]
              · rw [Option.map_some', swap2_succ]
          · obtain ⟨Ax, Axy, Ay, Ayx, h1, h2, h3, h4, hiso⟩ :=
              swap_CCdiff_diffcur hInv hgx hgy hnax hnay hclx hcly hdx hdy hkey
            refine ⟨Ax, some A.length, Axy, some (A.length + 1), Ay, some A.length,
              Ayx, some (A.length + 1), swap2 A.length, swap2 A.length,
              h1, h2, h3, h4, hiso, ?_, ?_, fun k hk => swap2_lt hk,
              fun k hk => swap2_lt hk⟩
            · rw [Option.map_some', swap2_self]
            · rw [Option.map_some', swap2_succ]

theorem ps_det {i : Nat} {A : List ACNode} {s : List Char} {cur : Nat}
    {X Y : List ACNode × Option Nat} (h1 : processString i A s cur = some X)
    (h2 : processString i A s cur = some Y) : X = Y := by
  rw [h1] at h2
  injection h2

/-- The surviving-work entry contributed by one processed string. -/
def consRes (s : List Char) (res : Option Nat) (W : List (List Char × Nat)) :
    List (List Char × Nat) :=
  match res with
  | none => W
  | some ch => (s, ch) :: W

theorem processColumn_cons {i : Nat} {A A1 A2 : List ACNode} {s : List Char}
    {cur : Nat} {res : Option Nat} {rest W2 : List (List Char × Nat)}
    (h1 : processString i A s cur = some (A1, res))
    (h2 : processColumn i A1 rest = some (A2, W2)) :
    processColumn i A ((s, cur) :: rest) = some (A2, consRes s res W2) := by
  cases res with
  | none =>
    show (match processString i A s cur with
      | none => none
      | some (nodes1, res) =>
        match processColumn i nodes1 rest with
        | none => none
        | some (nodes2, rest2) =>
          some (nodes2, match res with
            | none => rest2
            | some child => (s, child) :: rest2)) = some (A2, W2)
    rw [h1]
    dsimp only
    rw [h2]
  | some ch =>
    show (match processString i A s cur with
      | none => none
      | some (nodes1, res) =>
        match processColumn i nodes1 rest with
        | none => none
        | some (nodes2, rest2) =>
          some (nodes2, match res with
            | none => rest2
            | some child => (s, child) :: rest2)) = some (A2, (s, ch) :: W2)
    rw [h1]
    dsimp only
    rw [h2]

theorem wmap_self {f : Nat → Nat} : ∀ {W : List (List Char × Nat)},
    (∀ it ∈ W, f it.2 = it.2) → wmap f W = W
  | [], _ => rfl
  | it :: rest, h => by
    show (it.1, f it.2) :: wmap f rest = it :: rest
    rw [h it (by simp), wmap_self (fun x hx => h x (by simp [hx])), Prod.mk.eta]

theorem wmap_wmap (f g : Nat → Nat) (W : List (List Char × Nat)) :
    wmap f (wmap g W) = wmap (fun k => f (g k)) W := by
  unfold wmap
  rw [List.map_map]
  rfl

/-- Permuting the work entries of a column yields isomorphic arenas and
correspondingly permuted surviving work. -/
theorem processColumn_perm (i : Nat) {W1 W2 : List (List Char × Nat)}
    (hperm : W1.Perm W2) :
    ∀ (A : List ACNode), Inv A →
      (∀ it ∈ W1, it.2 < A.length) →
      (∀ it ∈ W1, depthIdx A it.2 = i) →
      (∀ p ∈ W1, ∀ q ∈ W1, p.2 = q.2 → p.1.take i = q.1.take i) →
      (W1.map (·.1)).Nodup →
      ∃ A1 V1 A2 V2 φ ψ,
        processColumn i A W1 = some (A1, V1) ∧
        processColumn i A W2 = some (A2, V2) ∧
        IsoPred φ ψ A1 A2 ∧ V2.Perm (wmap φ V1) ∧
        (∀ k, k < A.length → φ k = k) ∧ (∀ k, k < A.length → ψ k = k) := by
  induction hperm with
  | nil =>
    intro A hInv hb hwd hwpre hnd
    exact ⟨A, [], A, [], (fun k => k), (fun k => k), rfl, rfl, iso_refl A,
      List.Perm.refl _, fun _ _ => rfl, fun _ _ => rfl⟩
  | cons x l12 ih =>
    intro A hInv hb hwd hwpre hnd
    obtain ⟨s, cur⟩ := x
    have hcur : cur < A.length := hb (s, cur) (by simp)
    obtain ⟨A1, res, hrun, hInv1, hle1, hres, -, -, hdep1, -, -⟩ :=
      processString_run hInv i s hcur
    obtain ⟨A3, V1a, A4, V2a, φ, ψ, hc1, hc2, hiso, hperm2, hφag, hψag⟩ :=
      ih A1 hInv1
        (fun it hit => Nat.lt_of_lt_of_le (hb it (by simp [hit])) hle1)
        (fun it hit => by
          rw [hdep1 it.2 (hb it (by simp [hit]))]
          exact hwd it (by simp [hit]))
        (fun p hp q hq hpq => hwpre p (by simp [hp]) q (by simp [hq]) hpq)
        (by
          have h := hnd
          simp only [List.map_cons, List.nodup_cons] at h
          exact h.2)
    rcases hres with ⟨hge, heq1, hresn⟩ | ⟨hlt, ch, hressome, hchlt⟩
    · subst hresn
      exact ⟨A3, V1a, A4, V2a, φ, ψ, processColumn_cons hrun hc1,
        processColumn_cons hrun hc2, hiso, hperm2,
        fun k hk => hφag k (by omega), fun k hk => hψag k (by omega)⟩
    · subst hressome
      refine ⟨A3, (s, ch) :: V1a, A4, (s, ch) :: V2a, φ, ψ,
        processColumn_cons hrun hc1, processColumn_cons hrun hc2, hiso, ?_,
        fun k hk => hφag k (by omega), fun k hk => hψag k (by omega)⟩
      show ((s, ch) :: V2a).Perm ((s, φ ch) :: wmap φ V1a)
      rw [hφag ch hchlt]
      exact List.Perm.cons _ hperm2
  | swap x y l =>
    intro A hInv hb hwd hwpre hnd
    obtain ⟨s2, c2⟩ := x
    obtain ⟨s1, c1⟩ := y
    have hc1 : c1 < A.length := hb (s1, c1) (by simp)
    have hc2 : c2 < A.length := hb (s2, c2) (by simp)
    have hd1 : depthIdx A c1 = i := hwd (s1, c1) (by simp)
    have hd2 : depthIdx A c2 = i := hwd (s2, c2) (by simp)
    have hpre12 : c1 = c2 → s1.take i = s2.take i :=
      fun he => hwpre (s1, c1) (by simp) (s2, c2) (by simp) he
    have hne12 : s1 ≠ s2 := by
      have h := hnd
      simp only [List.map_cons, List.nodup_cons, List.mem_cons] at h
      exact fun he => h.1 (Or.inl he)
    obtain ⟨B1, r1, B12, r2, B2, r3, B21, r4, φs, ψs, P1, P2, P3, P4,
      hisoS, hr4, hr3, hφsag, hψsag⟩ :=
      processPair_swap hInv i s1 s2 c1 c2 hc1 hc2 hd1 hd2 hpre12 hne12
    -- invariants along the first order
    obtain ⟨B1a, r1a, hrun1a, hInvB1a, hle1a, hres1a, -⟩ :=
      processString_inv hInv i s1 hc1
    have e1 := ps_det hrun1a P1
    injection e1 with e1A e1r
    have hInvB1 : Inv B1 := e1A ▸ hInvB1a
    have hleB1 : A.length ≤ B1.length := by
      rw [← e1A]
      exact hle1a
    obtain ⟨B12a, r2a, hrun2a, hInvB12a, hle2a, hres2a, -⟩ :=
      processString_inv hInvB1 i s2 (show c2 < B1.length by omega)
    have e2 := ps_det hrun2a P2
    injection e2 with e2A e2r
    have hInvB12 : Inv B12 := e2A ▸ hInvB12a
    have hleB12 : B1.length ≤ B12.length := by
      rw [← e2A]
      exact hle2a
    have hchr1 : ∀ ch, r1 = some ch → ch < B1.length := by
      intro ch hch
      rw [e1r, hch] at hres1a
      rcases hres1a with ⟨-, -, hno⟩ | ⟨-, ch2, hsome, hlt2⟩
      · exact Option.noConfusion hno
      · injection hsome with h
        rw [← h, e1A] at hlt2
        exact hlt2
    have hchr2 : ∀ ch, r2 = some ch → ch < B12.length := by
      intro ch hch
      rw [e2r, hch] at hres2a
      rcases hres2a with ⟨-, -, hno⟩ | ⟨-, ch2, hsome, hlt2⟩
      · exact Option.noConfusion hno
      · injection hsome with h
        rw [← h, e2A] at hlt2
        exact hlt2
    -- the remaining entries through the isomorphism
    obtain ⟨A1f, V1l, B2f, φ2, ψ2, hcol1, hcol2, hiso2, hφ2ag, hψ2ag⟩ :=
      processColumn_iso i l φs ψs B12 B21 hisoS hInvB12
        (fun it hit => Nat.lt_of_lt_of_le (hb it (by simp [hit])) (by omega))
    rw [wmap_self (fun it hit => hφsag it.2 (hb it (by simp [hit])))] at hcol2
    have hlenB21 : B12.length = B21.length := hisoS.1
    refine ⟨A1f, consRes s1 r1 (consRes s2 r2 V1l), B2f,
      consRes s2 r3 (consRes s1 r4 (wmap φ2 V1l)), φ2, ψ2,
      processColumn_cons P1 (processColumn_cons P2 hcol1),
      processColumn_cons P3 (processColumn_cons P4 hcol2),
      hiso2, ?_,
      fun k hk => (hφ2ag k (by omega)).trans (hφsag k hk),
      fun k hk => (hψ2ag k (by omega)).trans (hψsag k hk)⟩
    cases hcr1 : r1 with
    | none =>
      rw [hcr1, Option.map_none'] at hr4
      rw [hr4]
      cases hcr2 : r2 with
      | none =>
        rw [hcr2, Option.map_none'] at hr3
        rw [hr3]
        exact List.Perm.refl _
      | some ch2 =>
        rw [hcr2, Option.map_some'] at hr3
        rw [hr3]
        show ((s2, φs ch2) :: wmap φ2 V1l).Perm ((s2, φ2 ch2) :: wmap φ2 V1l)
        rw [hφ2ag ch2 (hchr2 ch2 hcr2)]
    | some ch1 =>
      rw [hcr1, Option.map_some'] at hr4
      rw [hr4]
      cases hcr2 : r2 with
      | none =>
        rw [hcr2, Option.map_none'] at hr3
        rw [hr3]
        show ((s1, φs ch1) :: wmap φ2 V1l).Perm ((s1, φ2 ch1) :: wmap φ2 V1l)
        rw [hφ2ag ch1 (by have := hchr1 ch1 hcr1; omega)]
      | some ch2 =>
        rw [hcr2, Option.map_some'] at hr3
        rw [hr3]
        show ((s2, φs ch2) :: (s1, φs ch1) :: wmap φ2 V1l).Perm
          ((s1, φ2 ch1) :: (s2, φ2 ch2) :: wmap φ2 V1l)
        rw [hφ2ag ch2 (hchr2 ch2 hcr2),
          hφ2ag ch1 (by have := hchr1 ch1 hcr1; omega)]
        exact List.Perm.swap _ _ _
  | trans h12 h23 ih1 ih2 =>
    intro A hInv hb hwd hwpre hnd
    obtain ⟨A1, V1, A2, V2, φ, ψ, hA1, hA2, hiso12, hp12, hφag12, hψag12⟩ :=
      ih1 A hInv hb hwd hwpre hnd
    obtain ⟨A2a, V2a, A3, V3, φ2, ψ2, hA2a, hA3, hiso23, hp23, hφag23, hψag23⟩ :=
      ih2 A hInv
        (fun it hit => hb it (h12.mem_iff.mpr hit))
        (fun it hit => hwd it (h12.mem_iff.mpr hit))
        (fun p hp q hq hpq => hwpre p (h12.mem_iff.mpr hp) q (h12.mem_iff.mpr hq) hpq)
        (((h12.map (·.1)).nodup_iff).mp hnd)
    rw [hA2] at hA2a
    injection hA2a with hA2a
    injection hA2a with eA eV
    refine ⟨A1, V1, A3, V3, (fun k => φ2 (φ k)), (fun k => ψ (ψ2 k)),
      hA1, hA3, iso_trans hiso12 (by rw [eA]; exact hiso23), ?_,
      fun k hk => by
        show φ2 (φ k) = k
        rw [hφag12 k hk, hφag23 k hk],
      fun k hk => by
        show ψ (ψ2 k) = k
        rw [hψag23 k hk, hψag12 k hk]⟩
    have hp23b : V3.Perm (wmap φ2 V2) := by
      rw [eV]
      exact hp23
    refine hp23b.trans ?_
    have hmapped : (List.map (fun (it : List Char × Nat) => (it.1, φ2 it.2)) V2).Perm
        (List.map (fun (it : List Char × Nat) => (it.1, φ2 it.2)) (wmap φ V1)) :=
      hp12.map _
    have hmapped2 : (wmap φ2 V2).Perm (wmap φ2 (wmap φ V1)) := hmapped
    rw [wmap_wmap] at hmapped2
    exact hmapped2
  
theorem pc_det {i : Nat} {A : List ACNode} {W : List (List Char × Nat)}
    {X Y : List ACNode × List (List Char × Nat)}
    (h1 : processColumn i A W = some X) (h2 : processColumn i A W = some Y) :
    X = Y := by
  rw [h1] at h2
  injection h2

theorem map_fst_wmap (φ : Nat → Nat) (W : List (List Char × Nat)) :
    (wmap φ W).map (·.1) = W.map (·.1) := by
  unfold wmap
  rw [List.map_map]
  rfl

theorem any_perm_wmap {φ : Nat → Nat} {W1 W2 : List (List Char × Nat)}
    (h : W2.Perm (wmap φ W1)) :
    W2.any (fun sc => !sc.1.isEmpty) = W1.any (fun sc => !sc.1.isEmpty) := by
  cases ha : W1.any (fun sc => !sc.1.isEmpty) with
  | true =>
    obtain ⟨x, hx, hpx⟩ := List.any_eq_true.mp ha
    refine List.any_eq_true.mpr ⟨(x.1, φ x.2), ?_, hpx⟩
    exact h.mem_iff.mpr (List.mem_map.mpr ⟨x, hx, rfl⟩)
  | false =>
    cases hb : W2.any (fun sc => !sc.1.isEmpty) with
    | false => rfl
    | true =>
      exfalso
      obtain ⟨y, hy, hpy⟩ := List.any_eq_true.mp hb
      obtain ⟨x, hx, hxy⟩ := List.mem_map.mp (h.mem_iff.mp hy)
      have hfa := List.any_eq_false.mp ha x hx
      rw [← hxy] at hpy
      exact hfa hpy

/-- Surviving work entries of one column sit one level deeper and still
determine their string prefix. -/
theorem column_next {i : Nat} {A A2 : List ACNode} {W W2 : List (List Char × Nat)}
    (hInv2 : Inv A2)
    (hwd : ∀ it ∈ W, depthIdx A it.2 = i)
    (hwpre : ∀ p ∈ W, ∀ q ∈ W, p.2 = q.2 → p.1.take i = q.1.take i)
    (hilen : ∀ it ∈ W2, i < it.1.length)
    (hfacts : ∀ it ∈ W2, ∃ cur0, (it.1, cur0) ∈ W ∧
        isEdge A2 cur0 (it.1.getD i default) it.2 ∧
        depthIdx A2 it.2 = depthIdx A cur0 + 1) :
    (∀ it ∈ W2, depthIdx A2 it.2 = i + 1) ∧
    (∀ p ∈ W2, ∀ q ∈ W2, p.2 = q.2 → p.1.take (i + 1) = q.1.take (i + 1)) := by
  obtain ⟨-, -, -, -, heu2, -, -, -⟩ := hInv2
  constructor
  · intro it hit
    obtain ⟨cur0, hmem, -, hdep⟩ := hfacts it hit
    rw [hdep, hwd (it.1, cur0) hmem]
  · intro p hp q hq hpq
    obtain ⟨cp, hmp, hep, -⟩ := hfacts p hp
    obtain ⟨cq, hmq, heq2, -⟩ := hfacts q hq
    rw [← hpq] at heq2
    obtain ⟨hc0, hch⟩ := heu2 cp _ p.2 cq _ hep heq2
    have htake : p.1.take i = q.1.take i := by
      refine hwpre (p.1, cp) hmp (q.1, cq) hmq ?_
      exact hc0
    rw [take_succ_getD (hilen p hp), take_succ_getD (hilen q hq), htake, hch]

/-- The whole construction loop: permuted work over isomorphic arenas keeps
the arenas isomorphic. -/
theorem buildLoop_perm_iso :
    ∀ (fuel i : Nat) (A B : List ACNode) (W1 W2 : List (List Char × Nat))
      (φ ψ : Nat → Nat),
      IsoPred φ ψ A B → Inv A → Inv B → ChildKeysUniq A → ChildKeysUniq B →
      (∀ it ∈ W1, it.2 < A.length) → (∀ it ∈ W2, it.2 < B.length) →
      (∀ it ∈ W1, depthIdx A it.2 = i) → (∀ it ∈ W2, depthIdx B it.2 = i) →
      (∀ p ∈ W1, ∀ q ∈ W1, p.2 = q.2 → p.1.take i = q.1.take i) →
      (∀ p ∈ W2, ∀ q ∈ W2, p.2 = q.2 → p.1.take i = q.1.take i) →
      (W1.map (·.1)).Nodup →
      W2.Perm (wmap φ W1) →
      ∀ N1, buildLoop fuel i A W1 = some N1 →
      ∃ N2 φ2 ψ2, buildLoop fuel i B W2 = some N2 ∧ IsoPred φ2 ψ2 N1 N2
  | 0, i, A, B, W1, W2, φ, ψ => by
    intro hiso hInvA hInvB hckA hckB hb1 hb2 hwd1 hwd2 hwp1 hwp2 hnd hperm N1 hrun
    rw [show buildLoop 0 i A W1
        = (if W1.any (fun sc => !sc.1.isEmpty) then none else some A) from rfl] at hrun
    by_cases hcond : W1.any (fun sc => !sc.1.isEmpty) = true
    · rw [if_pos hcond] at hrun
      exact Option.noConfusion hrun
    · rw [if_neg hcond] at hrun
      injection hrun with hrun
      refine ⟨B, φ, ψ, ?_, by rw [← hrun]; exact hiso⟩
      show (if W2.any (fun sc => !sc.1.isEmpty) then none else some B) = some B
      rw [any_perm_wmap hperm, if_neg hcond]
  | fuel + 1, i, A, B, W1, W2, φ, ψ => by
    intro hiso hInvA hInvB hckA hckB hb1 hb2 hwd1 hwd2 hwp1 hwp2 hnd hperm N1 hrun
    rw [show buildLoop (fuel + 1) i A W1 = (if W1.any (fun sc => !sc.1.isEmpty) then
          match processColumn i A W1 with
          | none => none
          | some (nodes1, work1) => buildLoop fuel (i + 1) nodes1 work1
        else some A) from rfl] at hrun
    by_cases hcond : W1.any (fun sc => !sc.1.isEmpty) = true
    · rw [if_pos hcond] at hrun
      obtain ⟨A2, W1n, hpcA, hInvA2, hleA, hbA2, horigA, -⟩ :=
        processColumn_inv i W1 A hInvA hb1
      rw [hpcA] at hrun
      dsimp only at hrun
      -- structural bookkeeping on the first side
      obtain ⟨A2b, W1b, hpcAb, hckf, hdepf, hedgef, hsubf, hfactf⟩ :=
        processColumn_pres i W1 A hInvA hb1
      have eA := pc_det hpcAb hpcA
      injection eA with eA1 eA2
      have hckA2 : ChildKeysUniq A2 := eA1 ▸ hckf hckA
      have hdepA : ∀ k, k < A.length → depthIdx A2 k = depthIdx A k := by
        rw [← eA1]
        exact hdepf
      have hsubA : (W1n.map (·.1)).Sublist (W1.map (·.1)) := by
        rw [← eA2]
        exact hsubf
      have hfactA : ∀ it ∈ W1n, ∃ cur0, (it.1, cur0) ∈ W1 ∧
          isEdge A2 cur0 (it.1.getD i default) it.2 ∧
          depthIdx A2 it.2 = depthIdx A cur0 + 1 := by
        rw [← eA1, ← eA2]
        exact hfactf
      -- mirror the column onto the isomorphic arena
      obtain ⟨A2c, W1c, B2a, φa, ψa, hpcAc, hpcBc, hisoa, hφaag, hψaag⟩ :=
        processColumn_iso i W1 φ ψ A B hiso hInvA hb1
      have eC := pc_det hpcAc hpcA
      injection eC with eC1 eC2
      have hisoa2 : IsoPred φa ψa A2 B2a := eC1 ▸ hisoa
      rw [eC2] at hpcBc
      -- permute the column on the second arena
      obtain ⟨B2b, V1b, B2c, V2c, φb, ψb, hpcB1, hpcB2, hisob, hpermb, hφbag, hψbag⟩ :=
        processColumn_perm i hperm.symm B hInvB
          (fun it hit => hb2 it (hperm.mem_iff.mpr hit))
          (fun it hit => hwd2 it (hperm.mem_iff.mpr hit))
          (fun p hp q hq hpq => hwp2 p (hperm.mem_iff.mpr hp) q
            (hperm.mem_iff.mpr hq) hpq)
          (by rw [map_fst_wmap]; exact hnd)
      have eB := pc_det hpcB1 hpcBc
      injection eB with eB1 eB2
      have hisob2 : IsoPred φb ψb B2a B2c := eB1 ▸ hisob
      have hpermc : V2c.Perm (wmap (fun k => φb (φa k)) W1n) := by
        rw [eB2, wmap_wmap] at hpermb
        exact hpermb
      -- second-side invariants
      obtain ⟨B2d, W2d, hpcBd, hInvB2d, hleB, hbB2d, horigB, -⟩ :=
        processColumn_inv i W2 B hInvB hb2
      have eD := pc_det hpcBd hpcB2
      injection eD with eD1 eD2
      have hInvB2 : Inv B2c := eD1 ▸ hInvB2d
      have hbB2 : ∀ it ∈ V2c, it.2 < B2c.length := by
        rw [← eD1, ← eD2]
        exact hbB2d
      have horigB2 : ∀ it ∈ V2c, (∃ cur0, (it.1, cur0) ∈ W2) ∧ i < it.1.length := by
        rw [← eD2]
        exact horigB
      obtain ⟨B2e, W2e, hpcBe, hckg, hdepg, hedgeg, hsubg, hfactg⟩ :=
        processColumn_pres i W2 B hInvB hb2
      have eE := pc_det hpcBe hpcB2
      injection eE with eE1 eE2
      have hckB2 : ChildKeysUniq B2c := eE1 ▸ hckg hckB
      have hfactB : ∀ it ∈ V2c, ∃ cur0, (it.1, cur0) ∈ W2 ∧
          isEdge B2c cur0 (it.1.getD i default) it.2 ∧
          depthIdx B2c it.2 = depthIdx B cur0 + 1 := by
        rw [← eE1, ← eE2]
        exact hfactg
      -- next-column work invariants on both sides
      obtain ⟨hwd1n, hwp1n⟩ := column_next hInvA2 hwd1 hwp1
        (fun it hit => (horigA it hit).2) hfactA
      obtain ⟨hwd2n, hwp2n⟩ := column_next hInvB2 hwd2 hwp2
        (fun it hit => (horigB2 it hit).2) hfactB
      have hndn : (W1n.map (·.1)).Nodup := hnd.sublist hsubA
      obtain ⟨N2, φf, ψf, hrunB, hisof⟩ :=
        buildLoop_perm_iso fuel (i + 1) A2 B2c W1n V2c
          (fun k => φb (φa k)) (fun k => ψa (ψb k))
          (iso_trans hisoa2 hisob2) hInvA2 hInvB2 hckA2 hckB2
          hbA2 hbB2 hwd1n hwd2n hwp1n hwp2n hndn hpermc N1 hrun
      refine ⟨N2, φf, ψf, ?_, hisof⟩
      show (if W2.any (fun sc => !sc.1.isEmpty) then
          match processColumn i B W2 with
          | none => none
          | some (nodes1, work1) => buildLoop fuel (i + 1) nodes1 work1
        else some B) = some N2
      rw [if_pos (by rw [any_perm_wmap hperm]; exact hcond), hpcB2]
      dsimp only
      exact hrunB
    · rw [if_neg hcond] at hrun
      injection hrun with hrun
      refine ⟨B, φ, ψ, ?_, by rw [← hrun]; exact hiso⟩
      show (if W2.any (fun sc => !sc.1.isEmpty) then
          match processColumn i B W2 with
          | none => none
          | some (nodes1, work1) => buildLoop fuel (i + 1) nodes1 work1
        else some B) = some B
      rw [any_perm_wmap hperm, if_neg hcond]

/-! ### Order and duplication invariance: matching phase and assembly -/

theorem findLoop_iso {φ ψ : Nat → Nat} {N1 N2 : List ACNode}
    (hiso : IsoPred φ ψ N1 N2) (hInv1 : Inv N1) :
    ∀ (s : List Char) (cur : Nat), cur < N1.length → ∀ found,
      findLoop N2 (φ cur) s found = findLoop N1 cur s found
  | [], _, _, _ => rfl
  | c :: rest, cur, hcur, found => by
    have hsfx : SuffixLt N1 := hInv1.2.1
    have hcb : ChildrenBound N1 := hInv1.2.2.1
    have hl1 : 1 ≤ N1.length := hInv1.1
    obtain ⟨nxt, vals, hrun, hlt⟩ :=
      mfAux_run_lt hsfx hcb hl1 cur hcur (N1.length + 1) (by omega) c ∅
    have hmf := mfAux_iso hiso hsfx (N1.length + 1) (some cur) c ∅
      (Or.inr ⟨cur, rfl, hcur⟩)
    rw [hrun] at hmf
    have hmf2 : mfAux N2 (N2.length + 1) (some (φ cur)) c ∅ = some (φ nxt, vals) := by
      rw [← hiso.1]
      exact hmf
    have hL : findLoop N2 (φ cur) (c :: rest) found
        = findLoop N2 (φ nxt) rest (found ∪ vals) := by
      show (match mfAux N2 (N2.length + 1) (some (φ cur)) c ∅ with
        | none => none
        | some (nxt, traversed) => findLoop N2 nxt rest (found ∪ traversed)) = _
      rw [hmf2]
    have hR : findLoop N1 cur (c :: rest) found
        = findLoop N1 nxt rest (found ∪ vals) := by
      show (match mfAux N1 (N1.length + 1) (some cur) c ∅ with
        | none => none
        | some (nxt, traversed) => findLoop N1 nxt rest (found ∪ traversed)) = _
      rw [hrun]
    rw [hL, hR]
    exact findLoop_iso hiso hInv1 rest nxt hlt (found ∪ vals)

theorem find_iso {φ ψ : Nat → Nat} {N1 N2 : List ACNode}
    (hiso : IsoPred φ ψ N1 N2) (hInv1 : Inv N1)
    (str1 str2 : List (List Char)) (s : List Char) :
    find_substrings_in_superstring ⟨str2, N2⟩ s
      = find_substrings_in_superstring ⟨str1, N1⟩ s := by
  have hl1 : 1 ≤ N1.length := hInv1.1
  obtain ⟨r1, hr1⟩ := get?_isSome_of_lt (show (0:Nat) < N1.length by omega)
  obtain ⟨r2, hr2, hmn⟩ := hiso.2.2.2.2.2.2.2 0 r1 hr1
  have hφ0 : φ 0 = 0 := hiso.2.1
  rw [hφ0] at hr2
  have hfl := findLoop_iso hiso hInv1 (s ++ [sentinelChar]) 0 (by omega)
      (if r1.value.isSome then {[]} else ∅)
  rw [hφ0] at hfl
  have hv : r2.value = r1.value := hmn.1
  have hL : find_substrings_in_superstring ⟨str2, N2⟩ s
      = findLoop N2 0 (s ++ [sentinelChar]) (if r2.value.isSome then {[]} else ∅) := by
    show (match N2.get? 0 with
      | none => none
      | some root => findLoop N2 0 (s ++ [sentinelChar])
          (if root.value.isSome then {[]} else ∅)) = _
    rw [hr2]
  have hR : find_substrings_in_superstring ⟨str1, N1⟩ s
      = findLoop N1 0 (s ++ [sentinelChar]) (if r1.value.isSome then {[]} else ∅) := by
    show (match N1.get? 0 with
      | none => none
      | some root => findLoop N1 0 (s ++ [sentinelChar])
          (if root.value.isSome then {[]} else ∅)) = _
    rw [hr1]
  rw [hL, hR, hv]
  exact hfl

theorem pyDedup_acc_mem {x : List Char} :
    ∀ (l : List (List Char)) (acc : List (List Char)), x ∈ acc →
      x ∈ l.foldl (fun acc s => if s ∈ acc then acc else acc ++ [s]) acc
  | [], _, h => h
  | a :: l, acc, h =>
    pyDedup_acc_mem l (if a ∈ acc then acc else acc ++ [a])
      (by by_cases ha : a ∈ acc
          · rw [if_pos ha]; exact h
          · rw [if_neg ha]; exact List.mem_append.mpr (Or.inl h))

theorem pyDedup_mem_of {x : List Char} :
    ∀ (l : List (List Char)) (acc : List (List Char)), x ∈ l →
      x ∈ l.foldl (fun acc s => if s ∈ acc then acc else acc ++ [s]) acc
  | a :: l, acc, h => by
    rcases List.mem_cons.mp h with rfl | h2
    · have : x ∈ l.foldl (fun acc s => if s ∈ acc then acc else acc ++ [s])
          (if x ∈ acc then acc else acc ++ [x]) := by
        refine pyDedup_acc_mem l _ ?_
        by_cases ha : x ∈ acc
        · rw [if_pos ha]; exact ha
        · rw [if_neg ha]; exact List.mem_append.mpr (Or.inr (by simp))
      exact this
    · exact pyDedup_mem_of l _ h2

theorem pyDedup_nodup_aux :
    ∀ (l : List (List Char)) (acc : List (List Char)), acc.Nodup →
      (l.foldl (fun acc s => if s ∈ acc then acc else acc ++ [s]) acc).Nodup
  | [], _, h => h
  | a :: l, acc, h => by
    have hstep : (if a ∈ acc then acc else acc ++ [a]).Nodup := by
      by_cases ha : a ∈ acc
      · rw [if_pos ha]; exact h
      · rw [if_neg ha]
        refine List.Nodup.append h (List.nodup_singleton a) ?_
        intro x hx hxa
        rw [List.mem_singleton] at hxa
        subst hxa
        exact ha hx
    exact pyDedup_nodup_aux l _ hstep

theorem pyDedup_nodup (l : List (List Char)) : (pyDedup l).Nodup :=
  pyDedup_nodup_aux l [] List.nodup_nil

theorem foldl_max_le : ∀ (l : List Nat) (init c : Nat), init ≤ c → (∀ a ∈ l, a ≤ c) →
    l.foldl max init ≤ c
  | [], _, _, h, _ => h
  | b :: l, init, c, h, h2 => by
    have hm : max init b ≤ c := Nat.max_le.mpr ⟨h, h2 b (by simp)⟩
    exact foldl_max_le l _ c hm (fun a ha => h2 a (by simp [ha]))

theorem foldl_max_eq {P1 P2 : List (List Char)} (hmem : ∀ x, x ∈ P1 ↔ x ∈ P2) :
    (P1.map (·.length)).foldl max 0 = (P2.map (·.length)).foldl max 0 := by
  apply Nat.le_antisymm
  · refine foldl_max_le _ 0 _ (Nat.zero_le _) ?_
    intro a ha
    obtain ⟨s, hs, rfl⟩ := List.mem_map.mp ha
    exact (le_foldl_max _ 0).2 s.length (List.mem_map.mpr ⟨s, (hmem s).mp hs, rfl⟩)
  · refine foldl_max_le _ 0 _ (Nat.zero_le _) ?_
    intro a ha
    obtain ⟨s, hs, rfl⟩ := List.mem_map.mp ha
    exact (le_foldl_max _ 0).2 s.length (List.mem_map.mpr ⟨s, (hmem s).mpr hs, rfl⟩)

theorem invNodes0 (rv : Option (List Char)) :
    Inv [⟨rv, [], none⟩] ∧ ChildKeysUniq [⟨rv, [], none⟩] := by
  have hget0 : ∀ k nd, ([⟨rv, [], none⟩] : List ACNode).get? k = some nd →
      k = 0 ∧ nd = ⟨rv, [], none⟩ := by
    intro k nd h
    cases k with
    | zero => exact ⟨rfl, by injection h with h; exact h.symm⟩
    | succ m =>
      have : ([⟨rv, [], none⟩] : List ACNode).length ≤ m + 1 := by simp
      rw [List.get?_eq_none.mpr this] at h
      exact Option.noConfusion h
  constructor
  · refine ⟨by simp, ?_, ?_, ?_, ?_, ?_, ?_, ?_⟩
    · intro i nd j hnd hsl
      obtain ⟨_, rfl⟩ := hget0 i nd hnd
      exact Option.noConfusion hsl
    · intro k nd hnd p hp
      obtain ⟨_, rfl⟩ := hget0 k nd hnd
      exact absurd hp (by simp)
    · intro i c j he
      obtain ⟨nd, hnd, hm⟩ := he
      obtain ⟨_, rfl⟩ := hget0 i nd hnd
      exact absurd hm (by simp)
    · intro i c j i2 c2 he _
      obtain ⟨nd, hnd, hm⟩ := he
      obtain ⟨_, rfl⟩ := hget0 i nd hnd
      exact absurd hm (by simp)
    · intro j nd hnd hj
      obtain ⟨hj0, _⟩ := hget0 j nd hnd
      omega
    · intro j nd k hnd hsl
      obtain ⟨_, rfl⟩ := hget0 j nd hnd
      exact Option.noConfusion hsl
    · intro c j he
      obtain ⟨nd, hnd, hm⟩ := he
      obtain ⟨_, rfl⟩ := hget0 0 nd hnd
      exact absurd hm (by simp)
  · intro k nd hnd p q hp hq hpq
    obtain ⟨_, rfl⟩ := hget0 k nd hnd
    exact absurd hp (by simp)

/-- **C6.** For every two collections of strings `P1` and `P2` containing the
same set of distinct strings (one a permutation and/or duplication of the
other) and every string `S`, `AhoCorasick(P1).find_substrings_in_superstring(S)`
equals `AhoCorasick(P2).find_substrings_in_superstring(S)`. -/
theorem claim_C6_order_duplication_invariance
    (P1 P2 : List (List Char)) (S : List Char)
    (h : P1.toFinset = P2.toFinset) :
    acMatches P1 S = acMatches P2 S := by
  have hmem : ∀ x : List Char, x ∈ P1 ↔ x ∈ P2 := by
    intro x
    rw [← List.mem_toFinset, h, List.mem_toFinset]
  set rv : Option (List Char) := if [] ∈ P1 then some [] else none with hrvdef
  have hrv2 : (if [] ∈ P2 then (some [] : Option (List Char)) else none) = rv := by
    rw [hrvdef]
    by_cases h0 : [] ∈ P1
    · rw [if_pos ((hmem []).mp h0), if_pos h0]
    · rw [if_neg (fun hc => h0 ((hmem []).mpr hc)), if_neg h0]
  set nodes0 : List ACNode := [⟨rv, [], none⟩] with hn0
  set W1 := (pyDedup P1).map (fun s => (s, 0)) with hW1def
  set W2 := (pyDedup P2).map (fun s => (s, 0)) with hW2def
  set maxLen := (P1.map (·.length)).foldl max 0 with hmldef
  have hml2 : (P2.map (·.length)).foldl max 0 = maxLen := by
    rw [hmldef]
    exact (foldl_max_eq hmem).symm
  obtain ⟨hInv0, hck0⟩ := invNodes0 rv
  have hb1 : ∀ it ∈ W1, it.2 < nodes0.length := by
    intro it hit
    obtain ⟨s, _, heq⟩ := List.mem_map.mp hit
    rw [← heq]
    simp [hn0]
  have hb2 : ∀ it ∈ W2, it.2 < nodes0.length := by
    intro it hit
    obtain ⟨s, _, heq⟩ := List.mem_map.mp hit
    rw [← heq]
    simp [hn0]
  have hlen1 : ∀ it ∈ W1, 0 ≤ it.1.length ∧ it.1.length ≤ maxLen := by
    intro it hit
    obtain ⟨s, hs, heq⟩ := List.mem_map.mp hit
    rw [← heq]
    exact ⟨Nat.zero_le _, (le_foldl_max _ 0).2 s.length
      (List.mem_map.mpr ⟨s, pyDedup_mem hs, rfl⟩)⟩
  obtain ⟨N1, hrun1, hInvN1, _⟩ :=
    buildLoop_inv (maxLen + 2) 0 nodes0 W1 maxLen hInv0 hb1 hlen1 (by omega)
  have hdp : (pyDedup P2).Perm (pyDedup P1) := by
    refine (List.perm_ext_iff_of_nodup (pyDedup_nodup P2) (pyDedup_nodup P1)).mpr ?_
    intro x
    constructor
    · intro hx
      exact pyDedup_mem_of P1 [] ((hmem x).mpr (pyDedup_mem hx))
    · intro hx
      exact pyDedup_mem_of P2 [] ((hmem x).mp (pyDedup_mem hx))
  have hws : wmap (fun k : Nat => k) W1 = W1 := wmap_self (fun it _ => rfl)
  have hperm : W2.Perm (wmap (fun k : Nat => k) W1) := by
    rw [hws, hW1def, hW2def]
    exact hdp.map (fun s => (s, 0))
  have hwd1 : ∀ it ∈ W1, depthIdx nodes0 it.2 = 0 := by
    intro it hit
    obtain ⟨s, _, heq⟩ := List.mem_map.mp hit
    rw [← heq]
    exact depthIdx_zero hInv0.2.2.1
  have hwd2 : ∀ it ∈ W2, depthIdx nodes0 it.2 = 0 := by
    intro it hit
    obtain ⟨s, _, heq⟩ := List.mem_map.mp hit
    rw [← heq]
    exact depthIdx_zero hInv0.2.2.1
  have hwp1 : ∀ p ∈ W1, ∀ q ∈ W1, p.2 = q.2 → p.1.take 0 = q.1.take 0 := by
    intro p _ q _ _
    rw [List.take_zero, List.take_zero]
  have hwp2 : ∀ p ∈ W2, ∀ q ∈ W2, p.2 = q.2 → p.1.take 0 = q.1.take 0 := by
    intro p _ q _ _
    rw [List.take_zero, List.take_zero]
  have hnd1 : (W1.map (·.1)).Nodup := by
    have hmm : W1.map (·.1) = pyDedup P1 := by
      rw [hW1def, List.map_map]
      show List.map (fun s => s) (pyDedup P1) = pyDedup P1
      exact List.map_id _
    rw [hmm]
    exact pyDedup_nodup P1
  obtain ⟨N2, φ2, ψ2, hrun2, hisoN⟩ :=
    buildLoop_perm_iso (maxLen + 2) 0 nodes0 nodes0 W1 W2 (fun k => k) (fun k => k)
      (iso_refl nodes0) hInv0 hInv0 hck0 hck0 hb1 hb2 hwd1 hwd2 hwp1 hwp2 hnd1 hperm
      N1 hrun1
  have hbA1 : buildAC P1 = some ⟨P1, N1⟩ := by
    show (match buildLoop (maxLen + 2) 0 nodes0 W1 with
      | none => none
      | some nodes => some (AhoCorasick.mk P1 nodes)) = some (AhoCorasick.mk P1 N1)
    rw [hrun1]
  have hbA2 : buildAC P2 = some ⟨P2, N2⟩ := by
    show (match buildLoop (((P2.map (·.length)).foldl max 0) + 2) 0
        [⟨(if [] ∈ P2 then some [] else none), [], none⟩] W2 with
      | none => none
      | some nodes => some (AhoCorasick.mk P2 nodes)) = some (AhoCorasick.mk P2 N2)
    rw [hml2, hrv2, ← hn0, hrun2]
  show (buildAC P1).bind (fun a => find_substrings_in_superstring a S)
      = (buildAC P2).bind (fun a => find_substrings_in_superstring a S)
  rw [hbA1, hbA2]
  show find_substrings_in_superstring ⟨P1, N1⟩ S
      = find_substrings_in_superstring ⟨P2, N2⟩ S
  exact (find_iso hisoN hInvN1 P1 P2 S).symm

/-- Witness for C6: `["ab", "b"]` and `["b", "ab", "b"]` hold the same set of
distinct strings, and matching against `"abc"` agrees. -/
theorem claim_C6_order_duplication_invariance_witness :
    ([['a','b'], ['b']] : List (List Char)).toFinset
        = ([['b'], ['a','b'], ['b']] : List (List Char)).toFinset
      ∧ acMatches [['a','b'], ['b']] ['a','b','c']
        = acMatches [['b'], ['a','b'], ['b']] ['a','b','c'] :=
  ⟨by decide, claim_C6_order_duplication_invariance _ _ _ (by decide)⟩

end SubstringStructures
